import Mathlib

/-!
# Contiguous minimum-makespan scheduling: the pseudo-polynomial solver

A shallow embedding of `src/src/models/pseudo_polynomial.cpp` and the theorems
that settle the specification's statements about it.

Conventions of the embedding

* `std::vector<int>` is `List Int`.  A C++ `int` is an `Int` in
  `[-2^31, 2^31 - 1]`: every sum and difference of `int`s that the source
  computes is reduced into that range by `wrap32`, the two's-complement
  wrap-around of the 32-bit target.
* The number of jobs is taken to fit in an `int`, as the source takes it
  (`int n = times.size()`).  The loop index of `reconstructPartition` and the
  counter `blocks_needed`, which never exceed that number, are not wrapped.
* A job index is a `Nat`; `times[i]` is `times.getD i 0`.
* A `for` loop over a vector is a structural recursion over the list that
  carries the loop's local variables as arguments.
* The `while` loop of the binary search is a recursion on a fuel counter, and
  `none` stands for a loop that does not exit.  The loop is deterministic in
  the pair `(left, right)` of 32-bit values, so a loop that exits does so
  within `2^64` iterations, the fuel `findOptimalMakespan` is given.
* A `double` is a `Rat`.  What a call takes from outside its arguments (the
  duration the clock measures, the content of memory that was never written,
  an exception raised by an allocation) is gathered in a `Run`.
-/

namespace PseudoPoly

/-! ## Data model -/

/-- The three messages `validateInput` can store in `error_msg`. -/
inductive ValidationError where
  /-- The text "n must be in range [50, 5000] (n=...)". -/
  | sizeOutOfRange (n : Int)
  /-- The text "n must be greater than m (n=..., m=...)". -/
  | notMoreJobsThanMachines (n m : Int)
  /-- The text "Processing time at index i is v, must be in range [1, 24]". -/
  | timeOutOfRange (i : Nat) (v : Int)
  deriving DecidableEq, Repr

/-- The values the `status` string of a `PseudoPolySolution` takes. -/
inductive Status where
  | optimal
  | invalid_input
  | error (what : String)
  deriving DecidableEq, Repr

/-- The struct `PseudoPolySolution` of `pseudo_polynomial.hpp`. -/
structure PseudoPolySolution where
  makespan : Rat
  partition : List (List Nat)
  machine_loads : List Int
  solve_time : Rat
  feasibility_checks : Int
  status : Status
  deriving DecidableEq, Repr

/-- Where inside the `try` block of `solve` an exception is raised.  Only an
allocation can raise one there: the search and the feasibility test allocate
nothing. -/
inductive Thrown where
  /-- An allocation inside `reconstructPartition` fails, so the assignment to
  `result.partition` does not take place; `what` is `e.what()`. -/
  | in_reconstructPartition (what : String)
  /-- The call `machine_loads.push_back(load)` fails when `pushed` loads are
  stored already; `what` is `e.what()`. -/
  | in_machine_loads (pushed : Nat) (what : String)
  deriving DecidableEq, Repr

/-- What one call of `solve` takes from outside its arguments. -/
structure Run where
  /-- The duration between the two readings of the clock. -/
  elapsed : Rat
  /-- What the field `makespan` of the local `result` holds before anything is
  assigned to it. -/
  junk_makespan : Rat
  /-- What the field `feasibility_checks` of the local `result` holds before
  anything is assigned to it. -/
  junk_checks : Int
  /-- The exception raised inside the `try` block, if any. -/
  thrown : Option Thrown
  deriving DecidableEq, Repr

deriving instance DecidableEq for Except

/-! ## Arithmetic of `int` -/

/-- The value a 32-bit `int` holds after a computation whose exact result is
`x`: the representative of `x` modulo `2^32` in `[-2^31, 2^31 - 1]`. -/
def wrap32 (x : Int) : Int := (x + 2147483648) % 4294967296 - 2147483648

/-! ## validateInput -/

/-- The loop of `validateInput` over the processing times, started at index `i`:
the first index whose value is outside `[1, 24]`, with that value. -/
def firstBadTime : List Int → Nat → Option (Nat × Int)
  | [], _ => none
  | t :: ts, i => if t < 1 ∨ t > 24 then some (i, t) else firstBadTime ts (i + 1)

/-- The function `validateInput`: `.ok ()` is `return true`, `.error e` is
`return false` with `error_msg` set to the message `e`. -/
def validateInput (times : List Int) (m : Int) (is_test_mode : Bool) :
    Except ValidationError Unit :=
  let n : Int := times.length
  if !is_test_mode && (n < 50 || n > 5000) then
    .error (.sizeOutOfRange n)
  else if n ≤ m then
    .error (.notMoreJobsThanMachines n m)
  else
    match firstBadTime times 0 with
    | some (i, v) => .error (.timeOutOfRange i v)
    | none => .ok ()

/-! ## isFeasible -/

/-- The loop of `isFeasible`, with its locals `blocks_needed` and `current_sum`
as arguments. -/
def isFeasibleLoop (T m : Int) : List Int → Int → Int → Bool
  | [], _, _ => true
  | t :: ts, blocks_needed, current_sum =>
    if t > T then false
    else if wrap32 (current_sum + t) ≤ T then
      isFeasibleLoop T m ts blocks_needed (wrap32 (current_sum + t))
    else if blocks_needed + 1 > m then false
    else isFeasibleLoop T m ts (blocks_needed + 1) t

/-- The method `PseudoPolynomialSolver::isFeasible`. -/
def isFeasible (T : Int) (times : List Int) (m : Int) : Bool :=
  isFeasibleLoop T m times 1 0

/-! ## findOptimalMakespan -/

/-- The call `*max_element(times.begin(), times.end())`; `none` on an empty
vector, where the C++ dereferences the end iterator. -/
def maxElement : List Int → Option Int
  | [] => none
  | t :: ts => some (ts.foldl (fun largest x => if largest < x then x else largest) t)

/-- The call `accumulate(times.begin(), times.end(), 0)`: the accumulator is an
`int`. -/
def accumulate (times : List Int) : Int :=
  times.foldl (fun acc x => wrap32 (acc + x)) 0

/-- The `while (left < right)` loop of `findOptimalMakespan`, with the locals
`left`, `right` and `feasibility_checks` as arguments; `none` when the fuel is
used up before the loop condition fails. -/
def searchLoop (times : List Int) (m : Int) : Nat → Int → Int → Int → Option (Int × Int)
  | 0, left, right, checks => if left < right then none else some (left, checks)
  | fuel + 1, left, right, checks =>
    if left < right then
      let mid := wrap32 (left + Int.tdiv (wrap32 (right - left)) 2)
      if isFeasible mid times m then searchLoop times m fuel left mid (wrap32 (checks + 1))
      else searchLoop times m fuel (wrap32 (mid + 1)) right (wrap32 (checks + 1))
    else some (left, checks)

/-- The number of iterations granted to the loop of `findOptimalMakespan`:
`2^64`, the number of pairs `(left, right)` of 32-bit values. -/
def searchFuel : Nat := 18446744073709551616

/-- The method `PseudoPolynomialSolver::findOptimalMakespan`: the returned value
paired with the final `feasibility_checks`.  `none` means that no value is
returned: the vector is empty (undefined behaviour of `*max_element`) or the
loop does not exit. -/
def findOptimalMakespan (times : List Int) (m : Int) : Option (Int × Int) :=
  match maxElement times with
  | none => none
  | some left => searchLoop times m searchFuel left (accumulate times) 0

/-! ## reconstructPartition -/

/-- The loop of `reconstructPartition` from index `i` on, with the locals
`partition`, `current_block` and `current_sum` as arguments, followed by the
final push of a non-empty `current_block`. -/
def reconstructLoop (T_opt : Int) :
    List Int → Nat → List (List Nat) → List Nat → Int → List (List Nat)
  | [], _, partition, current_block, _ =>
    if current_block.isEmpty then partition else partition ++ [current_block]
  | t :: ts, i, partition, current_block, current_sum =>
    if wrap32 (current_sum + t) ≤ T_opt then
      reconstructLoop T_opt ts (i + 1) partition (current_block ++ [i])
        (wrap32 (current_sum + t))
    else
      reconstructLoop T_opt ts (i + 1) (partition ++ [current_block]) [i] t

/-- The method `PseudoPolynomialSolver::reconstructPartition`; like the C++ it
never reads `m`. -/
def reconstructPartition (times : List Int) (_m : Int) (T_opt : Int) : List (List Nat) :=
  reconstructLoop T_opt times 0 [] [] 0

/-! ## solve -/

/-- The inner loop of `solve` that adds up `times[job_idx]` over one block in
the `int` variable `load`. -/
def machineLoad (times : List Int) (block : List Nat) : Int :=
  block.foldl (fun load job_idx => wrap32 (load + times.getD job_idx 0)) 0

/-- The method `PseudoPolynomialSolver::solve`.

* On a rejected instance only `status` and `solve_time` are assigned; `makespan`
  and `feasibility_checks` keep what the memory of `result` held.
* Inside the `try` block `result.makespan` is assigned first.  An exception
  raised by `reconstructPartition` leaves the partition and the loads empty; one
  raised by a `push_back` of the load loop leaves the loads pushed so far (when
  `pushed` is not below the number of blocks no `push_back` is left to fail and
  the block runs to its end).  The `catch` clause sets `status` to `"error: "`
  followed by `e.what()`.
* `none` means that `solve` does not return, because `findOptimalMakespan` does
  not. -/
def solve (times : List Int) (m : Int) (is_test_mode : Bool) (run : Run) :
    Option PseudoPolySolution :=
  match validateInput times m is_test_mode with
  | .error _ =>
    some { makespan := run.junk_makespan, partition := [], machine_loads := [],
           solve_time := 0, feasibility_checks := run.junk_checks,
           status := .invalid_input }
  | .ok () =>
    match findOptimalMakespan times m with
    | none => none
    | some (makespan, checks) =>
      let partition := reconstructPartition times m makespan
      match run.thrown with
      | some (.in_reconstructPartition what) =>
        some { makespan := makespan, partition := [], machine_loads := [],
               solve_time := run.elapsed, feasibility_checks := checks,
               status := .error what }
      | some (.in_machine_loads pushed what) =>
        if pushed < partition.length then
          some { makespan := makespan, partition := partition,
                 machine_loads := (partition.map (machineLoad times)).take pushed,
                 solve_time := run.elapsed, feasibility_checks := checks,
                 status := .error what }
        else
          some { makespan := makespan, partition := partition,
                 machine_loads := partition.map (machineLoad times),
                 solve_time := run.elapsed, feasibility_checks := checks,
                 status := .optimal }
      | none =>
        some { makespan := makespan, partition := partition,
               machine_loads := partition.map (machineLoad times),
               solve_time := run.elapsed, feasibility_checks := checks,
               status := .optimal }

/-! ## Vocabulary of the specification -/

/-- Every processing time is at least 1. -/
def PositiveTimes (times : List Int) : Prop := ∀ t ∈ times, 1 ≤ t

/-- Every processing time lies in `[1, 24]`. -/
def TimesInRange (times : List Int) : Prop := ∀ t ∈ times, 1 ≤ t ∧ t ≤ 24

/-- The blocks of `P`, concatenated in order, are the job indices `0..n-1`. -/
def IsCut (n : Nat) (P : List (List Nat)) : Prop := P.flatten = List.range n

/-- The sum of the processing times of the jobs of a block, as an integer. -/
def blockLoad (times : List Int) (block : List Nat) : Int :=
  block.foldl (fun load job_idx => load + times.getD job_idx 0) 0

/-- The number `M` is the largest entry of the list `loads`. -/
def IsLargest (M : Int) (loads : List Int) : Prop := M ∈ loads ∧ ∀ l ∈ loads, l ≤ M

/-- The blocks of `P` cut the jobs of `times`, in order, into at most `m`
non-empty contiguous blocks. -/
def IsCutInto (times : List Int) (m : Int) (P : List (List Nat)) : Prop :=
  IsCut times.length P ∧ (∀ b ∈ P, b ≠ []) ∧ (P.length : Int) ≤ m

/-- The number `r` is the minimum, over the cuts of the jobs into at most `m`
non-empty contiguous blocks, of the largest block load: some cut has largest
load `r`, and no cut has a smaller largest load. -/
def IsMinMaxLoad (times : List Int) (m : Int) (r : Int) : Prop :=
  (∃ P, IsCutInto times m P ∧ IsLargest r (P.map (blockLoad times))) ∧
  ∀ P M, IsCutInto times m P → IsLargest M (P.map (blockLoad times)) → r ≤ M

/-- Whenever validation passes, `solve` returns with makespan `r`, and with
status `optimal` when no exception is raised. -/
def SolveReturnsMakespan (times : List Int) (m : Int) (r : Int) : Prop :=
  ∀ (is_test_mode : Bool) (run : Run), validateInput times m is_test_mode = .ok () →
    ∃ sol, solve times m is_test_mode run = some sol ∧ sol.makespan = (r : Rat) ∧
      (run.thrown = none → sol.status = .optimal)

/-- The invariant the specification gives for an instance: `n > m ≥ 1` and
every time value in `[1, 24]`. -/
def InstanceInvariant (times : List Int) (m : Int) : Prop :=
  m < (times.length : Int) ∧ 1 ≤ m ∧ TimesInRange times

instance (times : List Int) : Decidable (PositiveTimes times) := by
  unfold PositiveTimes; infer_instance

instance (times : List Int) : Decidable (TimesInRange times) := by
  unfold TimesInRange; infer_instance

instance (n : Nat) (P : List (List Nat)) : Decidable (IsCut n P) := by
  unfold IsCut; infer_instance

instance (M : Int) (loads : List Int) : Decidable (IsLargest M loads) := by
  unfold IsLargest; infer_instance

instance (times : List Int) (m : Int) (P : List (List Nat)) :
    Decidable (IsCutInto times m P) := by
  unfold IsCutInto; infer_instance

/-! ## One iteration of the binary search -/

/-- The value of `mid` that an iteration of the loop computes. -/
def searchMid (left right : Int) : Int :=
  wrap32 (left + Int.tdiv (wrap32 (right - left)) 2)

/-- The body of the `while` loop of `findOptimalMakespan`, run once from a state
with `left < right`: the new `left`, `right` and `feasibility_checks`. -/
def searchStep (times : List Int) (m : Int) (left right checks : Int) : Int × Int × Int :=
  let mid := searchMid left right
  if isFeasible mid times m then (left, mid, wrap32 (checks + 1))
  else (wrap32 (mid + 1), right, wrap32 (checks + 1))

/-- The invariant of the binary search: `max(times) ≤ left ≤ right ≤ sum(times)`,
the test is true at `right` and false below `left`. -/
def SearchInvariant (times : List Int) (m : Int) (left right : Int) : Prop :=
  (∀ M, maxElement times = some M → M ≤ left) ∧ left ≤ right ∧ right ≤ times.sum ∧
  isFeasible right times m = true ∧ ∀ T, T < left → isFeasible T times m = false

/-! ## The validation test cases -/

/-- The text of a status of the pseudo-polynomial solver. -/
def Status.text : Status → String
  | .optimal => "optimal"
  | .invalid_input => "invalid_input"
  | .error what => "error: " ++ what

/-- The method `PseudoPolySolution::isValid`, which returns `true` whatever the
solution holds. -/
def PseudoPolySolution.isValid (_solution : PseudoPolySolution) : Bool := true

/-- The struct `MILPSolution` of `milp_solver.hpp`. -/
structure MILPSolution where
  status : String
  makespan : Rat
  assignments : List (Nat × List Nat)
  machine_loads : List Int
  solve_time : Rat
  gap : Rat
  iterations : Int
  nodes : Int
  deriving DecidableEq, Repr

/-- The method `MILPSolution::isValid`. -/
def MILPSolution.isValid (solution : MILPSolution) : Bool :=
  solution.status == "optimal" || solution.status == "feasible"

/-- The struct `AlgorithmResult` of `output_writer_json.hpp`. -/
structure AlgorithmResult where
  algorithm_name : String
  makespan : Rat
  solution_time : Rat
  status : String
  gap : Rat
  feasibility_checks : Int
  assignments : List (Nat × List Nat)
  machine_loads : List Int
  deriving DecidableEq, Repr

/-- The struct `TestResult` of `output_writer_json.hpp`. -/
structure TestResult where
  test_name : String
  number_of_jobs : Int
  number_of_machines : Int
  processing_times : List Int
  expected_makespan : Rat
  pseudo_polynomial_result : AlgorithmResult
  milp_result : AlgorithmResult
  solutions_match : Bool
  makespan_difference : Rat
  speedup : Rat
  deriving DecidableEq, Repr

/-- The method `JsonWriter::checkSolutionsMatch`. -/
def checkSolutionsMatch (pseudo_result milp_result : AlgorithmResult) (tolerance : Rat) :
    Bool :=
  if pseudo_result.makespan < 0 ∨ milp_result.makespan < 0 then false
  else decide (|pseudo_result.makespan - milp_result.makespan| < tolerance)

/-- The load loop of `createPseudoPolyResult`: it adds up in an `int` and skips
a job index outside `[0, n)`. -/
def checkedBlockLoad (times : List Int) (block : List Nat) : Int :=
  block.foldl
    (fun load job_idx =>
      if job_idx < times.length then wrap32 (load + times.getD job_idx 0) else load) 0

/-- The method `JsonWriter::createPseudoPolyResult`. -/
def createPseudoPolyResult (solution : PseudoPolySolution) (times : List Int) :
    AlgorithmResult :=
  if solution.isValid then
    { algorithm_name := "pseudo_polynomial",
      makespan := solution.makespan,
      solution_time := solution.solve_time,
      status := solution.status.text,
      feasibility_checks := solution.feasibility_checks,
      gap := 0,
      assignments := solution.partition.enum,
      machine_loads := solution.partition.map (checkedBlockLoad times) }
  else
    { algorithm_name := "pseudo_polynomial", makespan := -1, solution_time := -1,
      status := solution.status.text, feasibility_checks := 0, gap := -1,
      assignments := [], machine_loads := [] }

/-- The method `JsonWriter::createMILPResult`. -/
def createMILPResult (solution : MILPSolution) (_times : List Int) : AlgorithmResult :=
  if solution.status == "optimal" || solution.status == "feasible" then
    { algorithm_name := "milp", makespan := solution.makespan,
      solution_time := solution.solve_time, status := solution.status, gap := solution.gap,
      feasibility_checks := 0, assignments := solution.assignments,
      machine_loads := solution.machine_loads }
  else
    { algorithm_name := "milp", makespan := -1, solution_time := -1,
      status := solution.status, gap := -1, feasibility_checks := 0,
      assignments := [], machine_loads := [] }

/-- The method `JsonWriter::createTestResult`; `checkSolutionsMatch` is called
with its default tolerance `0.001`. -/
def createTestResult (name : String) (n m : Int) (times : List Int) (expected_makespan : Rat)
    (pseudo_solution : PseudoPolySolution) (milp_solution : MILPSolution) : TestResult :=
  let pseudo_polynomial_result := createPseudoPolyResult pseudo_solution times
  let milp_result := createMILPResult milp_solution times
  { test_name := name, number_of_jobs := n, number_of_machines := m,
    processing_times := times, expected_makespan := expected_makespan,
    pseudo_polynomial_result := pseudo_polynomial_result, milp_result := milp_result,
    solutions_match := checkSolutionsMatch pseudo_polynomial_result milp_result (1 / 1000),
    makespan_difference :=
      if pseudo_polynomial_result.makespan ≥ 0 ∧ milp_result.makespan ≥ 0 then
        |pseudo_polynomial_result.makespan - milp_result.makespan|
      else -1,
    speedup :=
      if pseudo_polynomial_result.solution_time > 0 ∧ milp_result.solution_time > 0 then
        milp_result.solution_time / pseudo_polynomial_result.solution_time
      else 0 }

/-- The divisions that the speedup computation of `createTestResult` evaluates,
as pairs of numerator and denominator. -/
def speedupDivisions (pseudo_polynomial_result milp_result : AlgorithmResult) :
    List (Rat × Rat) :=
  if pseudo_polynomial_result.solution_time > 0 ∧ milp_result.solution_time > 0 then
    [(milp_result.solution_time, pseudo_polynomial_result.solution_time)]
  else []

/-! ## The integer program of `MILPSolver::solve`

The program is handed to an external solver; what is embedded here is the
program itself: its variables with their bounds, its constraints in the order
of the source, and its objective. -/

/-- A value for the decision variables `x[i][j]`, `y[i]`, `C[j]` and `C_max`. -/
structure MilpPoint where
  x : Nat → Nat → Int
  y : Nat → Int
  C : Nat → Rat
  C_max : Rat

/-- The point `p` satisfies the variable bounds and the constraints (1) to (9)
that `MILPSolver::solve` adds to the model for `n = times.size()` jobs and `m`
machines. -/
structure MilpFeasible (times : List Int) (m : Int) (p : MilpPoint) : Prop where
  /-- The bounds `0, 1, ILOINT` of `x[i][j]`. -/
  x_bounds : ∀ i j : Nat, i < times.length → (j : Int) < m → 0 ≤ p.x i j ∧ p.x i j ≤ 1
  /-- The bounds `1, m, ILOINT` of `y[i]`. -/
  y_bounds : ∀ i : Nat, i < times.length → 1 ≤ p.y i ∧ p.y i ≤ m
  /-- The bounds `0, IloInfinity` of `C[j]`. -/
  C_bounds : ∀ j : Nat, (j : Int) < m → 0 ≤ p.C j
  /-- The bounds `0, IloInfinity` of `C_max`. -/
  C_max_bounds : 0 ≤ p.C_max
  /-- Constraint (1), job assignment: `sum_j x[i][j] == 1`. -/
  job_assignment : ∀ i : Nat, i < times.length →
    Finset.sum (Finset.range m.toNat) (fun j => p.x i j) = 1
  /-- Constraint (2), load definition: `C[j] == sum_i times[i] * x[i][j]`. -/
  load_definition : ∀ j : Nat, (j : Int) < m →
    p.C j = ((Finset.sum (Finset.range times.length)
      (fun i => times.getD i 0 * p.x i j) : Int) : Rat)
  /-- Constraint (3), makespan definition: `C_max >= C[j]`. -/
  makespan_definition : ∀ j : Nat, (j : Int) < m → p.C j ≤ p.C_max
  /-- Constraint (4), consistency: `y[i] == sum_j (j + 1) * x[i][j]`. -/
  consistency : ∀ i : Nat, i < times.length →
    p.y i = Finset.sum (Finset.range m.toNat) (fun j => ((j : Int) + 1) * p.x i j)
  /-- Constraint (5), contiguity: `y[i] <= y[i + 1]` for `i < n - 1`. -/
  contiguity : ∀ i : Nat, i + 1 < times.length → p.y i ≤ p.y (i + 1)
  /-- Constraint (6), anchoring of the first job: `x[0][0] == 1`. -/
  anchor_first : p.x 0 0 = 1
  /-- Constraint (6), anchoring of the last job: `x[n - 1][m - 1] == 1`. -/
  anchor_last : p.x (times.length - 1) (m.toNat - 1) = 1
  /-- Constraint (8): `C_max >= max_time`. -/
  bound_max_time : ∀ M, maxElement times = some M → (M : Rat) ≤ p.C_max
  /-- Constraint (9): `C_max >= total_time / m`, a division of doubles. -/
  bound_average : (accumulate times : Rat) / (m : Rat) ≤ p.C_max

/-- The number `v` is the optimum of the program `minimize C_max`: a feasible
point has `C_max = v` and no feasible point has a smaller `C_max`. -/
def IsMilpOptimum (times : List Int) (m : Int) (v : Rat) : Prop :=
  (∃ p, MilpFeasible times m p ∧ p.C_max = v) ∧ ∀ p, MilpFeasible times m p → v ≤ p.C_max

/-! ### Auxiliary notions for the comparison of the two models -/

/-- The load of machine `j` when the jobs with times `ts` go, in order, to the
machines listed in `ys`. -/
def loadOn (j : Int) : List Int → List Int → Int
  | t :: ts, y :: ys => (if y = j then t else 0) + loadOn j ts ys
  | _, _ => 0

/-- The machine numbers that the greedy scan of `isFeasible` gives to the jobs
(the number of the block a job falls in), except that the last job goes to
machine `m`. -/
def greedyMachines (T m : Int) : List Int → Int → Int → List Int
  | [], _, _ => []
  | [_], _, _ => [m]
  | t :: t2 :: ts, blocks_needed, current_sum =>
    if current_sum + t ≤ T then
      blocks_needed :: greedyMachines T m (t2 :: ts) blocks_needed (current_sum + t)
    else
      (blocks_needed + 1) :: greedyMachines T m (t2 :: ts) (blocks_needed + 1) t

/-- The point of the program that sends job `i` to machine `ys[i]` and has
`C_max = v`. -/
def pointOfMachines (times : List Int) (ys : List Int) (v : Rat) : MilpPoint :=
  { x := fun i j => if ys.getD i 0 = (j : Int) + 1 then 1 else 0,
    y := fun i => ys.getD i 0,
    C := fun j => ((loadOn ((j : Int) + 1) times ys : Int) : Rat),
    C_max := v }

/-! ## The messages of the validators and the validator of the MILP solver -/

/-- The string that `validateInput` stores in `error_msg`. -/
def ValidationError.text : ValidationError → String
  | .sizeOutOfRange n => "n must be in range [50, 5000] (n=" ++ toString n ++ ")"
  | .notMoreJobsThanMachines n m =>
    "n must be greater than m (n=" ++ toString n ++ ", m=" ++ toString m ++ ")"
  | .timeOutOfRange i v =>
    "Processing time at index " ++ toString i ++ " is " ++ toString v
      ++ ", must be in range [1, 24]"

/-- The loop of `MILPSolver::validateInput` over the processing times. -/
def MILPSolver.firstBadTime : List Int → Nat → Option (Nat × Int)
  | [], _ => none
  | t :: ts, i =>
    if t < 1 ∨ t > 24 then some (i, t) else MILPSolver.firstBadTime ts (i + 1)

/-- The method `MILPSolver::validateInput` of `milp_solver.cpp`. -/
def MILPSolver.validateInput (times : List Int) (m : Int) (is_test_mode : Bool) :
    Except ValidationError Unit :=
  let n : Int := times.length
  if !is_test_mode && (n < 50 || n > 5000) then
    .error (.sizeOutOfRange n)
  else if n ≤ m then
    .error (.notMoreJobsThanMachines n m)
  else
    match MILPSolver.firstBadTime times 0 with
    | some (i, v) => .error (.timeOutOfRange i v)
    | none => .ok ()

/-! ## The run of the binary search -/

/-- The state `(left, right, feasibility_checks)` in which the `while` loop of
`findOptimalMakespan` exits; `none` when the fuel is used up first. -/
def searchExit (times : List Int) (m : Int) : Nat → Int → Int → Int → Option (Int × Int × Int)
  | 0, left, right, checks => if left < right then none else some (left, right, checks)
  | fuel + 1, left, right, checks =>
    if left < right then
      searchExit times m fuel (searchStep times m left right checks).1
        (searchStep times m left right checks).2.1 (searchStep times m left right checks).2.2
    else some (left, right, checks)

/-- The thresholds with which the loop of `findOptimalMakespan` calls
`isFeasible`, in the order of the calls. -/
def searchCalls (times : List Int) (m : Int) : Nat → Int → Int → List Int
  | 0, _, _ => []
  | fuel + 1, left, right =>
    if left < right then
      let mid := wrap32 (left + Int.tdiv (wrap32 (right - left)) 2)
      mid :: (if isFeasible mid times m then searchCalls times m fuel left mid
              else searchCalls times m fuel (wrap32 (mid + 1)) right)
    else []

/-- The loop body applied `k` times to a state, a state with `left ≥ right`
being left as it is. -/
def searchIterate (times : List Int) (m : Int) : Nat → Int × Int × Int → Int × Int × Int
  | 0, s => s
  | k + 1, s =>
    if s.1 < s.2.1 then searchIterate times m k (searchStep times m s.1 s.2.1 s.2.2)
    else s

/-! ## The solver with checked 32-bit arithmetic

The functions below repeat `accumulate`, `isFeasible`, `findOptimalMakespan` and
`reconstructPartition` step by step, but every `int` they compute (a sum, a
difference, a half, an increment) goes through `inRange32`, which fails when the
exact value lies outside `[0, 2^31 - 1]`. -/

/-- The exact value `x` of an `int` computation, when it lies in
`[0, 2^31 - 1]`. -/
def inRange32 (x : Int) : Option Int :=
  if 0 ≤ x ∧ x ≤ 2147483647 then some x else none

/-- The call `accumulate(times.begin(), times.end(), 0)` with each partial sum
checked, started from the partial sum `acc`. -/
def accumulateChecked : List Int → Int → Option Int
  | [], acc => some acc
  | x :: xs, acc =>
    match inRange32 (acc + x) with
    | none => none
    | some new_acc => accumulateChecked xs new_acc

/-- The loop of `isFeasible` with `current_sum + t` and `blocks_needed + 1`
checked. -/
def isFeasibleLoopChecked (T m : Int) : List Int → Int → Int → Option Bool
  | [], _, _ => some true
  | t :: ts, blocks_needed, current_sum =>
    if t > T then some false
    else
      match inRange32 (current_sum + t) with
      | none => none
      | some new_sum =>
        if new_sum ≤ T then isFeasibleLoopChecked T m ts blocks_needed new_sum
        else
          match inRange32 (blocks_needed + 1) with
          | none => none
          | some new_blocks =>
            if new_blocks > m then some false
            else isFeasibleLoopChecked T m ts new_blocks t

/-- The method `isFeasible` with checked arithmetic. -/
def isFeasibleChecked (T : Int) (times : List Int) (m : Int) : Option Bool :=
  isFeasibleLoopChecked T m times 1 0

/-- The loop of `findOptimalMakespan` with `right - left`, its half, `mid`,
`feasibility_checks + 1` and `mid + 1` checked. -/
def searchLoopChecked (times : List Int) (m : Int) :
    Nat → Int → Int → Int → Option (Int × Int)
  | 0, left, right, checks => if left < right then none else some (left, checks)
  | fuel + 1, left, right, checks =>
    if left < right then
      match inRange32 (right - left) with
      | none => none
      | some width =>
        match inRange32 (Int.tdiv width 2) with
        | none => none
        | some half =>
          match inRange32 (left + half) with
          | none => none
          | some mid =>
            match inRange32 (checks + 1) with
            | none => none
            | some new_checks =>
              match isFeasibleChecked mid times m with
              | none => none
              | some true => searchLoopChecked times m fuel left mid new_checks
              | some false =>
                match inRange32 (mid + 1) with
                | none => none
                | some new_left => searchLoopChecked times m fuel new_left right new_checks
    else some (left, checks)

/-- The method `findOptimalMakespan` with checked arithmetic. -/
def findOptimalMakespanChecked (times : List Int) (m : Int) : Option (Int × Int) :=
  match maxElement times with
  | none => none
  | some left =>
    match accumulateChecked times 0 with
    | none => none
    | some right => searchLoopChecked times m (right - left).toNat left right 0

/-- The loop of `reconstructPartition` with `current_sum + times[i]` checked. -/
def reconstructLoopChecked (T_opt : Int) :
    List Int → Nat → List (List Nat) → List Nat → Int → Option (List (List Nat))
  | [], _, partition, current_block, _ =>
    some (if current_block.isEmpty then partition else partition ++ [current_block])
  | t :: ts, i, partition, current_block, current_sum =>
    match inRange32 (current_sum + t) with
    | none => none
    | some new_sum =>
      if new_sum ≤ T_opt then
        reconstructLoopChecked T_opt ts (i + 1) partition (current_block ++ [i]) new_sum
      else
        reconstructLoopChecked T_opt ts (i + 1) (partition ++ [current_block]) [i] t

/-- The method `reconstructPartition` with checked arithmetic.  The index `i`
takes the values `0, 1, ..., n`, which are in range when `n` is. -/
def reconstructPartitionChecked (times : List Int) (_m : Int) (T_opt : Int) :
    Option (List (List Nat)) :=
  match inRange32 (times.length : Int) with
  | none => none
  | some _ => reconstructLoopChecked T_opt times 0 [] [] 0

/-! ## The scans over the integers

The greedy scans of `isFeasible` and `reconstructPartition` with sums that are
never reduced modulo `2^32`.  They are not code of the repository: they are the
yardstick of the proofs, which compare the code with them where its sums stay in
the range of an `int`. -/

/-- The scan of `isFeasibleLoop` with the exact sum `current_sum + t`. -/
def isFeasibleLoopExact (T m : Int) : List Int → Int → Int → Bool
  | [], _, _ => true
  | t :: ts, blocks_needed, current_sum =>
    if t > T then false
    else if current_sum + t ≤ T then
      isFeasibleLoopExact T m ts blocks_needed (current_sum + t)
    else if blocks_needed + 1 > m then false
    else isFeasibleLoopExact T m ts (blocks_needed + 1) t

/-- The scan of `isFeasible` with exact sums. -/
def isFeasibleExact (T : Int) (times : List Int) (m : Int) : Bool :=
  isFeasibleLoopExact T m times 1 0

/-- The scan of `reconstructLoop` with the exact sum `current_sum + t`. -/
def reconstructLoopExact (T_opt : Int) :
    List Int → Nat → List (List Nat) → List Nat → Int → List (List Nat)
  | [], _, partition, current_block, _ =>
    if current_block.isEmpty then partition else partition ++ [current_block]
  | t :: ts, i, partition, current_block, current_sum =>
    if current_sum + t ≤ T_opt then
      reconstructLoopExact T_opt ts (i + 1) partition (current_block ++ [i]) (current_sum + t)
    else
      reconstructLoopExact T_opt ts (i + 1) (partition ++ [current_block]) [i] t

/-- The scan of `reconstructPartition` with exact sums. -/
def reconstructPartitionExact (times : List Int) (_m : Int) (T_opt : Int) :
    List (List Nat) :=
  reconstructLoopExact T_opt times 0 [] [] 0

/-! ## The counter `blocks_needed`

The loop of `isFeasible` with the increment `blocks_needed++` reduced by
`wrap32` as well.  `isFeasibleLoop` leaves that increment exact; the two
coincide on every vector whose size is a value of an `int`
(`isFeasibleLoopCounted_eq`). -/

/-- The loop of `isFeasible` with both `current_sum + t` and `blocks_needed + 1`
taken in `int`. -/
def isFeasibleLoopCounted (T m : Int) : List Int → Int → Int → Bool
  | [], _, _ => true
  | t :: ts, blocks_needed, current_sum =>
    if t > T then false
    else if wrap32 (current_sum + t) ≤ T then
      isFeasibleLoopCounted T m ts blocks_needed (wrap32 (current_sum + t))
    else if wrap32 (blocks_needed + 1) > m then false
    else isFeasibleLoopCounted T m ts (wrap32 (blocks_needed + 1)) t

/-! ## Elementary facts about the folds -/

theorem foldl_add_eq (l : List Int) (a : Int) :
    l.foldl (fun acc x => acc + x) a = a + l.sum := by
  induction l generalizing a with
  | nil => simp
  | cons x xs ih => simp [ih]; omega

theorem foldl_load_eq (times : List Int) (block : List Nat) (a : Int) :
    block.foldl (fun load job_idx => load + times.getD job_idx 0) a
      = a + (block.map (fun i => times.getD i 0)).sum := by
  induction block generalizing a with
  | nil => simp
  | cons x xs ih =>
    simp only [List.foldl_cons, List.map_cons, List.sum_cons, ih]
    omega

theorem blockLoad_eq_sum (times : List Int) (block : List Nat) :
    blockLoad times block = (block.map (fun i => times.getD i 0)).sum := by
  simp only [blockLoad, foldl_load_eq, zero_add]

theorem blockLoad_append_single (times : List Int) (block : List Nat) (i : Nat) :
    blockLoad times (block ++ [i]) = blockLoad times block + times.getD i 0 := by
  simp [blockLoad_eq_sum]

theorem sum_nonneg_of_positive (l : List Int) (h : ∀ t ∈ l, 1 ≤ t) : 0 ≤ l.sum := by
  induction l with
  | nil => simp
  | cons x xs ih =>
    have hx := h x (by simp)
    have := ih (fun t ht => h t (by simp [ht]))
    simp; omega

theorem le_sum_of_mem_positive (l : List Int) (h : ∀ t ∈ l, 1 ≤ t) (x : Int) (hx : x ∈ l) :
    x ≤ l.sum := by
  induction l with
  | nil => simp at hx
  | cons y ys ih =>
    have hy := h y (by simp)
    have hys := sum_nonneg_of_positive ys (fun t ht => h t (by simp [ht]))
    rcases List.mem_cons.mp hx with rfl | hmem
    · simp; omega
    · have := ih (fun t ht => h t (by simp [ht])) hmem
      simp; omega

/-! ## The greedy scan decides the existence of a cut -/

/-- How a cut of `t :: ts` into a first piece and further non-empty blocks
starts: `t` is in the first piece or opens the first further block. -/
theorem cut_cons_cases (T : Int) (t : Int) (ts first : List Int) (rest : List (List Int))
    (hcat : first ++ rest.flatten = t :: ts)
    (hrest : ∀ r ∈ rest, r ≠ [] ∧ r.sum ≤ T) :
    (∃ f, first = t :: f ∧ f ++ rest.flatten = ts) ∨
    (first = [] ∧ ∃ r1 rest1, rest = (t :: r1) :: rest1 ∧ r1 ++ rest1.flatten = ts) := by
  cases first with
  | cons x f =>
    left
    simp at hcat
    exact ⟨f, by rw [hcat.1], hcat.2⟩
  | nil =>
    right
    refine ⟨rfl, ?_⟩
    cases rest with
    | nil => simp at hcat
    | cons r rest1 =>
      cases r with
      | nil => exact absurd rfl (hrest [] (by simp)).1
      | cons x r1 =>
        simp at hcat
        exact ⟨r1, rest1, by rw [hcat.1], hcat.2⟩

/-- The state of the greedy scan and what it decides: from a running block of
sum `c` and `b` blocks opened so far, the scan of `ts` succeeds exactly when
`ts` splits into a piece that still fits the running block followed by
non-empty blocks of sum at most `T`, without opening more than `m` blocks. -/
theorem isFeasibleLoopExact_iff (T m : Int) (ts : List Int) (hpos : ∀ t ∈ ts, 1 ≤ t) :
    ∀ (b c : Int), 0 ≤ c → c ≤ T → b ≤ m →
      (isFeasibleLoopExact T m ts b c = true ↔
        ∃ (first : List Int) (rest : List (List Int)),
          first ++ rest.flatten = ts ∧ c + first.sum ≤ T ∧
          (∀ r ∈ rest, r ≠ [] ∧ r.sum ≤ T) ∧ b + (rest.length : Int) ≤ m) := by
  induction ts with
  | nil =>
    intro b c _ hc hb
    simp only [isFeasibleLoopExact, true_iff]
    exact ⟨[], [], by simp, by simpa using hc, by simp, by simpa using hb⟩
  | cons t ts ih =>
    intro b c hc0 hc hb
    have ht : 1 ≤ t := hpos t (by simp)
    have hpos1 : ∀ x ∈ ts, 1 ≤ x := fun x hx => hpos x (by simp [hx])
    have ih1 := ih hpos1
    have sub_nonneg : ∀ (f : List Int) (g : List Int), f ++ g = ts → 0 ≤ f.sum := by
      intro f g hfg
      apply sum_nonneg_of_positive
      intro x hx
      exact hpos1 x (by rw [← hfg]; simp [hx])
    unfold isFeasibleLoopExact
    by_cases h1 : t > T
    · simp only [h1, if_true]
      constructor
      · intro h; cases h
      · rintro ⟨first, rest, hcat, hsum, hrest, -⟩
        rcases cut_cons_cases T t ts first rest hcat hrest with
          ⟨f, rfl, hf⟩ | ⟨rfl, r1, rest1, rfl, hr⟩
        · have := sub_nonneg f _ hf
          simp at hsum; omega
        · have := sub_nonneg r1 _ hr
          have h2 := (hrest (t :: r1) (by simp)).2
          simp at h2; omega
    · simp only [h1, if_false]
      by_cases h2 : c + t ≤ T
      · simp only [h2, if_true]
        rw [ih1 b (c + t) (by omega) h2 hb]
        constructor
        · rintro ⟨first, rest, hcat, hsum, hrest, hlen⟩
          exact ⟨t :: first, rest, by simp [hcat], by simp; omega, hrest, hlen⟩
        · rintro ⟨first, rest, hcat, hsum, hrest, hlen⟩
          rcases cut_cons_cases T t ts first rest hcat hrest with
            ⟨f, rfl, hf⟩ | ⟨rfl, r1, rest1, rfl, hr⟩
          · exact ⟨f, rest, hf, by simp at hsum; omega, hrest, hlen⟩
          · have hrest1 : ∀ r ∈ rest1, r ≠ [] ∧ r.sum ≤ T :=
              fun r hr => hrest r (by simp [hr])
            have h3 := (hrest (t :: r1) (by simp)).2
            simp at h3 hlen
            cases r1 with
            | nil =>
              refine ⟨[], rest1, by simpa using hr, by simpa using h2, hrest1, by omega⟩
            | cons x r2 =>
              refine ⟨[], (x :: r2) :: rest1, by simpa using hr, by simpa using h2, ?_, ?_⟩
              · intro r hr
                rcases List.mem_cons.mp hr with rfl | hmem
                · exact ⟨by simp, by omega⟩
                · exact hrest1 r hmem
              · simp; omega
      · simp only [h2, if_false]
        by_cases h3 : b + 1 > m
        · simp only [h3, if_true]
          constructor
          · intro h; cases h
          · rintro ⟨first, rest, hcat, hsum, hrest, hlen⟩
            rcases cut_cons_cases T t ts first rest hcat hrest with
              ⟨f, rfl, hf⟩ | ⟨rfl, r1, rest1, rfl, hr⟩
            · have := sub_nonneg f _ hf
              simp at hsum; omega
            · simp at hlen; omega
        · simp only [h3, if_false]
          rw [ih1 (b + 1) t (by omega) (by omega) (by omega)]
          constructor
          · rintro ⟨first, rest, hcat, hsum, hrest, hlen⟩
            refine ⟨[], (t :: first) :: rest, by simp [hcat], by simpa using hc, ?_, ?_⟩
            · intro r hr
              rcases List.mem_cons.mp hr with rfl | hmem
              · exact ⟨by simp, by simpa using hsum⟩
              · exact hrest r hmem
            · simp; omega
          · rintro ⟨first, rest, hcat, hsum, hrest, hlen⟩
            rcases cut_cons_cases T t ts first rest hcat hrest with
              ⟨f, rfl, hf⟩ | ⟨rfl, r1, rest1, rfl, hr⟩
            · have := sub_nonneg f _ hf
              simp at hsum; omega
            · have h4 := (hrest (t :: r1) (by simp)).2
              simp at h4 hlen
              exact ⟨r1, rest1, hr, h4, fun r hr => hrest r (by simp [hr]), by omega⟩

/-- A successful scan has met no processing time above `T`. -/
theorem isFeasibleLoopExact_times_le (T m : Int) (ts : List Int) :
    ∀ (b c : Int), isFeasibleLoopExact T m ts b c = true → ∀ t ∈ ts, t ≤ T := by
  induction ts with
  | nil => intro b c _ t ht; simp at ht
  | cons x xs ih =>
    intro b c h t ht
    unfold isFeasibleLoopExact at h
    by_cases h1 : x > T
    · simp [h1] at h
    · simp only [h1, if_false] at h
      have hx : x ≤ T := by omega
      have hxs : ∀ t ∈ xs, t ≤ T := by
        by_cases h2 : c + x ≤ T
        · simp only [h2, if_true] at h
          exact ih _ _ h
        · simp only [h2, if_false] at h
          by_cases h3 : b + 1 > m
          · simp [h3] at h
          · simp only [h3, if_false] at h
            exact ih _ _ h
      rcases List.mem_cons.mp ht with rfl | hmem
      · exact hx
      · exact hxs t hmem

/-- The feasibility test on positive times with at least one machine decides
whether the list of times splits into at most `m` non-empty consecutive pieces
of sum at most `T`. -/
theorem isFeasibleExact_iff_pieces (T m : Int) (times : List Int)
    (hpos : PositiveTimes times) (hm : 1 ≤ m) :
    isFeasibleExact T times m = true ↔
      ∃ bs : List (List Int), bs.flatten = times ∧
        (∀ b ∈ bs, b ≠ [] ∧ b.sum ≤ T) ∧ (bs.length : Int) ≤ m := by
  by_cases hT : 0 ≤ T
  · unfold isFeasibleExact
    rw [isFeasibleLoopExact_iff T m times hpos 1 0 (le_refl 0) hT hm]
    constructor
    · rintro ⟨first, rest, hcat, hsum, hrest, hlen⟩
      cases first with
      | nil => exact ⟨rest, by simpa using hcat, hrest, by omega⟩
      | cons x f =>
        refine ⟨(x :: f) :: rest, by simpa using hcat, ?_, by simp; omega⟩
        intro b hb
        rcases List.mem_cons.mp hb with rfl | hmem
        · exact ⟨by simp, by simpa using hsum⟩
        · exact hrest b hmem
    · rintro ⟨bs, hcat, hbs, hlen⟩
      cases bs with
      | nil => exact ⟨[], [], by simpa using hcat, by simpa using hT, by simp, by simpa using hm⟩
      | cons b1 rest =>
        refine ⟨b1, rest, by simpa using hcat, ?_, fun r hr => hbs r (by simp [hr]), ?_⟩
        · have := (hbs b1 (by simp)).2
          omega
        · simp at hlen; omega
  · cases times with
    | nil =>
      simp only [isFeasibleExact, isFeasibleLoopExact, true_iff]
      exact ⟨[], by simp, by simp, by simpa using (by omega : (0 : Int) ≤ m)⟩
    | cons t ts =>
      have ht : 1 ≤ t := hpos t (by simp)
      constructor
      · intro h
        have := isFeasibleLoopExact_times_le T m (t :: ts) 1 0 h t (by simp)
        omega
      · rintro ⟨bs, hcat, hbs, -⟩
        rcases cut_cons_cases T t ts [] bs (by simpa using hcat) hbs with
          ⟨f, hf, -⟩ | ⟨-, r1, rest1, rfl, hr⟩
        · cases hf
        · have h2 := (hbs (t :: r1) (by simp)).2
          have : 0 ≤ r1.sum := by
            apply sum_nonneg_of_positive
            intro x hx
            exact hpos x (by rw [← hr]; simp [hx])
          simp at h2; omega

/-- Raising the threshold keeps a positive instance feasible. -/
theorem isFeasibleExact_mono (times : List Int) (m : Int) (hpos : PositiveTimes times) (hm : 1 ≤ m)
    (T1 T2 : Int) (hle : T1 ≤ T2) (h : isFeasibleExact T1 times m = true) :
    isFeasibleExact T2 times m = true := by
  rw [isFeasibleExact_iff_pieces T1 m times hpos hm] at h
  rw [isFeasibleExact_iff_pieces T2 m times hpos hm]
  obtain ⟨bs, hcat, hbs, hlen⟩ := h
  exact ⟨bs, hcat, fun b hb => ⟨(hbs b hb).1, le_trans (hbs b hb).2 hle⟩, hlen⟩

/-! ## Index blocks and the pieces of the list of times -/

theorem map_getD_range (times : List Int) :
    (List.range times.length).map (fun i => times.getD i 0) = times := by
  apply List.ext_getElem
  · simp
  · intro i h1 h2
    simp [List.getD_eq_getElem?_getD, List.getElem?_eq_getElem h2]

/-- The pieces of `times` that the index blocks of a cut select. -/
theorem pieces_of_cut (times : List Int) (P : List (List Nat)) (hP : IsCut times.length P) :
    (P.map (fun b => b.map (fun i => times.getD i 0))).flatten = times := by
  rw [← List.map_flatten, hP, map_getD_range]

/-! ## The reconstruction scan -/

/-- The blocks the scan returns, concatenated: what was already pushed, the
running block, then the indices still to scan. -/
theorem reconstructLoopExact_flatten (T : Int) (ts : List Int) :
    ∀ (i : Nat) (P : List (List Nat)) (cur : List Nat) (s : Int),
      (reconstructLoopExact T ts i P cur s).flatten
        = P.flatten ++ cur ++ List.range' i ts.length := by
  induction ts with
  | nil =>
    intro i P cur s
    unfold reconstructLoopExact
    cases cur with
    | nil => simp
    | cons x xs => simp
  | cons t ts ih =>
    intro i P cur s
    unfold reconstructLoopExact
    by_cases h : s + t ≤ T
    · simp only [h, if_true]
      rw [ih]
      simp [List.range'_succ]
    · simp only [h, if_false]
      rw [ih]
      simp [List.range'_succ]

/-- While the feasibility scan succeeds, the reconstruction scan run from the
matching state returns no more than `m` blocks. -/
theorem reconstructLoopExact_length_le (T m : Int) (ts : List Int) :
    ∀ (i : Nat) (P : List (List Nat)) (cur : List Nat) (s : Int),
      isFeasibleLoopExact T m ts ((P.length : Int) + 1) s = true → (P.length : Int) + 1 ≤ m →
      ((reconstructLoopExact T ts i P cur s).length : Int) ≤ m := by
  induction ts with
  | nil =>
    intro i P cur s _ hb
    unfold reconstructLoopExact
    split
    · omega
    · simp; omega
  | cons t ts ih =>
    intro i P cur s h hb
    unfold isFeasibleLoopExact at h
    unfold reconstructLoopExact
    by_cases h1 : t > T
    · simp [h1] at h
    · simp only [h1, if_false] at h
      by_cases h2 : s + t ≤ T
      · simp only [h2, if_true] at h ⊢
        exact ih _ _ _ _ h hb
      · simp only [h2, if_false] at h ⊢
        by_cases h3 : (P.length : Int) + 1 + 1 > m
        · simp [h3] at h
        · simp only [h3, if_false] at h
          apply ih
          · simpa using h
          · simp; omega

/-- Every block the reconstruction scan returns is non-empty and has load at
most `T`, provided no processing time still to scan exceeds `T`. -/
theorem reconstructLoopExact_blocks (T : Int) (times : List Int) (ts : List Int) :
    ∀ (scanned : List Int) (i : Nat) (P : List (List Nat)) (cur : List Nat) (s : Int),
      times = scanned ++ ts → i = scanned.length → (∀ t ∈ ts, t ≤ T) →
      (∀ b ∈ P, b ≠ [] ∧ blockLoad times b ≤ T) →
      s = blockLoad times cur → (cur ≠ [] → s ≤ T) →
      ∀ b ∈ reconstructLoopExact T ts i P cur s, b ≠ [] ∧ blockLoad times b ≤ T := by
  induction ts with
  | nil =>
    intro scanned i P cur s _ _ _ hP hs hcur b hb
    unfold reconstructLoopExact at hb
    cases cur with
    | nil => exact hP b (by simpa using hb)
    | cons x xs =>
      simp at hb
      rcases hb with hmem | rfl
      · exact hP b hmem
      · exact ⟨by simp, by rw [← hs]; exact hcur (by simp)⟩
  | cons t ts ih =>
    intro scanned i P cur s htimes hi hle hP hs hcur
    have hget : times.getD i 0 = t := by
      rw [htimes, hi]
      simp [List.getD_eq_getElem?_getD, List.getElem_append_right]
    have htimes1 : times = (scanned ++ [t]) ++ ts := by simp [htimes]
    have hi1 : i + 1 = (scanned ++ [t]).length := by simp [hi]
    have hle1 : ∀ x ∈ ts, x ≤ T := fun x hx => hle x (by simp [hx])
    unfold reconstructLoopExact
    by_cases h : s + t ≤ T
    · simp only [h, if_true]
      apply ih (scanned ++ [t]) (i + 1) P (cur ++ [i]) (s + t) htimes1 hi1 hle1 hP
      · rw [blockLoad_append_single, hget, hs]
      · intro _; exact h
    · simp only [h, if_false]
      have hne : cur ≠ [] := by
        intro hnil
        have ht := hle t (by simp)
        rw [hnil] at hs
        simp [blockLoad] at hs
        omega
      apply ih (scanned ++ [t]) (i + 1) (P ++ [cur]) [i] t htimes1 hi1 hle1
      · intro b hb
        simp at hb
        rcases hb with hmem | rfl
        · exact hP b hmem
        · exact ⟨hne, by rw [← hs]; exact hcur hne⟩
      · rw [← hget]; simp [blockLoad]
      · intro _; exact hle t (by simp)

theorem reconstructPartitionExact_isCut (times : List Int) (m T : Int) :
    IsCut times.length (reconstructPartitionExact times m T) := by
  unfold IsCut reconstructPartitionExact
  rw [reconstructLoopExact_flatten]
  simp [List.range_eq_range']

theorem reconstructPartitionExact_length_le (times : List Int) (m T : Int) (hm : 1 ≤ m)
    (h : isFeasibleExact T times m = true) :
    ((reconstructPartitionExact times m T).length : Int) ≤ m := by
  unfold reconstructPartitionExact
  apply reconstructLoopExact_length_le
  · simpa [isFeasibleExact] using h
  · simpa using hm

theorem reconstructPartitionExact_blocks (times : List Int) (m T : Int)
    (h : ∀ t ∈ times, t ≤ T) :
    ∀ b ∈ reconstructPartitionExact times m T, b ≠ [] ∧ blockLoad times b ≤ T := by
  unfold reconstructPartitionExact
  apply reconstructLoopExact_blocks T times times [] 0 [] [] 0 (by simp) (by simp) h
  · intro b hb; simp at hb
  · simp [blockLoad]
  · intro hne; exact absurd rfl hne

/-! ## The bounds of the search -/

theorem foldl_largest (ts : List Int) :
    ∀ a : Int,
      let M := ts.foldl (fun largest x => if largest < x then x else largest) a
      (M = a ∨ M ∈ ts) ∧ a ≤ M ∧ ∀ x ∈ ts, x ≤ M := by
  induction ts with
  | nil => intro a; simp
  | cons t ts ih =>
    intro a
    simp only [List.foldl_cons]
    obtain ⟨h1, h2, h3⟩ := ih (if a < t then t else a)
    refine ⟨?_, ?_, ?_⟩
    · rcases h1 with h | h
      · by_cases hat : a < t
        · right; rw [h]; simp [hat]
        · left; rw [h]; simp [hat]
      · right; exact List.mem_cons_of_mem _ h
    · by_cases hat : a < t
      · simp only [hat, if_true] at h2 ⊢; omega
      · simp only [hat, if_false] at h2 ⊢; omega
    · intro x hx
      rcases List.mem_cons.mp hx with rfl | hmem
      · by_cases hat : a < x
        · simp only [hat, if_true] at h2 ⊢; omega
        · simp only [hat, if_false] at h2 ⊢; omega
      · exact h3 x hmem

/-- On a non-empty vector `max_element` yields an entry that no entry exceeds. -/
theorem maxElement_spec (times : List Int) (hne : times ≠ []) :
    ∃ M, maxElement times = some M ∧ M ∈ times ∧ ∀ x ∈ times, x ≤ M := by
  cases times with
  | nil => exact absurd rfl hne
  | cons t ts =>
    obtain ⟨h1, h2, h3⟩ := foldl_largest ts t
    refine ⟨_, rfl, ?_, ?_⟩
    · rcases h1 with h | h
      · rw [h]; simp
      · exact List.mem_cons_of_mem _ h
    · intro x hx
      rcases List.mem_cons.mp hx with rfl | hmem
      · exact h2
      · exact h3 x hmem

/-! ## Cuts of the jobs and the scan over the integers -/

/-- The whole list as a single block fits the threshold `sum(times)`. -/
theorem isFeasibleExact_sum (times : List Int) (m : Int) (hpos : PositiveTimes times)
    (hm : 1 ≤ m) : isFeasibleExact times.sum times m = true := by
  rw [isFeasibleExact_iff_pieces _ m times hpos hm]
  cases times with
  | nil => exact ⟨[], by simp, by simp, by simpa using (by omega : (0 : Int) ≤ m)⟩
  | cons t ts =>
    refine ⟨[t :: ts], by simp, ?_, by simpa using hm⟩
    intro b hb
    simp at hb
    subst hb
    exact ⟨by simp, le_refl _⟩

/-- A cut into at most `m` blocks of load at most `T` makes the test succeed. -/
theorem isFeasibleExact_of_cut (T m : Int) (times : List Int) (hpos : PositiveTimes times)
    (hm : 1 ≤ m) (P : List (List Nat)) (hP : IsCut times.length P)
    (hlen : (P.length : Int) ≤ m) (hload : ∀ b ∈ P, blockLoad times b ≤ T) :
    isFeasibleExact T times m = true := by
  rw [isFeasibleExact_iff_pieces T m times hpos hm]
  have hQ : IsCut times.length (P.filter (fun b => decide (b ≠ []))) := by
    unfold IsCut at hP ⊢
    rw [List.flatten_filter_ne_nil]
    exact hP
  refine ⟨(P.filter (fun b => decide (b ≠ []))).map (fun b => b.map (fun i => times.getD i 0)),
    pieces_of_cut times _ hQ, ?_, ?_⟩
  · intro b hb
    obtain ⟨c, hc, rfl⟩ := List.mem_map.mp hb
    obtain ⟨hcP, hcne⟩ := List.mem_filter.mp hc
    refine ⟨?_, ?_⟩
    · simpa using hcne
    · rw [← blockLoad_eq_sum]
      exact hload c hcP
  · have h1 := List.length_filter_le (fun b => decide (b ≠ [])) P
    simp only [List.length_map]
    omega

/-- When the test succeeds, the reconstruction at the same threshold is a cut
into at most `m` non-empty blocks of load at most `T`. -/
theorem cut_of_isFeasibleExact (T m : Int) (times : List Int) (hm : 1 ≤ m)
    (h : isFeasibleExact T times m = true) :
    IsCutInto times m (reconstructPartitionExact times m T) ∧
      ∀ b ∈ reconstructPartitionExact times m T, blockLoad times b ≤ T := by
  have hle : ∀ t ∈ times, t ≤ T := isFeasibleLoopExact_times_le T m times 1 0 h
  have hb := reconstructPartitionExact_blocks times m T hle
  exact ⟨⟨reconstructPartitionExact_isCut times m T, fun b hbP => (hb b hbP).1,
    reconstructPartitionExact_length_le times m T hm h⟩, fun b hbP => (hb b hbP).2⟩

/-- At the least feasible threshold the largest load of the reconstructed
partition is that threshold itself. -/
theorem reconstructExact_tight (times : List Int) (m r : Int) (hne : times ≠ [])
    (hpos : PositiveTimes times) (hm : 1 ≤ m) (hr : isFeasibleExact r times m = true)
    (hleast : ∀ T, T < r → isFeasibleExact T times m = false) :
    IsLargest r ((reconstructPartitionExact times m r).map (blockLoad times)) := by
  obtain ⟨⟨hcut, -, hlen⟩, hload⟩ := cut_of_isFeasibleExact r m times hm hr
  have hloads_ne : (reconstructPartitionExact times m r).map (blockLoad times) ≠ [] := by
    intro hnil
    have hPnil : reconstructPartitionExact times m r = [] := by simpa using hnil
    unfold IsCut at hcut
    rw [hPnil] at hcut
    have : times.length = 0 := by
      have := congrArg List.length hcut
      simpa using this.symm
    exact hne (List.length_eq_zero.mp this)
  obtain ⟨M, -, hMmem, hMmax⟩ := maxElement_spec _ hloads_ne
  have hMle : M ≤ r := by
    obtain ⟨b, hb, rfl⟩ := List.mem_map.mp hMmem
    exact hload b hb
  have hMfeas : isFeasibleExact M times m = true :=
    isFeasibleExact_of_cut M m times hpos hm _ hcut hlen
      (fun b hb => hMmax _ (List.mem_map.mpr ⟨b, hb, rfl⟩))
  have hrM : r ≤ M := by
    by_contra hcon
    have := hleast M (by omega)
    rw [hMfeas] at this
    cases this
  have heq : M = r := by omega
  subst heq
  exact ⟨hMmem, hMmax⟩

/-- The least threshold the test accepts is the minimum of the largest block
load over the cuts into at most `m` non-empty contiguous blocks. -/
theorem leastExact_isMinMaxLoad (times : List Int) (m r : Int) (hne : times ≠ [])
    (hpos : PositiveTimes times) (hm : 1 ≤ m) (hr : isFeasibleExact r times m = true)
    (hleast : ∀ T, T < r → isFeasibleExact T times m = false) :
    IsMinMaxLoad times m r := by
  refine ⟨⟨reconstructPartitionExact times m r, (cut_of_isFeasibleExact r m times hm hr).1,
    reconstructExact_tight times m r hne hpos hm hr hleast⟩, ?_⟩
  rintro P M ⟨hcut, -, hlen⟩ ⟨-, hmax⟩
  have hMfeas : isFeasibleExact M times m = true :=
    isFeasibleExact_of_cut M m times hpos hm P hcut hlen
      (fun b hb => hmax _ (List.mem_map.mpr ⟨b, hb, rfl⟩))
  by_contra hcon
  have := hleast M (by omega)
  rw [hMfeas] at this
  cases this

theorem sum_le_length_mul (l : List Int) (r : Int) (h : ∀ x ∈ l, x ≤ r) :
    l.sum ≤ (l.length : Int) * r := by
  induction l with
  | nil => simp
  | cons x xs ih =>
    have hx := h x (by simp)
    have := ih (fun y hy => h y (by simp [hy]))
    simp only [List.sum_cons, List.length_cons]
    push_cast
    nlinarith

/-- A feasible non-negative threshold, taken `m` times, covers the total work. -/
theorem sum_le_mul_of_isFeasibleExact (T m : Int) (times : List Int) (hpos : PositiveTimes times)
    (hm : 1 ≤ m) (hT : 0 ≤ T) (h : isFeasibleExact T times m = true) : times.sum ≤ m * T := by
  rw [isFeasibleExact_iff_pieces T m times hpos hm] at h
  obtain ⟨bs, hcat, hbs, hlen⟩ := h
  have h1 : times.sum = (bs.map List.sum).sum := by rw [← hcat, List.sum_flatten]
  have h2 : (bs.map List.sum).sum ≤ ((bs.map List.sum).length : Int) * T := by
    apply sum_le_length_mul
    intro x hx
    obtain ⟨b, hb, rfl⟩ := List.mem_map.mp hx
    exact (hbs b hb).2
  simp only [List.length_map] at h2
  have h3 : (bs.length : Int) * T ≤ m * T := Int.mul_le_mul_of_nonneg_right hlen hT
  omega

theorem positive_of_inRange (times : List Int) (h : TimesInRange times) :
    PositiveTimes times := fun t ht => (h t ht).1

theorem firstBadTime_eq_none_iff (times : List Int) :
    ∀ i : Nat, firstBadTime times i = none ↔ TimesInRange times := by
  induction times with
  | nil => intro i; simp [firstBadTime, TimesInRange]
  | cons t ts ih =>
    intro i
    unfold firstBadTime
    by_cases h : t < 1 ∨ t > 24
    · simp only [h, if_true]
      constructor
      · intro hc; cases hc
      · intro hr
        have := hr t (by simp)
        omega
    · simp only [h, if_false]
      rw [ih (i + 1)]
      constructor
      · intro hr x hx
        rcases List.mem_cons.mp hx with rfl | hmem
        · omega
        · exact hr x hmem
      · intro hr x hx
        exact hr x (by simp [hx])

/-- What `validateInput` accepts. -/
theorem validateInput_ok_iff (times : List Int) (m : Int) (is_test_mode : Bool) :
    validateInput times m is_test_mode = .ok () ↔
      (is_test_mode = true ∨ (50 ≤ (times.length : Int) ∧ (times.length : Int) ≤ 5000)) ∧
      m < (times.length : Int) ∧ TimesInRange times := by
  rw [← firstBadTime_eq_none_iff times 0]
  unfold validateInput
  by_cases h1 : (!is_test_mode && (decide ((times.length : Int) < 50)
      || decide ((times.length : Int) > 5000))) = true
  · simp only [h1, if_true]
    constructor
    · intro hc; cases hc
    · rintro ⟨hmode, -, -⟩
      cases is_test_mode
      · simp at h1 hmode
        omega
      · simp at h1
  · simp only [h1]
    have hmode : is_test_mode = true ∨
        (50 ≤ (times.length : Int) ∧ (times.length : Int) ≤ 5000) := by
      cases is_test_mode
      · right
        simp at h1
        omega
      · left; rfl
    by_cases h2 : (times.length : Int) ≤ m
    · simp only [h2, if_true]
      constructor
      · intro hc; cases hc
      · rintro ⟨-, hlt, -⟩
        omega
    · simp only [h2, if_false]
      cases hfb : firstBadTime times 0 with
      | none => exact ⟨fun _ => ⟨hmode, by omega, rfl⟩, fun _ => rfl⟩
      | some p => simp

/-- The result of `validateInput` is `.ok ()` or an error. -/
theorem validateInput_cases (times : List Int) (m : Int) (is_test_mode : Bool) :
    validateInput times m is_test_mode = .ok () ∨
      ∃ e, validateInput times m is_test_mode = .error e := by
  cases h : validateInput times m is_test_mode with
  | ok u => left; rfl
  | error e => right; exact ⟨e, rfl⟩

theorem ne_nil_of_more_jobs (times : List Int) (m : Int) (hm : 1 ≤ m)
    (hn : m < (times.length : Int)) : times ≠ [] := by
  intro h
  rw [h] at hn
  simp at hn
  omega

/-! ## The wrap-around of `int` -/

theorem wrap32_eq_self (x : Int) (h0 : -2147483648 ≤ x) (h1 : x ≤ 2147483647) :
    wrap32 x = x := by
  unfold wrap32
  omega

theorem wrap32_range (x : Int) : -2147483648 ≤ wrap32 x ∧ wrap32 x ≤ 2147483647 := by
  unfold wrap32
  omega

theorem wrap32_le_self (x : Int) (h0 : -2147483648 ≤ x) : wrap32 x ≤ x := by
  unfold wrap32
  omega

theorem wrap32_add_wrap32 (x y : Int) : wrap32 (wrap32 x + y) = wrap32 (x + y) := by
  unfold wrap32
  omega

/-- A fold of `int` additions yields the exact sum reduced modulo `2^32`. -/
theorem foldl_wrap32_add (l : List Int) :
    ∀ a : Int, l.foldl (fun acc x => wrap32 (acc + x)) (wrap32 a) = wrap32 (a + l.sum) := by
  induction l with
  | nil => intro a; simp
  | cons x xs ih =>
    intro a
    simp only [List.foldl_cons, List.sum_cons, wrap32_add_wrap32, ih]
    congr 1
    omega

/-- The value of `accumulate` is the sum of the times reduced modulo `2^32`. -/
theorem accumulate_eq_wrap32_sum (times : List Int) : accumulate times = wrap32 times.sum := by
  have h := foldl_wrap32_add times 0
  have h0 : wrap32 0 = 0 := by decide
  rw [h0] at h
  simpa [accumulate] using h

/-- Where the sum of the times is a value of an `int`, `accumulate` returns
it. -/
theorem accumulate_eq_sum (times : List Int) (h0 : -2147483648 ≤ times.sum)
    (h1 : times.sum ≤ 2147483647) : accumulate times = times.sum := by
  rw [accumulate_eq_wrap32_sum, wrap32_eq_self _ h0 h1]

theorem foldl_wrap32_load (times : List Int) (block : List Nat) :
    ∀ a : Int, block.foldl (fun load job_idx => wrap32 (load + times.getD job_idx 0)) (wrap32 a)
      = wrap32 (a + (block.map (fun i => times.getD i 0)).sum) := by
  induction block with
  | nil => intro a; simp
  | cons x xs ih =>
    intro a
    simp only [List.foldl_cons, List.map_cons, List.sum_cons, wrap32_add_wrap32, ih]
    congr 1
    omega

/-- The load that `solve` stores for a block is the sum of its times reduced
modulo `2^32`. -/
theorem machineLoad_eq_wrap32 (times : List Int) (block : List Nat) :
    machineLoad times block = wrap32 (blockLoad times block) := by
  have h := foldl_wrap32_load times block 0
  have h0 : wrap32 0 = 0 := by decide
  rw [h0] at h
  rw [blockLoad_eq_sum]
  simpa [machineLoad] using h

/-! ## The scans of the code and the scans over the integers -/

/-- The feasibility scan computes exact sums when the sum of the running block
and the times still to scan is a value of an `int`. -/
theorem isFeasibleLoop_eq_exact (T m : Int) (ts : List Int) :
    ∀ b c : Int, (∀ t ∈ ts, 0 ≤ t) → 0 ≤ c → c + ts.sum ≤ 2147483647 →
      isFeasibleLoop T m ts b c = isFeasibleLoopExact T m ts b c := by
  induction ts with
  | nil => intro b c _ _ _; simp [isFeasibleLoop, isFeasibleLoopExact]
  | cons t ts ih =>
    intro b c hts hc hsum
    have ht := hts t (by simp)
    have hts1 : ∀ x ∈ ts, 0 ≤ x := fun x hx => hts x (by simp [hx])
    have hs : 0 ≤ ts.sum := List.sum_nonneg hts1
    simp only [List.sum_cons] at hsum
    have hw : wrap32 (c + t) = c + t := wrap32_eq_self _ (by omega) (by omega)
    unfold isFeasibleLoop isFeasibleLoopExact
    rw [hw, ih b (c + t) hts1 (by omega) (by omega), ih (b + 1) t hts1 ht (by omega)]

/-- The feasibility scan computes exact sums when the threshold is below
`2^30`. -/
theorem isFeasibleLoop_eq_exact_of_small (T m : Int) (hT : T ≤ 1073741823) (ts : List Int) :
    ∀ b c : Int, (∀ t ∈ ts, 0 ≤ t) → 0 ≤ c → c ≤ T →
      isFeasibleLoop T m ts b c = isFeasibleLoopExact T m ts b c := by
  induction ts with
  | nil => intro b c _ _ _; simp [isFeasibleLoop, isFeasibleLoopExact]
  | cons t ts ih =>
    intro b c hts hc hcT
    have ht := hts t (by simp)
    have hts1 : ∀ x ∈ ts, 0 ≤ x := fun x hx => hts x (by simp [hx])
    unfold isFeasibleLoop isFeasibleLoopExact
    by_cases h1 : t > T
    · simp only [h1, if_true]
    · have hw : wrap32 (c + t) = c + t := wrap32_eq_self _ (by omega) (by omega)
      simp only [h1, if_false, hw]
      by_cases h2 : c + t ≤ T
      · simp only [h2, if_true]
        exact ih b (c + t) hts1 (by omega) h2
      · simp only [h2, if_false]
        rw [ih (b + 1) t hts1 ht (by omega)]

theorem isFeasible_eq_exact (T m : Int) (times : List Int) (hts : ∀ t ∈ times, 0 ≤ t)
    (hsum : times.sum ≤ 2147483647) : isFeasible T times m = isFeasibleExact T times m :=
  isFeasibleLoop_eq_exact T m times 1 0 hts (le_refl 0) (by omega)

theorem isFeasible_eq_exact_of_small (T m : Int) (times : List Int) (hts : ∀ t ∈ times, 0 ≤ t)
    (hT0 : 0 ≤ T) (hT : T ≤ 1073741823) :
    isFeasible T times m = isFeasibleExact T times m :=
  isFeasibleLoop_eq_exact_of_small T m hT times 1 0 hts (le_refl 0) hT0

/-- The reconstruction scan computes exact sums when the sum of the running
block and the times still to scan is a value of an `int`. -/
theorem reconstructLoop_eq_exact (T : Int) (ts : List Int) :
    ∀ (i : Nat) (P : List (List Nat)) (cur : List Nat) (c : Int),
      (∀ t ∈ ts, 0 ≤ t) → 0 ≤ c → c + ts.sum ≤ 2147483647 →
      reconstructLoop T ts i P cur c = reconstructLoopExact T ts i P cur c := by
  induction ts with
  | nil => intro i P cur c _ _ _; simp [reconstructLoop, reconstructLoopExact]
  | cons t ts ih =>
    intro i P cur c hts hc hsum
    have ht := hts t (by simp)
    have hts1 : ∀ x ∈ ts, 0 ≤ x := fun x hx => hts x (by simp [hx])
    have hs : 0 ≤ ts.sum := List.sum_nonneg hts1
    simp only [List.sum_cons] at hsum
    have hw : wrap32 (c + t) = c + t := wrap32_eq_self _ (by omega) (by omega)
    unfold reconstructLoop reconstructLoopExact
    rw [hw, ih (i + 1) P (cur ++ [i]) (c + t) hts1 (by omega) (by omega),
      ih (i + 1) (P ++ [cur]) [i] t hts1 ht (by omega)]

/-- The reconstruction scan computes exact sums when the threshold and the
times are below `2^30`. -/
theorem reconstructLoop_eq_exact_of_small (T : Int) (hT : T ≤ 1073741823) (ts : List Int) :
    ∀ (i : Nat) (P : List (List Nat)) (cur : List Nat) (c : Int),
      (∀ t ∈ ts, 0 ≤ t ∧ t ≤ 1073741823) → 0 ≤ c → c ≤ 1073741823 →
      reconstructLoop T ts i P cur c = reconstructLoopExact T ts i P cur c := by
  induction ts with
  | nil => intro i P cur c _ _ _; simp [reconstructLoop, reconstructLoopExact]
  | cons t ts ih =>
    intro i P cur c hts hc hcT
    have ht := hts t (by simp)
    have hts1 : ∀ x ∈ ts, 0 ≤ x ∧ x ≤ 1073741823 := fun x hx => hts x (by simp [hx])
    have hw : wrap32 (c + t) = c + t := wrap32_eq_self _ (by omega) (by omega)
    unfold reconstructLoop reconstructLoopExact
    rw [hw]
    by_cases h : c + t ≤ T
    · simp only [h, if_true]
      exact ih (i + 1) P (cur ++ [i]) (c + t) hts1 (by omega) (by omega)
    · simp only [h, if_false]
      exact ih (i + 1) (P ++ [cur]) [i] t hts1 ht.1 ht.2

theorem reconstructPartition_eq_exact (times : List Int) (m T : Int)
    (hts : ∀ t ∈ times, 0 ≤ t) (hsum : times.sum ≤ 2147483647) :
    reconstructPartition times m T = reconstructPartitionExact times m T :=
  reconstructLoop_eq_exact T times 0 [] [] 0 hts (le_refl 0) (by omega)

theorem nonneg_of_positive (times : List Int) (hpos : PositiveTimes times) :
    ∀ t ∈ times, 0 ≤ t := fun t ht => by have := hpos t ht; omega

/-! ## What holds of the scans of the code whatever the sums do -/

/-- A successful scan has met no processing time above `T`. -/
theorem isFeasibleLoop_times_le (T m : Int) (ts : List Int) :
    ∀ (b c : Int), isFeasibleLoop T m ts b c = true → ∀ t ∈ ts, t ≤ T := by
  induction ts with
  | nil => intro b c _ t ht; simp at ht
  | cons x xs ih =>
    intro b c h t ht
    unfold isFeasibleLoop at h
    by_cases h1 : x > T
    · simp [h1] at h
    · simp only [h1, if_false] at h
      have hx : x ≤ T := by omega
      have hxs : ∀ t ∈ xs, t ≤ T := by
        by_cases h2 : wrap32 (c + x) ≤ T
        · simp only [h2, if_true] at h
          exact ih _ _ h
        · simp only [h2, if_false] at h
          by_cases h3 : b + 1 > m
          · simp [h3] at h
          · simp only [h3, if_false] at h
            exact ih _ _ h
      rcases List.mem_cons.mp ht with rfl | hmem
      · exact hx
      · exact hxs t hmem

/-- A threshold below some processing time is rejected. -/
theorem isFeasible_false_of_mem_gt (T m : Int) (times : List Int) (t : Int)
    (ht : t ∈ times) (hgt : T < t) : isFeasible T times m = false := by
  by_contra hcon
  have htrue : isFeasible T times m = true := by simpa using hcon
  have := isFeasibleLoop_times_le T m times 1 0 htrue t ht
  omega

/-- A scan that succeeds with `m` machines succeeds with more. -/
theorem isFeasibleLoop_more_machines (T m m1 : Int) (hm : m ≤ m1) (ts : List Int) :
    ∀ (b c : Int), isFeasibleLoop T m ts b c = true → isFeasibleLoop T m1 ts b c = true := by
  induction ts with
  | nil => intro b c _; simp [isFeasibleLoop]
  | cons x xs ih =>
    intro b c h
    unfold isFeasibleLoop at h ⊢
    by_cases h1 : x > T
    · simp [h1] at h
    · simp only [h1, if_false] at h ⊢
      by_cases h2 : wrap32 (c + x) ≤ T
      · simp only [h2, if_true] at h ⊢
        exact ih _ _ h
      · simp only [h2, if_false] at h ⊢
        by_cases h3 : b + 1 > m
        · simp [h3] at h
        · simp only [h3, if_false] at h
          have h4 : ¬ b + 1 > m1 := by omega
          simp only [h4, if_false]
          exact ih _ _ h

/-- The blocks the scan returns, concatenated: what was already pushed, the
running block, then the indices still to scan. -/
theorem reconstructLoop_flatten (T : Int) (ts : List Int) :
    ∀ (i : Nat) (P : List (List Nat)) (cur : List Nat) (s : Int),
      (reconstructLoop T ts i P cur s).flatten
        = P.flatten ++ cur ++ List.range' i ts.length := by
  induction ts with
  | nil =>
    intro i P cur s
    unfold reconstructLoop
    cases cur with
    | nil => simp
    | cons x xs => simp
  | cons t ts ih =>
    intro i P cur s
    unfold reconstructLoop
    by_cases h : wrap32 (s + t) ≤ T
    · simp only [h, if_true]
      rw [ih]
      simp [List.range'_succ]
    · simp only [h, if_false]
      rw [ih]
      simp [List.range'_succ]

theorem reconstructPartition_isCut (times : List Int) (m T : Int) :
    IsCut times.length (reconstructPartition times m T) := by
  unfold IsCut reconstructPartition
  rw [reconstructLoop_flatten]
  simp [List.range_eq_range']

/-- The partition the reconstruction returns does not depend on `m`. -/
theorem reconstructPartition_any_m (times : List Int) (m1 m2 T : Int) :
    reconstructPartition times m1 T = reconstructPartition times m2 T := rfl

/-- The scan returns at least the blocks pushed so far, and one more when the
running block is not empty. -/
theorem reconstructLoop_length_ge (T : Int) (ts : List Int) :
    ∀ (i : Nat) (P : List (List Nat)) (cur : List Nat) (s : Int),
      P.length + (if cur = [] then 0 else 1) ≤ (reconstructLoop T ts i P cur s).length := by
  induction ts with
  | nil =>
    intro i P cur s
    unfold reconstructLoop
    cases cur with
    | nil => simp
    | cons x xs => simp
  | cons t ts ih =>
    intro i P cur s
    unfold reconstructLoop
    by_cases h : wrap32 (s + t) ≤ T
    · simp only [h, if_true]
      have := ih (i + 1) P (cur ++ [i]) (wrap32 (s + t))
      simp only [List.append_eq_nil, List.cons_ne_self, and_false, if_false] at this
      split <;> omega
    · simp only [h, if_false]
      have := ih (i + 1) (P ++ [cur]) [i] t
      simp only [List.length_append, List.length_singleton, List.cons_ne_self, if_false] at this
      split <;> omega

/-- The two scans run in lockstep: from matching states, the feasibility scan
succeeds exactly when no time still to scan exceeds `T` and the reconstruction
scan returns at most `m` blocks. -/
theorem isFeasibleLoop_iff_reconstructLoop (T m : Int) (ts : List Int) :
    ∀ (i : Nat) (P : List (List Nat)) (cur : List Nat) (s : Int),
      (∀ t ∈ ts, 0 ≤ t) → (cur = [] → s = 0) → (P.length : Int) + 1 ≤ m →
      (isFeasibleLoop T m ts ((P.length : Int) + 1) s = true ↔
        (∀ t ∈ ts, t ≤ T) ∧ ((reconstructLoop T ts i P cur s).length : Int) ≤ m) := by
  induction ts with
  | nil =>
    intro i P cur s _ _ hb
    unfold isFeasibleLoop reconstructLoop
    simp only [true_iff]
    refine ⟨by simp, ?_⟩
    split
    · omega
    · simp; omega
  | cons t ts ih =>
    intro i P cur s hts hcur hb
    have ht := hts t (by simp)
    have hts1 : ∀ x ∈ ts, 0 ≤ x := fun x hx => hts x (by simp [hx])
    unfold isFeasibleLoop reconstructLoop
    by_cases h1 : t > T
    · simp only [h1, if_true]
      constructor
      · intro h; cases h
      · rintro ⟨hle, -⟩
        have := hle t (by simp)
        omega
    · simp only [h1, if_false]
      by_cases h2 : wrap32 (s + t) ≤ T
      · simp only [h2, if_true]
        rw [ih (i + 1) P (cur ++ [i]) (wrap32 (s + t)) hts1 (by simp) hb]
        constructor
        · rintro ⟨hle, hlen⟩
          refine ⟨?_, hlen⟩
          intro x hx
          rcases List.mem_cons.mp hx with rfl | hmem
          · omega
          · exact hle x hmem
        · rintro ⟨hle, hlen⟩
          exact ⟨fun x hx => hle x (by simp [hx]), hlen⟩
      · simp only [h2, if_false]
        have hne : cur ≠ [] := by
          intro hnil
          have hs := hcur hnil
          rw [hs] at h2
          have hw : wrap32 (0 + t) ≤ 0 + t := wrap32_le_self _ (by omega)
          omega
        by_cases h3 : (P.length : Int) + 1 + 1 > m
        · simp only [h3, if_true]
          constructor
          · intro h; cases h
          · rintro ⟨-, hlen⟩
            have := reconstructLoop_length_ge T ts (i + 1) (P ++ [cur]) [i] t
            simp only [List.length_append, List.length_singleton, List.cons_ne_self,
              if_false] at this
            omega
        · simp only [h3, if_false]
          have hP : (((P ++ [cur]).length : Nat) : Int) + 1 = (P.length : Int) + 1 + 1 := by
            simp
          rw [← hP, ih (i + 1) (P ++ [cur]) [i] t hts1 (by simp) (by rw [hP]; omega)]
          constructor
          · rintro ⟨hle, hlen⟩
            refine ⟨?_, hlen⟩
            intro x hx
            rcases List.mem_cons.mp hx with rfl | hmem
            · omega
            · exact hle x hmem
          · rintro ⟨hle, hlen⟩
            exact ⟨fun x hx => hle x (by simp [hx]), hlen⟩

/-- The scan of the code succeeds wherever the scan over the integers does, for
a threshold that is a value of an `int`: a sum that wraps around only leaves
more room in the running block. -/
theorem isFeasibleLoop_of_exact (T m : Int) (hT : T ≤ 2147483647) (ts : List Int) :
    ∀ (be ce bw cw : Int), (∀ t ∈ ts, 1 ≤ t) → 0 ≤ ce → be ≤ m →
      -2147483648 ≤ cw → cw ≤ 2147483647 → (bw < be ∨ (bw = be ∧ cw ≤ ce)) →
      isFeasibleLoopExact T m ts be ce = true → isFeasibleLoop T m ts bw cw = true := by
  induction ts with
  | nil => intro be ce bw cw _ _ _ _ _ _ _; simp [isFeasibleLoop]
  | cons t ts ih =>
    intro be ce bw cw hts hce hbe hcw0 hcw1 hord h
    have ht := hts t (by simp)
    have hts1 : ∀ x ∈ ts, 1 ≤ x := fun x hx => hts x (by simp [hx])
    unfold isFeasibleLoopExact at h
    unfold isFeasibleLoop
    by_cases h1 : t > T
    · simp [h1] at h
    · simp only [h1, if_false] at h ⊢
      have hwr := wrap32_range (cw + t)
      have hwl := wrap32_le_self (cw + t) (by omega)
      by_cases h2 : wrap32 (cw + t) ≤ T
      · simp only [h2, if_true]
        by_cases h3 : ce + t ≤ T
        · simp only [h3, if_true] at h
          exact ih be (ce + t) bw _ hts1 (by omega) hbe hwr.1 hwr.2 (by omega) h
        · simp only [h3, if_false] at h
          by_cases h4 : be + 1 > m
          · simp [h4] at h
          · simp only [h4, if_false] at h
            exact ih (be + 1) t bw _ hts1 (by omega) (by omega) hwr.1 hwr.2 (by omega) h
      · simp only [h2, if_false]
        by_cases h3 : ce + t ≤ T
        · simp only [h3, if_true] at h
          have hlt : bw < be := by
            rcases hord with hlt | ⟨-, hle⟩
            · exact hlt
            · exfalso
              have hw : wrap32 (cw + t) = cw + t := wrap32_eq_self _ (by omega) (by omega)
              omega
          have h5 : ¬ bw + 1 > m := by omega
          simp only [h5, if_false]
          exact ih be (ce + t) (bw + 1) t hts1 (by omega) hbe (by omega) (by omega)
            (by omega) h
        · simp only [h3, if_false] at h
          by_cases h4 : be + 1 > m
          · simp [h4] at h
          · simp only [h4, if_false] at h
            have h5 : ¬ bw + 1 > m := by omega
            simp only [h5, if_false]
            exact ih (be + 1) t (bw + 1) t hts1 (by omega) (by omega) (by omega) (by omega)
              (by omega) h

theorem isFeasible_of_exact (T m : Int) (times : List Int) (hT : T ≤ 2147483647)
    (hpos : PositiveTimes times) (hm : 1 ≤ m) (h : isFeasibleExact T times m = true) :
    isFeasible T times m = true :=
  isFeasibleLoop_of_exact T m hT times 1 0 1 0 hpos (le_refl 0) hm (by omega) (by omega)
    (Or.inr ⟨rfl, le_refl 0⟩) h

/-- The counter `blocks_needed` grows by at most one per job, so its increment
never wraps on a vector whose size is a value of an `int`. -/
theorem isFeasibleLoopCounted_eq (T m : Int) (ts : List Int) :
    ∀ b c : Int, -2147483648 ≤ b → b + (ts.length : Int) ≤ 2147483647 →
      isFeasibleLoopCounted T m ts b c = isFeasibleLoop T m ts b c := by
  induction ts with
  | nil => intro b c _ _; simp [isFeasibleLoopCounted, isFeasibleLoop]
  | cons t ts ih =>
    intro b c hb hlen
    simp only [List.length_cons] at hlen
    push_cast at hlen
    have hw : wrap32 (b + 1) = b + 1 := wrap32_eq_self _ (by omega) (by omega)
    unfold isFeasibleLoopCounted isFeasibleLoop
    rw [hw, ih b (wrap32 (c + t)) hb (by omega), ih (b + 1) t (by omega) (by omega)]

/-! ## The binary search -/

/-- The midpoint is computed exactly when `right - left` is a value of an
`int`. -/
theorem wrap32_mid (left right : Int) (hl : -2147483648 ≤ left) (hr : right ≤ 2147483647)
    (hlt : left < right) (hw : right - left ≤ 2147483647) :
    wrap32 (left + Int.tdiv (wrap32 (right - left)) 2) = left + (right - left) / 2 := by
  have h1 : wrap32 (right - left) = right - left := wrap32_eq_self _ (by omega) hw
  have h2 : Int.tdiv (right - left) 2 = (right - left) / 2 :=
    Int.tdiv_eq_ediv (by omega) (by omega)
  rw [h1, h2]
  exact wrap32_eq_self _ (by omega) (by omega)

theorem searchMid_eq (left right : Int) (hl : -2147483648 ≤ left) (hr : right ≤ 2147483647)
    (hlt : left < right) (hw : right - left ≤ 2147483647) :
    searchMid left right = left + (right - left) / 2 :=
  wrap32_mid left right hl hr hlt hw

/-- Unfolding one iteration of the search loop. -/
theorem searchLoop_step (times : List Int) (m : Int) (fuel : Nat) (left right checks : Int)
    (hlt : left < right) :
    searchLoop times m (fuel + 1) left right checks =
      searchLoop times m fuel (searchStep times m left right checks).1
        (searchStep times m left right checks).2.1
        (searchStep times m left right checks).2.2 := by
  simp only [searchLoop, hlt, if_true, searchStep, searchMid]
  by_cases hf : isFeasible (wrap32 (left + Int.tdiv (wrap32 (right - left)) 2)) times m = true
  · simp only [hf, if_true]
  · simp only [hf]
    rfl

/-- A state with `left ≥ right` is an exit state. -/
theorem searchLoop_exit (times : List Int) (m : Int) (fuel : Nat) (left right checks : Int)
    (hn : ¬ left < right) : searchLoop times m fuel left right checks = some (left, checks) := by
  cases fuel with
  | zero => simp [searchLoop, hn]
  | succ f => simp [searchLoop, hn]

/-- The two outcomes of one iteration from a state whose width is a value of an
`int`. -/
theorem searchStep_cases (times : List Int) (m : Int) (left right checks : Int)
    (hl : -2147483648 ≤ left) (hr : right ≤ 2147483647) (hlt : left < right)
    (hw : right - left ≤ 2147483647) :
    (isFeasible (left + (right - left) / 2) times m = true ∧
      searchStep times m left right checks
        = (left, left + (right - left) / 2, wrap32 (checks + 1))) ∨
    (isFeasible (left + (right - left) / 2) times m = false ∧
      searchStep times m left right checks
        = (left + (right - left) / 2 + 1, right, wrap32 (checks + 1))) := by
  have hmid := searchMid_eq left right hl hr hlt hw
  have hw1 : wrap32 (left + (right - left) / 2 + 1) = left + (right - left) / 2 + 1 :=
    wrap32_eq_self _ (by omega) (by omega)
  simp only [searchStep, hmid, hw1]
  by_cases hf : isFeasible (left + (right - left) / 2) times m = true
  · left
    exact ⟨hf, by simp only [hf, if_true]⟩
  · right
    have hff : isFeasible (left + (right - left) / 2) times m = false := by simpa using hf
    exact ⟨hff, by simp only [hff, Bool.false_eq_true, if_false]⟩

/-- With fuel for the whole interval the loop ends with a result, which lies in
the interval when that is not empty. -/
theorem searchLoop_returns (times : List Int) (m : Int) :
    ∀ (fuel : Nat) (left right checks : Int), -2147483648 ≤ left → right ≤ 2147483647 →
      right - left ≤ 2147483647 → (right - left).toNat ≤ fuel →
      ∃ r k, searchLoop times m fuel left right checks = some (r, k) ∧
        (left ≤ right → left ≤ r ∧ r ≤ right) := by
  intro fuel
  induction fuel with
  | zero =>
    intro left right checks _ _ _ hfuel
    have hn : ¬ left < right := by omega
    exact ⟨left, checks, searchLoop_exit times m 0 left right checks hn, fun h => by omega⟩
  | succ fuel ih =>
    intro left right checks hl hr hw hfuel
    by_cases hlt : left < right
    · rw [searchLoop_step times m fuel left right checks hlt]
      rcases searchStep_cases times m left right checks hl hr hlt hw with ⟨-, hs⟩ | ⟨-, hs⟩
      · rw [hs]
        obtain ⟨r, k, h1, h2⟩ := ih left (left + (right - left) / 2) (wrap32 (checks + 1)) hl
          (by omega) (by omega) (by omega)
        exact ⟨r, k, h1, fun _ => by have := h2 (by omega); omega⟩
      · rw [hs]
        obtain ⟨r, k, h1, h2⟩ := ih (left + (right - left) / 2 + 1) right (wrap32 (checks + 1))
          (by omega) hr (by omega) (by omega)
        exact ⟨r, k, h1, fun _ => by have := h2 (by omega); omega⟩
    · exact ⟨left, checks, searchLoop_exit times m _ left right checks hlt, fun h => by omega⟩

/-- More fuel than the loop needs does not change what it returns. -/
theorem searchLoop_more_fuel (times : List Int) (m : Int) :
    ∀ (fuel extra : Nat) (left right checks : Int) (x : Int × Int),
      searchLoop times m fuel left right checks = some x →
      searchLoop times m (fuel + extra) left right checks = some x := by
  intro fuel
  induction fuel with
  | zero =>
    intro extra left right checks x h
    by_cases hlt : left < right
    · simp [searchLoop, hlt] at h
    · rw [searchLoop_exit times m _ left right checks hlt] at h ⊢
      exact h
  | succ fuel ih =>
    intro extra left right checks x h
    have harg : fuel + 1 + extra = (fuel + extra) + 1 := by omega
    rw [harg]
    by_cases hlt : left < right
    · rw [searchLoop_step times m _ left right checks hlt] at h ⊢
      exact ih extra _ _ _ x h
    · rw [searchLoop_exit times m _ left right checks hlt] at h ⊢
      exact h

/-- The result of the loop does not depend on the fuel, once there is enough
of it. -/
theorem searchLoop_fuel_irrelevant (times : List Int) (m : Int) (f1 f2 : Nat)
    (left right checks : Int) (x : Int × Int) (hle : f1 ≤ f2)
    (h : searchLoop times m f1 left right checks = some x) :
    searchLoop times m f2 left right checks = some x := by
  obtain ⟨e, rfl⟩ : ∃ e, f2 = f1 + e := ⟨f2 - f1, by omega⟩
  exact searchLoop_more_fuel times m f1 e left right checks x h

/-- The fuel of `findOptimalMakespan` covers every interval of `int`s. -/
theorem toNat_le_searchFuel (left right : Int) (hl : -2147483648 ≤ left)
    (hr : right ≤ 2147483647) : (right - left).toNat ≤ searchFuel := by
  unfold searchFuel
  omega

/-- The invariant of the binary search and what it gives at the exit: when the
test is monotone, true at `right` and false below `left`, the loop returns the
least threshold at which the test is true. -/
theorem searchLoop_least (times : List Int) (m : Int)
    (hmono : ∀ T1 T2 : Int, T1 ≤ T2 → isFeasible T1 times m = true →
      isFeasible T2 times m = true) :
    ∀ (fuel : Nat) (left right checks : Int), -2147483648 ≤ left → right ≤ 2147483647 →
      right - left ≤ 2147483647 → left ≤ right → (right - left).toNat ≤ fuel →
      isFeasible right times m = true → (∀ T, T < left → isFeasible T times m = false) →
      ∃ r k, searchLoop times m fuel left right checks = some (r, k) ∧
        left ≤ r ∧ r ≤ right ∧ isFeasible r times m = true ∧
        ∀ T, T < r → isFeasible T times m = false := by
  intro fuel
  induction fuel with
  | zero =>
    intro left right checks _ _ _ hle hfuel hright hleft
    have heq : left = right := by omega
    have hn : ¬ left < right := by omega
    exact ⟨left, checks, searchLoop_exit times m 0 left right checks hn, le_refl _, hle,
      by rw [heq]; exact hright, hleft⟩
  | succ fuel ih =>
    intro left right checks hl hr hw hle hfuel hright hleft
    by_cases hlt : left < right
    · rw [searchLoop_step times m fuel left right checks hlt]
      rcases searchStep_cases times m left right checks hl hr hlt hw with ⟨hf, hs⟩ | ⟨hf, hs⟩
      · rw [hs]
        obtain ⟨r, k, h1, h2, h3, h4, h5⟩ :=
          ih left (left + (right - left) / 2) (wrap32 (checks + 1)) hl (by omega) (by omega)
            (by omega) (by omega) hf hleft
        exact ⟨r, k, h1, h2, by omega, h4, h5⟩
      · rw [hs]
        have hbelow : ∀ T, T < left + (right - left) / 2 + 1 →
            isFeasible T times m = false := by
          intro T hT
          by_contra hcon
          have hTt : isFeasible T times m = true := by simpa using hcon
          have := hmono T (left + (right - left) / 2) (by omega) hTt
          rw [hf] at this
          cases this
        obtain ⟨r, k, h1, h2, h3, h4, h5⟩ :=
          ih (left + (right - left) / 2 + 1) right (wrap32 (checks + 1)) (by omega) hr
            (by omega) (by omega) (by omega) hright hbelow
        exact ⟨r, k, h1, by omega, h3, h4, h5⟩
    · have heq : left = right := by omega
      exact ⟨left, checks, searchLoop_exit times m _ left right checks hlt, le_refl _, hle,
        by rw [heq]; exact hright, hleft⟩

/-- The loop returns no more than a bound `B` above which every threshold it
can probe passes the test. -/
theorem searchLoop_le_of_feasible_above (times : List Int) (m : Int) (B : Int) :
    ∀ (fuel : Nat) (left right checks r k : Int), -2147483648 ≤ left → right ≤ 2147483647 →
      right - left ≤ 2147483647 → left ≤ B →
      (∀ T, B ≤ T → T ≤ 2147483647 → isFeasible T times m = true) →
      searchLoop times m fuel left right checks = some (r, k) → r ≤ B := by
  intro fuel
  induction fuel with
  | zero =>
    intro left right checks r k _ _ _ hB _ h
    by_cases hlt : left < right
    · simp [searchLoop, hlt] at h
    · rw [searchLoop_exit times m 0 left right checks hlt] at h
      simp only [Option.some.injEq, Prod.mk.injEq] at h
      omega
  | succ fuel ih =>
    intro left right checks r k hl hr hw hB hfeas h
    by_cases hlt : left < right
    · rw [searchLoop_step times m fuel left right checks hlt] at h
      rcases searchStep_cases times m left right checks hl hr hlt hw with ⟨hf, hs⟩ | ⟨hf, hs⟩
      · rw [hs] at h
        dsimp only at h
        exact ih left _ _ r k hl (by omega) (by omega) hB hfeas h
      · rw [hs] at h
        dsimp only at h
        have hmidB : left + (right - left) / 2 < B := by
          by_contra hcon
          have := hfeas (left + (right - left) / 2) (by omega) (by omega)
          rw [hf] at this
          cases this
        exact ih _ right _ r k (by omega) hr (by omega) (by omega) hfeas h
    · rw [searchLoop_exit times m _ left right checks hlt] at h
      simp only [Option.some.injEq, Prod.mk.injEq] at h
      omega

/-- Two runs of the loop over the same interval, the second with a test that
passes wherever the first passes: the second returns no more than the first. -/
theorem searchLoop_antitone (times : List Int) (m m1 : Int)
    (himp : ∀ T, isFeasible T times m = true → isFeasible T times m1 = true) :
    ∀ (fuel : Nat) (left right c c1 : Int), -2147483648 ≤ left → right ≤ 2147483647 →
      right - left ≤ 2147483647 → left ≤ right → (right - left).toNat ≤ fuel →
      ∃ r k r1 k1, searchLoop times m fuel left right c = some (r, k) ∧
        searchLoop times m1 fuel left right c1 = some (r1, k1) ∧ r1 ≤ r := by
  intro fuel
  induction fuel with
  | zero =>
    intro left right c c1 _ _ _ hle hfuel
    have hn : ¬ left < right := by omega
    exact ⟨left, c, left, c1, searchLoop_exit times m 0 left right c hn,
      searchLoop_exit times m1 0 left right c1 hn, le_refl _⟩
  | succ fuel ih =>
    intro left right c c1 hl hr hw hle hfuel
    by_cases hlt : left < right
    · rw [searchLoop_step times m fuel left right c hlt,
        searchLoop_step times m1 fuel left right c1 hlt]
      rcases searchStep_cases times m left right c hl hr hlt hw with ⟨hf, hs⟩ | ⟨hf, hs⟩
      · have hf1 := himp _ hf
        rcases searchStep_cases times m1 left right c1 hl hr hlt hw with ⟨-, hs1⟩ | ⟨hg, -⟩
        · rw [hs, hs1]
          dsimp only
          exact ih left _ _ _ hl (by omega) (by omega) (by omega) (by omega)
        · rw [hf1] at hg
          cases hg
      · rcases searchStep_cases times m1 left right c1 hl hr hlt hw with ⟨-, hs1⟩ | ⟨-, hs1⟩
        · rw [hs, hs1]
          dsimp only
          obtain ⟨r, k, h1, h2⟩ := searchLoop_returns times m fuel
            (left + (right - left) / 2 + 1) right (wrap32 (c + 1)) (by omega) hr (by omega)
            (by omega)
          obtain ⟨r1, k1, h3, h4⟩ := searchLoop_returns times m1 fuel
            left (left + (right - left) / 2) (wrap32 (c1 + 1)) hl (by omega) (by omega)
            (by omega)
          have := h2 (by omega)
          have := h4 (by omega)
          exact ⟨r, k, r1, k1, h1, h3, by omega⟩
        · rw [hs, hs1]
          dsimp only
          exact ih _ right _ _ (by omega) hr (by omega) (by omega) (by omega)
    · exact ⟨left, c, left, c1, searchLoop_exit times m _ left right c hlt,
        searchLoop_exit times m1 _ left right c1 hlt, le_refl _⟩

/-- The value of `accumulate` is a value of an `int`. -/
theorem accumulate_range (times : List Int) :
    -2147483648 ≤ accumulate times ∧ accumulate times ≤ 2147483647 := by
  rw [accumulate_eq_wrap32_sum]
  exact wrap32_range _

/-- On a non-empty vector whose largest entry is not negative the search
returns. -/
theorem findOptimalMakespan_returns (times : List Int) (m : Int) (M : Int)
    (hM : maxElement times = some M) (hM0 : 0 ≤ M) :
    ∃ r k, findOptimalMakespan times m = some (r, k) ∧ M ≤ r ∧
      (M ≤ accumulate times → r ≤ accumulate times) := by
  obtain ⟨ha0, ha1⟩ := accumulate_range times
  obtain ⟨r, k, h1, h2⟩ := searchLoop_returns times m searchFuel M (accumulate times) 0
    (by omega) ha1 (by omega) (toNat_le_searchFuel _ _ (by omega) ha1)
  simp only [findOptimalMakespan, hM]
  by_cases hlt : M < accumulate times
  · have := h2 (by omega)
    exact ⟨r, k, h1, this.1, fun _ => this.2⟩
  · rw [searchLoop_exit times m _ M _ 0 hlt] at h1 ⊢
    simp only [Option.some.injEq, Prod.mk.injEq] at h1
    refine ⟨M, 0, rfl, le_refl _, fun h => by omega⟩

theorem findOptimalMakespan_returns_of_positive (times : List Int) (m : Int)
    (hne : times ≠ []) (hpos : PositiveTimes times) :
    ∃ r k M, findOptimalMakespan times m = some (r, k) ∧ maxElement times = some M ∧
      M ∈ times ∧ (∀ x ∈ times, x ≤ M) ∧ 1 ≤ M ∧ M ≤ r := by
  obtain ⟨M, hM, hmem, hmax⟩ := maxElement_spec times hne
  have hM1 := hpos M hmem
  obtain ⟨r, k, hf, hr, -⟩ := findOptimalMakespan_returns times m M hM (by omega)
  exact ⟨r, k, M, hf, hM, hmem, hmax, hM1, hr⟩

/-- The whole list as a single block fits the threshold `sum(times)`. -/
theorem isFeasible_sum (times : List Int) (m : Int) (hpos : PositiveTimes times)
    (hm : 1 ≤ m) (hsum : times.sum ≤ 2147483647) : isFeasible times.sum times m = true := by
  rw [isFeasible_eq_exact _ m times (nonneg_of_positive times hpos) hsum]
  exact isFeasibleExact_sum times m hpos hm

/-- Raising the threshold keeps a positive instance feasible, when the sum of
the times is a value of an `int`. -/
theorem isFeasible_mono (times : List Int) (m : Int) (hpos : PositiveTimes times) (hm : 1 ≤ m)
    (hsum : times.sum ≤ 2147483647)
    (T1 T2 : Int) (hle : T1 ≤ T2) (h : isFeasible T1 times m = true) :
    isFeasible T2 times m = true := by
  rw [isFeasible_eq_exact _ m times (nonneg_of_positive times hpos) hsum] at h ⊢
  exact isFeasibleExact_mono times m hpos hm T1 T2 hle h

/-- The search on a non-empty positive instance with at least one machine whose
times sum to a value of an `int` returns the least threshold the feasibility
test accepts; it lies between the largest time and the sum of the times. -/
theorem findOptimalMakespan_least (times : List Int) (m : Int) (hne : times ≠ [])
    (hpos : PositiveTimes times) (hm : 1 ≤ m) (hsum : times.sum ≤ 2147483647) :
    ∃ r k M, findOptimalMakespan times m = some (r, k) ∧ maxElement times = some M ∧
      M ≤ r ∧ r ≤ times.sum ∧ isFeasible r times m = true ∧
      ∀ T, T < r → isFeasible T times m = false := by
  obtain ⟨M, hM, hmem, hmax⟩ := maxElement_spec times hne
  have hM1 := hpos M hmem
  have hMsum : M ≤ times.sum := le_sum_of_mem_positive times hpos M hmem
  have hacc : accumulate times = times.sum := accumulate_eq_sum times (by omega) hsum
  have hbelow : ∀ T, T < M → isFeasible T times m = false :=
    fun T hT => isFeasible_false_of_mem_gt T m times M hmem hT
  obtain ⟨r, k, h1, h2, h3, h4, h5⟩ :=
    searchLoop_least times m (fun T1 T2 => isFeasible_mono times m hpos hm hsum T1 T2)
      searchFuel M times.sum 0 (by omega) hsum (by omega) hMsum
      (toNat_le_searchFuel _ _ (by omega) hsum)
      (isFeasible_sum times m hpos hm hsum) hbelow
  refine ⟨r, k, M, ?_, hM, h2, h3, h4, h5⟩
  simp only [findOptimalMakespan, hM, hacc]
  exact h1

/-! ## One iteration, the exit state and the calls of the search -/

/-- What one iteration of the loop does to an interval whose width is a value of
an `int`. -/
theorem searchStep_interval (times : List Int) (m : Int) (left right checks : Int)
    (hl : -2147483648 ≤ left) (hr : right ≤ 2147483647) (hlt : left < right)
    (hw : right - left ≤ 2147483647) :
    left ≤ searchMid left right ∧ searchMid left right < right ∧
    (searchStep times m left right checks
        = (left, searchMid left right, wrap32 (checks + 1)) ∨
      searchStep times m left right checks
        = (searchMid left right + 1, right, wrap32 (checks + 1))) ∧
    (searchStep times m left right checks).2.1 - (searchStep times m left right checks).1
      < right - left ∧
    (searchStep times m left right checks).1 ≤ (searchStep times m left right checks).2.1 ∧
    -2147483648 ≤ (searchStep times m left right checks).1 ∧
    (searchStep times m left right checks).2.1 ≤ 2147483647 := by
  rw [searchMid_eq left right hl hr hlt hw]
  rcases searchStep_cases times m left right checks hl hr hlt hw with ⟨-, hs⟩ | ⟨-, hs⟩
  · rw [hs]
    refine ⟨by omega, by omega, Or.inl rfl, ?_, ?_, ?_, ?_⟩ <;> dsimp only <;> omega
  · rw [hs]
    refine ⟨by omega, by omega, Or.inr rfl, ?_, ?_, ?_, ?_⟩ <;> dsimp only <;> omega

/-- With fuel for the interval the loop reaches its exit state; the value it
returns is the `left` of that state, and `left = right` there when the loop was
entered with `left ≤ right`. -/
theorem searchExit_spec (times : List Int) (m : Int) :
    ∀ (fuel : Nat) (left right checks : Int), -2147483648 ≤ left → right ≤ 2147483647 →
      right - left ≤ 2147483647 → (right - left).toNat ≤ fuel →
      ∃ l r c, searchExit times m fuel left right checks = some (l, r, c) ∧ ¬ l < r ∧
        searchLoop times m fuel left right checks = some (l, c) ∧ (left ≤ right → l = r) := by
  intro fuel
  induction fuel with
  | zero =>
    intro left right checks _ _ _ hfuel
    have hn : ¬ left < right := by omega
    exact ⟨left, right, checks, by simp [searchExit, hn], hn,
      searchLoop_exit times m 0 left right checks hn, fun h => by omega⟩
  | succ fuel ih =>
    intro left right checks hl hr hw hfuel
    by_cases hlt : left < right
    · obtain ⟨-, -, -, hdec, hord, hl1, hr1⟩ :=
        searchStep_interval times m left right checks hl hr hlt hw
      obtain ⟨l, r, c, h1, h2, h3, h4⟩ :=
        ih (searchStep times m left right checks).1 (searchStep times m left right checks).2.1
          (searchStep times m left right checks).2.2 hl1 hr1 (by omega) (by omega)
      refine ⟨l, r, c, ?_, h2, ?_, fun _ => h4 hord⟩
      · simp only [searchExit, hlt, if_true]
        exact h1
      · rw [searchLoop_step times m fuel left right checks hlt]
        exact h3
    · exact ⟨left, right, checks, by simp [searchExit, hlt], hlt,
        searchLoop_exit times m _ left right checks hlt, fun h => by omega⟩

/-- The loop with `k` more iterations of fuel is the loop run from the state
that `k` iterations reach. -/
theorem searchLoop_iterate (times : List Int) (m : Int) (fuel : Nat) :
    ∀ (k : Nat) (s : Int × Int × Int),
      searchLoop times m (k + fuel) s.1 s.2.1 s.2.2 =
        searchLoop times m fuel (searchIterate times m k s).1
          (searchIterate times m k s).2.1 (searchIterate times m k s).2.2 := by
  intro k
  induction k with
  | zero => intro s; simp [searchIterate]
  | succ k ih =>
    intro s
    have harg : k + 1 + fuel = (k + fuel) + 1 := by omega
    rw [harg]
    by_cases hlt : s.1 < s.2.1
    · rw [searchLoop_step times m _ s.1 s.2.1 s.2.2 hlt]
      simp only [searchIterate, hlt, if_true]
      exact ih _
    · simp only [searchIterate, hlt, if_false]
      rw [searchLoop_exit times m _ s.1 s.2.1 s.2.2 hlt,
        searchLoop_exit times m _ s.1 s.2.1 s.2.2 hlt]

/-- A state that the loop body maps to a state with the same `left` and `right`
is never left: the loop does not exit, whatever the fuel. -/
theorem searchLoop_none_of_fixed (times : List Int) (m : Int) (left right : Int)
    (hlt : left < right)
    (hfix : ∀ c, (searchStep times m left right c).1 = left ∧
      (searchStep times m left right c).2.1 = right) :
    ∀ (fuel : Nat) (checks : Int), searchLoop times m fuel left right checks = none := by
  intro fuel
  induction fuel with
  | zero => intro checks; simp [searchLoop, hlt]
  | succ fuel ih =>
    intro checks
    rw [searchLoop_step times m fuel left right checks hlt, (hfix checks).1, (hfix checks).2]
    exact ih _

/-- The counter returned by the loop has grown by the number of calls. -/
theorem searchLoop_checks_eq_calls (times : List Int) (m : Int) :
    ∀ (fuel : Nat) (left right checks res k : Int), -2147483648 ≤ left → right ≤ 2147483647 →
      right - left ≤ 2147483647 → 0 ≤ checks →
      checks + ((right - left).toNat : Int) ≤ 2147483647 →
      searchLoop times m fuel left right checks = some (res, k) →
      k = checks + ((searchCalls times m fuel left right).length : Int) := by
  intro fuel
  induction fuel with
  | zero =>
    intro left right checks res k _ _ _ _ _ h
    by_cases hlt : left < right
    · simp [searchLoop, hlt] at h
    · simp only [searchLoop, hlt, if_false, Option.some.injEq, Prod.mk.injEq] at h
      simp [searchCalls]
      omega
  | succ fuel ih =>
    intro left right checks res k hl hr hw hc hcw h
    by_cases hlt : left < right
    · have hmid := wrap32_mid left right hl hr hlt hw
      have hw1 : wrap32 (left + (right - left) / 2 + 1) = left + (right - left) / 2 + 1 :=
        wrap32_eq_self _ (by omega) (by omega)
      have hck : wrap32 (checks + 1) = checks + 1 := wrap32_eq_self _ (by omega) (by omega)
      simp only [searchLoop, hlt, if_true, hmid, hw1, hck] at h
      simp only [searchCalls, hlt, if_true, hmid, hw1, List.length_cons]
      by_cases hf : isFeasible (left + (right - left) / 2) times m = true
      · simp only [hf, if_true] at h ⊢
        have := ih _ _ _ _ _ hl (by omega) (by omega) (by omega) (by omega) h
        push_cast
        omega
      · have hff : isFeasible (left + (right - left) / 2) times m = false := by
          simpa using hf
        simp only [hff, Bool.false_eq_true, if_false] at h ⊢
        have := ih _ _ _ _ _ (by omega) hr (by omega) (by omega) (by omega) h
        push_cast
        omega
    · simp only [searchLoop, hlt, if_false, Option.some.injEq, Prod.mk.injEq] at h
      simp only [searchCalls, hlt, if_false, List.length_nil]
      push_cast
      omega

/-- The number of calls is logarithmic in the width of the interval, and no
call is made on an empty interval. -/
theorem searchCalls_length_bound (times : List Int) (m : Int) :
    ∀ (fuel : Nat) (left right : Int), -2147483648 ≤ left → right ≤ 2147483647 →
      right - left ≤ 2147483647 →
      (¬ left < right → (searchCalls times m fuel left right).length = 0) ∧
      (left < right →
        (2 : Int) ^ (searchCalls times m fuel left right).length ≤ 2 * (right - left)) ∧
      (searchCalls times m fuel left right).length ≤ (right - left).toNat := by
  intro fuel
  induction fuel with
  | zero =>
    intro left right _ _ _
    refine ⟨fun _ => by simp [searchCalls], fun h => ?_, by simp [searchCalls]⟩
    simp [searchCalls]
    omega
  | succ fuel ih =>
    intro left right hl hr hw
    by_cases hlt : left < right
    · have hmid := wrap32_mid left right hl hr hlt hw
      have hw1 : wrap32 (left + (right - left) / 2 + 1) = left + (right - left) / 2 + 1 :=
        wrap32_eq_self _ (by omega) (by omega)
      refine ⟨fun h => absurd hlt h, fun _ => ?_, ?_⟩
      · simp only [searchCalls, hlt, if_true, hmid, hw1, List.length_cons]
        by_cases hf : isFeasible (left + (right - left) / 2) times m = true
        · simp only [hf, if_true]
          obtain ⟨h0, h1, -⟩ := ih left (left + (right - left) / 2) hl (by omega) (by omega)
          rw [pow_succ]
          by_cases hlt1 : left < left + (right - left) / 2
          · have := h1 hlt1
            omega
          · rw [h0 hlt1]
            simp
            omega
        · have hff : isFeasible (left + (right - left) / 2) times m = false := by
            simpa using hf
          simp only [hff, Bool.false_eq_true, if_false]
          obtain ⟨h0, h1, -⟩ := ih (left + (right - left) / 2 + 1) right (by omega) hr
            (by omega)
          rw [pow_succ]
          by_cases hlt1 : left + (right - left) / 2 + 1 < right
          · have := h1 hlt1
            omega
          · rw [h0 hlt1]
            simp
            omega
      · simp only [searchCalls, hlt, if_true, hmid, hw1, List.length_cons]
        by_cases hf : isFeasible (left + (right - left) / 2) times m = true
        · simp only [hf, if_true]
          obtain ⟨-, -, h2⟩ := ih left (left + (right - left) / 2) hl (by omega) (by omega)
          omega
        · have hff : isFeasible (left + (right - left) / 2) times m = false := by
            simpa using hf
          simp only [hff, Bool.false_eq_true, if_false]
          obtain ⟨-, -, h2⟩ := ih (left + (right - left) / 2 + 1) right (by omega) hr
            (by omega)
          omega
    · refine ⟨fun _ => by simp [searchCalls, hlt], fun h => absurd h hlt, ?_⟩
      simp [searchCalls, hlt]

/-! ## What solve returns -/

/-- The rejecting path of `solve`, spelled out. -/
theorem solve_of_invalid (times : List Int) (m : Int) (is_test_mode : Bool) (run : Run)
    (e : ValidationError) (hv : validateInput times m is_test_mode = .error e) :
    solve times m is_test_mode run =
      some { makespan := run.junk_makespan, partition := [], machine_loads := [],
             solve_time := 0, feasibility_checks := run.junk_checks,
             status := .invalid_input } := by
  simp [solve, hv]

/-- The path of `solve` on which validation passes and nothing is thrown,
spelled out. -/
theorem solve_of_valid (times : List Int) (m : Int) (is_test_mode : Bool) (run : Run)
    (r k : Int) (hv : validateInput times m is_test_mode = .ok ())
    (hf : findOptimalMakespan times m = some (r, k)) (hth : run.thrown = none) :
    solve times m is_test_mode run =
      some { makespan := (r : Rat), partition := reconstructPartition times m r,
             machine_loads := (reconstructPartition times m r).map (machineLoad times),
             solve_time := run.elapsed, feasibility_checks := k, status := .optimal } := by
  simp [solve, hv, hf, hth]

/-- What `solve` returns once validation has passed and the search has
returned, whether or not an exception is raised. -/
theorem solve_of_search (times : List Int) (m : Int) (is_test_mode : Bool) (run : Run)
    (r k : Int) (hv : validateInput times m is_test_mode = .ok ())
    (hf : findOptimalMakespan times m = some (r, k)) :
    ∃ sol, solve times m is_test_mode run = some sol ∧ sol.makespan = (r : Rat) ∧
      sol.feasibility_checks = k ∧ sol.solve_time = run.elapsed ∧
      (sol.partition = [] ∨ sol.partition = reconstructPartition times m r) ∧
      (sol.status = .optimal ∨ ∃ what, sol.status = .error what) ∧
      (run.thrown = none → sol.status = .optimal) ∧
      (sol.status = .optimal → sol.partition = reconstructPartition times m r ∧
        sol.machine_loads = (reconstructPartition times m r).map (machineLoad times)) := by
  obtain ⟨elapsed, jm, jc, thrown⟩ := run
  cases thrown with
  | none =>
    exact ⟨_, solve_of_valid times m is_test_mode _ r k hv hf rfl, rfl, rfl, rfl, Or.inr rfl,
      Or.inl rfl, fun _ => rfl, fun _ => ⟨rfl, rfl⟩⟩
  | some th =>
    cases th with
    | in_reconstructPartition what =>
      refine ⟨{ makespan := (r : Rat), partition := [], machine_loads := [],
                solve_time := elapsed, feasibility_checks := k, status := .error what },
        by simp only [solve, hv, hf], rfl, rfl, rfl, Or.inl rfl,
        Or.inr ⟨what, rfl⟩, (by intro h; cases h), (by intro h; cases h)⟩
    | in_machine_loads pushed what =>
      by_cases hp : pushed < (reconstructPartition times m r).length
      · refine ⟨{ makespan := (r : Rat), partition := reconstructPartition times m r,
                  machine_loads :=
                    ((reconstructPartition times m r).map (machineLoad times)).take pushed,
                  solve_time := elapsed, feasibility_checks := k, status := .error what },
          by simp only [solve, hv, hf, hp, if_true], rfl, rfl, rfl, Or.inr rfl,
          Or.inr ⟨what, rfl⟩, (by intro h; cases h), (by intro h; cases h)⟩
      · refine ⟨{ makespan := (r : Rat), partition := reconstructPartition times m r,
                  machine_loads := (reconstructPartition times m r).map (machineLoad times),
                  solve_time := elapsed, feasibility_checks := k, status := .optimal },
          by simp only [solve, hv, hf, hp, if_false], rfl, rfl, rfl, Or.inr rfl,
          Or.inl rfl, fun _ => rfl, fun _ => ⟨rfl, rfl⟩⟩

theorem solveReturnsMakespan_of_search (times : List Int) (m r k : Int)
    (hf : findOptimalMakespan times m = some (r, k)) : SolveReturnsMakespan times m r := by
  intro mode run hv
  obtain ⟨sol, h1, h2, -, -, -, -, h3, -⟩ := solve_of_search times m mode run r k hv hf
  exact ⟨sol, h1, h2, h3⟩

theorem loadOn_cons (j t y : Int) (ts ys : List Int) :
    loadOn j (t :: ts) (y :: ys) = (if y = j then t else 0) + loadOn j ts ys := rfl

theorem loadOn_nonneg (j : Int) :
    ∀ (ts ys : List Int), (∀ t ∈ ts, 1 ≤ t) → 0 ≤ loadOn j ts ys := by
  intro ts
  induction ts with
  | nil => intro ys _; simp [loadOn]
  | cons t ts ih =>
    intro ys hpos
    cases ys with
    | nil => simp [loadOn]
    | cons y ys =>
      have ht := hpos t (by simp)
      have := ih ys (fun x hx => hpos x (by simp [hx]))
      rw [loadOn_cons]
      split <;> omega

theorem loadOn_eq_zero (j : Int) :
    ∀ (ts ys : List Int), (∀ y ∈ ys, y ≠ j) → loadOn j ts ys = 0 := by
  intro ts
  induction ts with
  | nil => intro ys _; simp [loadOn]
  | cons t ts ih =>
    intro ys hne
    cases ys with
    | nil => simp [loadOn]
    | cons y ys =>
      have hy := hne y (by simp)
      rw [loadOn_cons, if_neg hy, ih ys (fun x hx => hne x (by simp [hx]))]
      rfl

/-- A non-decreasing assignment of the jobs to machines `b..m` whose loads fit
the threshold makes the greedy scan succeed from the state `(b, c)`. -/
theorem isFeasibleLoopExact_of_machines (T m : Int) :
    ∀ (ts ys : List Int) (b c : Int), ts.length = ys.length → (∀ t ∈ ts, 1 ≤ t) → 0 ≤ c →
      ys.Pairwise (fun a a' => a ≤ a') → (∀ y ∈ ys, b ≤ y ∧ y ≤ m) →
      c + loadOn b ts ys ≤ T → (∀ j, b < j → loadOn j ts ys ≤ T) →
      isFeasibleLoopExact T m ts b c = true := by
  intro ts
  induction ts with
  | nil => intro ys b c _ _ _ _ _ _ _; simp [isFeasibleLoopExact]
  | cons t ts ih =>
    intro ys b c hlen hpos hc hpw hbd hlb hlj
    cases ys with
    | nil => simp at hlen
    | cons y ys =>
      have ht : 1 ≤ t := hpos t (by simp)
      have hpos1 : ∀ x ∈ ts, 1 ≤ x := fun x hx => hpos x (by simp [hx])
      have hy := hbd y (by simp)
      have hbd1 : ∀ y1 ∈ ys, y ≤ y1 ∧ y1 ≤ m := fun y1 h1 =>
        ⟨(List.pairwise_cons.mp hpw).1 y1 h1, (hbd y1 (by simp [h1])).2⟩
      have hpw1 := (List.pairwise_cons.mp hpw).2
      have hlen1 : ts.length = ys.length := by simpa using hlen
      have hnn : ∀ j, 0 ≤ loadOn j ts ys := fun j => loadOn_nonneg j ts ys hpos1
      have hzero : ∀ j, j < y → loadOn j ts ys = 0 := by
        intro j hj
        apply loadOn_eq_zero
        intro y1 h1
        have := (hbd1 y1 h1).1
        omega
      rw [loadOn_cons] at hlb
      have hlj1 : ∀ j, b < j → (if y = j then t else 0) + loadOn j ts ys ≤ T := by
        intro j hj
        have := hlj j hj
        rwa [loadOn_cons] at this
      have hrest : ∀ j, b < j → loadOn j ts ys ≤ T := by
        intro j hj
        have := hlj1 j hj
        split at this <;> omega
      have htT : t ≤ T := by
        by_cases hyb : y = b
        · rw [if_pos hyb] at hlb
          have := hnn b
          omega
        · have := hlj1 y (by omega)
          rw [if_pos rfl] at this
          have := hnn y
          omega
      unfold isFeasibleLoopExact
      have h1 : ¬ t > T := by omega
      simp only [h1, if_false]
      by_cases h2 : c + t ≤ T
      · simp only [h2, if_true]
        apply ih ys b (c + t) hlen1 hpos1 (by omega) hpw1
          (fun y1 h1 => ⟨by have := (hbd1 y1 h1).1; omega, (hbd1 y1 h1).2⟩) _ hrest
        by_cases hyb : y = b
        · rw [if_pos hyb] at hlb
          omega
        · rw [hzero b (by omega)]
          omega
      · simp only [h2, if_false]
        have hyb : y ≠ b := by
          intro hyb
          rw [if_pos hyb] at hlb
          have := hnn b
          omega
        have h3 : ¬ b + 1 > m := by omega
        simp only [h3, if_false]
        apply ih ys (b + 1) t hlen1 hpos1 (by omega) hpw1
          (fun y1 h1 => ⟨by have := (hbd1 y1 h1).1; omega, (hbd1 y1 h1).2⟩) _
          (fun j hj => hrest j (by omega))
        by_cases hy1 : y = b + 1
        · have := hlj1 (b + 1) (by omega)
          rw [if_pos hy1] at this
          exact this
        · rw [hzero (b + 1) (by omega)]
          omega

theorem greedyMachines_cons_cons (T m t t2 : Int) (ts : List Int) (b c : Int) :
    greedyMachines T m (t :: t2 :: ts) b c =
      if c + t ≤ T then b :: greedyMachines T m (t2 :: ts) b (c + t)
      else (b + 1) :: greedyMachines T m (t2 :: ts) (b + 1) t := rfl

/-- While the greedy scan succeeds, the machine numbers it induces are
non-decreasing, lie in `b..m`, keep every load within the threshold, end with
machine `m`, and start with machine `b` when the first of at least two jobs
fits the running block. -/
theorem greedyMachines_spec (T m : Int) :
    ∀ (ts : List Int) (b c : Int) (ys : List Int), ys = greedyMachines T m ts b c →
      (∀ t ∈ ts, 1 ≤ t) → 0 ≤ c → c ≤ T → b ≤ m → isFeasibleLoopExact T m ts b c = true →
      ys.length = ts.length ∧ ys.Pairwise (fun a a' => a ≤ a') ∧
      (∀ y ∈ ys, b ≤ y ∧ y ≤ m) ∧ c + loadOn b ts ys ≤ T ∧
      (∀ j, b < j → loadOn j ts ys ≤ T) ∧ (ts ≠ [] → ys.getLast? = some m) ∧
      (∀ t t2 rest, ts = t :: t2 :: rest → c + t ≤ T → ys.head? = some b) := by
  intro ts
  induction ts with
  | nil =>
    intro b c ys hys _ hc0 hc _ _
    subst hys
    refine ⟨rfl, List.Pairwise.nil, ?_, ?_, ?_, fun h => absurd rfl h, ?_⟩
    · intro y hy
      simp [greedyMachines] at hy
    · simp only [loadOn]
      omega
    · intro j _
      simp only [loadOn]
      omega
    · intro t t2 rest hcontra
      cases hcontra
  | cons t ts ih =>
    intro b c ys hys hpos hc0 hc hb h
    have ht : 1 ≤ t := hpos t (by simp)
    have hpos1 : ∀ x ∈ ts, 1 ≤ x := fun x hx => hpos x (by simp [hx])
    unfold isFeasibleLoopExact at h
    have h1 : ¬ t > T := by
      intro hgt
      simp [hgt] at h
    simp only [h1, if_false] at h
    cases ts with
    | nil =>
      have hys1 : ys = [m] := hys
      subst hys1
      have hfit : m = b → c + t ≤ T := by
        intro hmb
        by_contra hcon
        simp only [hcon, if_false] at h
        have h3 : b + 1 > m := by omega
        simp [h3] at h
      refine ⟨rfl, by simp, by simp; omega, ?_, ?_, fun _ => rfl, ?_⟩
      · rw [loadOn_cons]
        by_cases hmb : m = b
        · rw [if_pos hmb]
          have := hfit hmb
          simp [loadOn]
          omega
        · rw [if_neg hmb]
          simp [loadOn]
          omega
      · intro j _
        rw [loadOn_cons]
        split
        · simp [loadOn]; omega
        · simp [loadOn]; omega
      · intro a a2 rest hcontra
        simp at hcontra
    | cons t2 rest =>
      rw [greedyMachines_cons_cons] at hys
      by_cases h2 : c + t ≤ T
      · simp only [h2, if_true] at h hys
        obtain ⟨i1, i2, i3, i4, i5, i6, -⟩ :=
          ih b (c + t) _ rfl hpos1 (by omega) h2 hb h
        subst hys
        have hlast := i6 (by simp)
        refine ⟨by simp [i1], ?_, ?_, ?_, ?_, ?_, ?_⟩
        · exact List.pairwise_cons.mpr ⟨fun y hy => (i3 y hy).1, i2⟩
        · intro y hy
          rcases List.mem_cons.mp hy with rfl | hmem
          · exact ⟨le_refl _, hb⟩
          · exact i3 y hmem
        · rw [loadOn_cons, if_pos rfl]
          omega
        · intro j hj
          rw [loadOn_cons, if_neg (by omega)]
          have := i5 j hj
          omega
        · intro _
          cases hg : greedyMachines T m (t2 :: rest) b (c + t) with
          | nil => rw [hg] at i1; simp at i1
          | cons g gs =>
            rw [hg] at hlast
            rw [List.getLast?_cons_cons]
            exact hlast
        · intro _ _ _ _ _
          rfl
      · simp only [h2, if_false] at h hys
        have h3 : ¬ b + 1 > m := by
          intro hgt
          simp [hgt] at h
        simp only [h3, if_false] at h
        obtain ⟨i1, i2, i3, i4, i5, i6, -⟩ :=
          ih (b + 1) t _ rfl hpos1 (by omega) (by omega) (by omega) h
        subst hys
        have hlast := i6 (by simp)
        refine ⟨by simp [i1], ?_, ?_, ?_, ?_, ?_, ?_⟩
        · exact List.pairwise_cons.mpr ⟨fun y hy => (i3 y hy).1, i2⟩
        · intro y hy
          rcases List.mem_cons.mp hy with rfl | hmem
          · exact ⟨by omega, by omega⟩
          · have := i3 y hmem
            exact ⟨by omega, this.2⟩
        · rw [loadOn_cons, if_neg (by omega)]
          rw [loadOn_eq_zero b _ _ (fun y hy => by have := (i3 y hy).1; omega)]
          omega
        · intro j hj
          rw [loadOn_cons]
          by_cases hjb : b + 1 = j
          · rw [if_pos hjb, ← hjb]
            exact i4
          · rw [if_neg hjb]
            have := i5 j (by omega)
            omega
        · intro _
          cases hg : greedyMachines T m (t2 :: rest) (b + 1) t with
          | nil => rw [hg] at i1; simp at i1
          | cons g gs =>
            rw [hg] at hlast
            rw [List.getLast?_cons_cons]
            exact hlast
        · intro a a2 r hts hfit
          simp only [List.cons.injEq] at hts
          rw [← hts.1] at hfit
          exact absurd hfit h2

/-- A row of 0/1 values that adds up to 1 has exactly one entry equal to 1. -/
theorem one_hot_of_sum_one :
    ∀ (k : Nat) (g : Nat → Int), (∀ j, j < k → 0 ≤ g j ∧ g j ≤ 1) →
      Finset.sum (Finset.range k) g = 1 →
      ∃ j0, j0 < k ∧ g j0 = 1 ∧ ∀ j, j < k → j ≠ j0 → g j = 0 := by
  intro k
  induction k with
  | zero => intro g _ h; simp at h
  | succ k ih =>
    intro g hb hsum
    rw [Finset.sum_range_succ] at hsum
    have hk := hb k (by omega)
    have hnn : ∀ i ∈ Finset.range k, 0 ≤ g i := fun i hi =>
      (hb i (by have := Finset.mem_range.mp hi; omega)).1
    have hsnn : 0 ≤ Finset.sum (Finset.range k) g := Finset.sum_nonneg hnn
    by_cases hgk : g k = 1
    · have hz : Finset.sum (Finset.range k) g = 0 := by linarith
      have hall := (Finset.sum_eq_zero_iff_of_nonneg hnn).mp hz
      refine ⟨k, by omega, hgk, ?_⟩
      intro j hj hne
      exact hall j (Finset.mem_range.mpr (by omega))
    · have hgk0 : g k = 0 := by omega
      have hs : Finset.sum (Finset.range k) g = 1 := by linarith
      obtain ⟨j0, hj0, h1, h0⟩ := ih g (fun j hj => hb j (by omega)) hs
      refine ⟨j0, by omega, h1, ?_⟩
      intro j hj hne
      by_cases hjk : j = k
      · rw [hjk]; exact hgk0
      · exact h0 j (by omega) hne

/-- The row of machine `v` among machines `1..k`: it adds up to 1, and weighted
with the machine numbers it adds up to `v`. -/
theorem indicator_row_sums (v : Int) :
    ∀ k : Nat,
      Finset.sum (Finset.range k) (fun j => if v = (j : Int) + 1 then (1 : Int) else 0)
        = (if 1 ≤ v ∧ v ≤ (k : Int) then 1 else 0) ∧
      Finset.sum (Finset.range k)
          (fun j => ((j : Int) + 1) * (if v = (j : Int) + 1 then (1 : Int) else 0))
        = (if 1 ≤ v ∧ v ≤ (k : Int) then v else 0) := by
  intro k
  induction k with
  | zero =>
    have h : ¬ (1 ≤ v ∧ v ≤ 0) := by omega
    simp [h]
  | succ k ih =>
    rw [Finset.sum_range_succ, Finset.sum_range_succ, ih.1, ih.2]
    push_cast
    by_cases hv : v = (k : Int) + 1
    · have h1 : ¬ (1 ≤ v ∧ v ≤ (k : Int)) := by omega
      have h2 : 1 ≤ v ∧ v ≤ (k : Int) + 1 := by omega
      rw [if_neg h1, if_neg h1, if_pos hv, if_pos h2, if_pos h2]
      constructor
      · omega
      · rw [hv]; ring
    · rw [if_neg hv]
      by_cases h1 : 1 ≤ v ∧ v ≤ (k : Int)
      · have h2 : 1 ≤ v ∧ v ≤ (k : Int) + 1 := by omega
        rw [if_pos h1, if_pos h1, if_pos h2, if_pos h2]
        constructor <;> ring
      · have h2 : ¬ (1 ≤ v ∧ v ≤ (k : Int) + 1) := by omega
        rw [if_neg h1, if_neg h1, if_neg h2, if_neg h2]
        constructor <;> ring

/-- The load sum of constraint (2) for a 0/1 column that marks the jobs of
machine `j` is the load of machine `j`. -/
theorem sum_times_indicator (j : Int) :
    ∀ (ts : List Int) (y : Nat → Int) (g : Nat → Int),
      (∀ i, i < ts.length → g i = if y i = j then 1 else 0) →
      Finset.sum (Finset.range ts.length) (fun i => ts.getD i 0 * g i)
        = loadOn j ts ((List.range ts.length).map y) := by
  intro ts
  induction ts with
  | nil => intro y g _; simp [loadOn]
  | cons t ts ih =>
    intro y g hg
    have h0 := hg 0 (by simp)
    have ih1 := ih (fun i => y (i + 1)) (fun i => g (i + 1))
      (fun i hi => hg (i + 1) (by simp; omega))
    simp only [List.length_cons]
    rw [Finset.sum_range_succ', List.range_succ_eq_map, List.map_cons, List.map_map,
      loadOn_cons]
    have hmap : (List.map (y ∘ Nat.succ) (List.range ts.length))
        = (List.range ts.length).map (fun i => y (i + 1)) := rfl
    rw [hmap, ← ih1]
    have hsum : Finset.sum (Finset.range ts.length)
          (fun i => (t :: ts).getD (i + 1) 0 * g (i + 1))
        = Finset.sum (Finset.range ts.length) (fun i => ts.getD i 0 * g (i + 1)) := by
      apply Finset.sum_congr rfl
      intro i _
      simp [List.getD_eq_getElem?_getD]
    rw [hsum, h0]
    have hhead : (t :: ts).getD 0 0 = t := by simp [List.getD_eq_getElem?_getD]
    rw [hhead]
    split <;> ring

theorem map_getD_range_of_length (ys : List Int) (n : Nat) (h : ys.length = n) :
    (List.range n).map (fun i => ys.getD i 0) = ys := by
  subst h
  exact map_getD_range ys

/-- In a feasible point the variable `x[i][j]` says whether `y[i]` is machine
`j + 1`. -/
theorem milp_x_eq_indicator (times : List Int) (m : Int) (p : MilpPoint)
    (hp : MilpFeasible times m p) (i : Nat) (hi : i < times.length) (j : Nat)
    (hj : (j : Int) < m) :
    p.x i j = if p.y i = (j : Int) + 1 then 1 else 0 := by
  obtain ⟨j0, hj0, h1, h0⟩ := one_hot_of_sum_one m.toNat (fun j => p.x i j)
    (fun j hj => hp.x_bounds i j hi (by omega)) (hp.job_assignment i hi)
  have hy : p.y i = (j0 : Int) + 1 := by
    rw [hp.consistency i hi,
      Finset.sum_eq_single_of_mem j0 (Finset.mem_range.mpr hj0)
        (fun b hb hne => by
          have := h0 b (Finset.mem_range.mp hb) hne
          simp only at this
          rw [this, mul_zero])]
    rw [h1, mul_one]
  by_cases hjj : j = j0
  · subst hjj
    rw [h1, if_pos hy]
  · have := h0 j (by omega) hjj
    rw [this, if_neg (by omega)]

theorem milp_y_monotone (times : List Int) (m : Int) (p : MilpPoint)
    (hp : MilpFeasible times m p) (a b : Nat) (hab : a ≤ b) (hb : b < times.length) :
    p.y a ≤ p.y b := by
  induction b, hab using Nat.le_induction with
  | base => exact le_refl _
  | succ k _ ih =>
    have h1 := ih (by omega)
    have h2 := hp.contiguity k hb
    omega

/-- The whole part of the `C_max` of a feasible point is a threshold that the
feasibility test accepts. -/
theorem isFeasibleExact_floor_of_milpFeasible (times : List Int) (m : Int)
    (hpos : PositiveTimes times) (p : MilpPoint) (hp : MilpFeasible times m p) :
    isFeasibleExact ⌊p.C_max⌋ times m = true := by
  have hT0 : 0 ≤ ⌊p.C_max⌋ := Int.le_floor.mpr (by exact_mod_cast hp.C_max_bounds)
  have hyb : ∀ y ∈ (List.range times.length).map p.y, 1 ≤ y ∧ y ≤ m := by
    intro y hy
    obtain ⟨i, hi, rfl⟩ := List.mem_map.mp hy
    exact hp.y_bounds i (List.mem_range.mp hi)
  have hload : ∀ j, loadOn j times ((List.range times.length).map p.y) ≤ ⌊p.C_max⌋ := by
    intro j
    by_cases hjr : 1 ≤ j ∧ j ≤ m
    · have hj1 : (((j - 1).toNat : Nat) : Int) + 1 = j := by omega
      have hjm : (((j - 1).toNat : Nat) : Int) < m := by omega
      have hsum := sum_times_indicator j times p.y (fun i => p.x i (j - 1).toNat)
        (fun i hi => by
          simp only
          rw [milp_x_eq_indicator times m p hp i hi (j - 1).toNat hjm, hj1])
      have hC := hp.load_definition (j - 1).toNat hjm
      have hle := hp.makespan_definition (j - 1).toNat hjm
      rw [hC, hsum] at hle
      exact Int.le_floor.mpr hle
    · rw [loadOn_eq_zero j times _ (fun y hy => by have := hyb y hy; omega)]
      exact hT0
  have hpw : ((List.range times.length).map p.y).Pairwise (fun a a' => a ≤ a') := by
    rw [List.pairwise_map]
    apply List.Pairwise.imp_of_mem _ (List.pairwise_lt_range times.length)
    intro a b _ hb hab
    exact milp_y_monotone times m p hp a b (le_of_lt hab) (List.mem_range.mp hb)
  unfold isFeasibleExact
  apply isFeasibleLoopExact_of_machines ⌊p.C_max⌋ m times _ 1 0 (by simp) hpos (le_refl 0) hpw hyb
  · have := hload 1
    omega
  · intro j _
    exact hload j

/-- At a threshold the feasibility test accepts, the machine numbers of the
greedy scan, with the last job moved to machine `m`, give a feasible point of
the program whose `C_max` is that threshold. -/
theorem milpFeasible_pointOfMachines (times : List Int) (m r : Int)
    (hpos : PositiveTimes times) (hm : 1 ≤ m) (hn : m < (times.length : Int))
    (hr : isFeasibleExact r times m = true) (hmax : ∀ M, maxElement times = some M → M ≤ r)
    (hsum : times.sum ≤ m * r) :
    MilpFeasible times m (pointOfMachines times (greedyMachines r m times 1 0) (r : Rat)) := by
  have htr : ∀ t ∈ times, t ≤ r := isFeasibleLoopExact_times_le r m times 1 0 hr
  obtain ⟨t, t2, rest, htimes⟩ : ∃ t t2 rest, times = t :: t2 :: rest := by
    cases times with
    | nil => simp at hn; omega
    | cons t ts =>
      cases ts with
      | nil => simp at hn; omega
      | cons t2 rest => exact ⟨t, t2, rest, rfl⟩
  have ht1 : 1 ≤ t := hpos t (by rw [htimes]; simp)
  have htr1 : t ≤ r := htr t (by rw [htimes]; simp)
  have hr0 : 0 ≤ r := by omega
  obtain ⟨hlen, hpw, hbd, hl1, hlj, hlast, hhead⟩ :=
    greedyMachines_spec r m times 1 0 _ rfl hpos (le_refl 0) hr0 hm hr
  have hall : ∀ j : Nat, loadOn ((j : Int) + 1) times (greedyMachines r m times 1 0) ≤ r := by
    intro j
    cases j with
    | zero => simpa using hl1
    | succ k => exact hlj _ (by push_cast; omega)
  have hget : ∀ i : Nat, i < times.length →
      (greedyMachines r m times 1 0).getD i 0 ∈ greedyMachines r m times 1 0 := by
    intro i hi
    rw [List.getD_eq_getElem _ _ (by rw [hlen]; exact hi)]
    exact List.getElem_mem _
  have hm0 : ((m.toNat : Nat) : Int) = m := by omega
  exact
    { x_bounds := by
        intro i j _ _
        simp only [pointOfMachines]
        split <;> simp
      y_bounds := fun i hi => hbd _ (hget i hi)
      C_bounds := by
        intro j _
        simp only [pointOfMachines]
        exact_mod_cast loadOn_nonneg _ times _ hpos
      C_max_bounds := by
        simp only [pointOfMachines]
        exact_mod_cast hr0
      job_assignment := by
        intro i hi
        simp only [pointOfMachines]
        rw [(indicator_row_sums _ m.toNat).1, if_pos]
        have := hbd _ (hget i hi)
        omega
      load_definition := by
        intro j _
        simp only [pointOfMachines]
        rw [sum_times_indicator ((j : Int) + 1) times
          (fun i => (greedyMachines r m times 1 0).getD i 0)
          (fun i => if (greedyMachines r m times 1 0).getD i 0 = (j : Int) + 1 then 1 else 0)
          (fun i _ => rfl),
          map_getD_range_of_length _ _ hlen]
      makespan_definition := by
        intro j _
        simp only [pointOfMachines]
        exact_mod_cast hall j
      consistency := by
        intro i hi
        simp only [pointOfMachines]
        rw [(indicator_row_sums _ m.toNat).2, if_pos]
        have := hbd _ (hget i hi)
        omega
      contiguity := by
        intro i hi
        simp only [pointOfMachines]
        rw [List.getD_eq_getElem _ _ (by rw [hlen]; omega),
          List.getD_eq_getElem _ _ (by rw [hlen]; omega)]
        exact List.pairwise_iff_getElem.mp hpw i (i + 1) _ _ (by omega)
      anchor_first := by
        have hh := hhead t t2 rest htimes (by omega)
        simp only [pointOfMachines]
        cases hg : greedyMachines r m times 1 0 with
        | nil => rw [hg] at hh; simp at hh
        | cons g gs =>
          rw [hg] at hh
          simp only [List.head?_cons, Option.some.injEq] at hh
          simp [hh]
      anchor_last := by
        have hl := hlast (by rw [htimes]; simp)
        rw [List.getLast?_eq_getElem?, hlen] at hl
        simp only [pointOfMachines, List.getD_eq_getElem?_getD, hl, Option.getD_some]
        rw [if_pos (by omega)]
      bound_max_time := by
        intro M hM
        simp only [pointOfMachines]
        exact_mod_cast hmax M hM
      bound_average := by
        simp only [pointOfMachines]
        rw [div_le_iff₀ (by exact_mod_cast (by omega : (0 : Int) < m)),
          accumulate_eq_wrap32_sum]
        have hs0 : 0 ≤ times.sum := sum_nonneg_of_positive times hpos
        have hw := wrap32_le_self times.sum (by omega)
        have : wrap32 times.sum ≤ r * m := by rw [mul_comm]; omega
        exact_mod_cast this }

/-- The least threshold the test accepts is the optimum of the program. -/
theorem least_isMilpOptimum (times : List Int) (m r : Int)
    (hpos : PositiveTimes times) (hm : 1 ≤ m) (hn : m < (times.length : Int))
    (hr : isFeasibleExact r times m = true)
    (hleast : ∀ T, T < r → isFeasibleExact T times m = false)
    (hmax : ∀ M, maxElement times = some M → M ≤ r) :
    IsMilpOptimum times m (r : Rat) := by
  have hne := ne_nil_of_more_jobs times m hm hn
  have hr0 : 0 ≤ r := by
    obtain ⟨M, hM, hmem, -⟩ := maxElement_spec times hne
    have := hmax M hM
    have := hpos M hmem
    omega
  have hsum := sum_le_mul_of_isFeasibleExact r m times hpos hm hr0 hr
  refine ⟨⟨_, milpFeasible_pointOfMachines times m r hpos hm hn hr hmax hsum, rfl⟩, ?_⟩
  intro p hp
  have hfl := isFeasibleExact_floor_of_milpFeasible times m hpos p hp
  have hle : r ≤ ⌊p.C_max⌋ := by
    by_contra hcon
    have := hleast ⌊p.C_max⌋ (by omega)
    rw [hfl] at this
    cases this
  have h1 : ((r : Int) : Rat) ≤ ((⌊p.C_max⌋ : Int) : Rat) := by exact_mod_cast hle
  exact le_trans h1 (Int.floor_le p.C_max)

/-! ## An upper bound on the makespan -/

/-- With threshold `T = q + M - 1`, where no time exceeds `M` and `m * q` covers
the total work `S`, the greedy scan succeeds: every block it closes has sum at
least `q`, so `m` blocks are enough. -/
theorem isFeasibleLoopExact_balanced (T m M q S : Int) (hq : q = T - M + 1) (hq1 : 1 ≤ q)
    (hmq : S ≤ m * q) :
    ∀ (ts : List Int) (b c : Int), (∀ t ∈ ts, 1 ≤ t ∧ t ≤ M) → 0 ≤ c → c ≤ T →
      c + ts.sum + (b - 1) * q ≤ S → isFeasibleLoopExact T m ts b c = true := by
  intro ts
  induction ts with
  | nil => intro b c _ _ _ _; simp [isFeasibleLoopExact]
  | cons t ts ih =>
    intro b c hts hc0 hc hinv
    have ht := hts t (by simp)
    have hts1 : ∀ x ∈ ts, 1 ≤ x ∧ x ≤ M := fun x hx => hts x (by simp [hx])
    have hsum0 : 0 ≤ ts.sum := sum_nonneg_of_positive ts (fun x hx => (hts1 x hx).1)
    simp only [List.sum_cons] at hinv
    unfold isFeasibleLoopExact
    have h1 : ¬ t > T := by omega
    simp only [h1, if_false]
    by_cases h2 : c + t ≤ T
    · simp only [h2, if_true]
      exact ih b (c + t) hts1 (by omega) h2 (by omega)
    · simp only [h2, if_false]
      have hcq : q ≤ c := by omega
      have hbq : b * q = (b - 1) * q + q := by ring
      have h3 : ¬ b + 1 > m := by
        intro hgt
        have hmb : m * q ≤ b * q := Int.mul_le_mul_of_nonneg_right (by omega) (by omega)
        omega
      simp only [h3, if_false]
      apply ih (b + 1) t hts1 (by omega) (by omega)
      have : (b + 1 - 1) * q = b * q := by ring
      rw [this]
      omega

/-! ## Exact arithmetic and 32-bit arithmetic agree -/

theorem inRange32_eq_some (x : Int) (h0 : 0 ≤ x) (h1 : x ≤ 2147483647) :
    inRange32 x = some x := by
  simp [inRange32, h0, h1]

theorem accumulateChecked_eq (ts : List Int) :
    ∀ acc : Int, (∀ t ∈ ts, 1 ≤ t) → 0 ≤ acc → acc + ts.sum ≤ 2147483647 →
      accumulateChecked ts acc = some (acc + ts.sum) := by
  induction ts with
  | nil => intro acc _ _ _; simp [accumulateChecked]
  | cons t ts ih =>
    intro acc hpos h0 hle
    have ht := hpos t (by simp)
    have hpos1 : ∀ x ∈ ts, 1 ≤ x := fun x hx => hpos x (by simp [hx])
    have hs := sum_nonneg_of_positive ts hpos1
    simp only [List.sum_cons] at hle
    simp only [accumulateChecked, inRange32_eq_some (acc + t) (by omega) (by omega)]
    rw [ih (acc + t) hpos1 (by omega) (by omega), List.sum_cons]
    congr 1
    omega

/-- The checked feasibility scan never fails and agrees with the scan over the
integers when the threshold is
below `2^30` and the block counter has room for the remaining jobs. -/
theorem isFeasibleLoopChecked_eq_exact (T m : Int) (hT : T ≤ 1073741823) (ts : List Int) :
    ∀ b c : Int, (∀ t ∈ ts, 1 ≤ t) → 0 ≤ c → c ≤ T → 0 ≤ b →
      b + (ts.length : Int) ≤ 2147483647 →
      isFeasibleLoopChecked T m ts b c = some (isFeasibleLoopExact T m ts b c) := by
  induction ts with
  | nil => intro b c _ _ _ _ _; simp [isFeasibleLoopChecked, isFeasibleLoopExact]
  | cons t ts ih =>
    intro b c hpos hc0 hc hb hlen
    have ht := hpos t (by simp)
    have hpos1 : ∀ x ∈ ts, 1 ≤ x := fun x hx => hpos x (by simp [hx])
    simp only [List.length_cons] at hlen
    push_cast at hlen
    unfold isFeasibleLoopChecked isFeasibleLoopExact
    by_cases h1 : t > T
    · simp only [h1, if_true]
    · simp only [h1, if_false, inRange32_eq_some (c + t) (by omega) (by omega)]
      by_cases h2 : c + t ≤ T
      · simp only [h2, if_true]
        exact ih b (c + t) hpos1 (by omega) h2 hb (by omega)
      · simp only [h2, if_false, inRange32_eq_some (b + 1) (by omega) (by omega)]
        by_cases h3 : b + 1 > m
        · simp only [h3, if_true]
        · simp only [h3, if_false]
          exact ih (b + 1) t hpos1 (by omega) (by omega) (by omega) (by omega)

/-- The reconstruction scan never leaves the 32-bit range when the threshold
and the times are below `2^30`. -/
theorem reconstructLoopChecked_eq_exact (T : Int) (hT : T ≤ 1073741823) (ts : List Int) :
    ∀ (i : Nat) (P : List (List Nat)) (cur : List Nat) (s : Int),
      (∀ t ∈ ts, 0 ≤ t ∧ t ≤ 1073741823) → 0 ≤ s → s ≤ 1073741823 →
      reconstructLoopChecked T ts i P cur s = some (reconstructLoopExact T ts i P cur s) := by
  induction ts with
  | nil => intro i P cur s _ _ _; simp [reconstructLoopChecked, reconstructLoopExact]
  | cons t ts ih =>
    intro i P cur s hts hs0 hs
    have ht := hts t (by simp)
    have hts1 : ∀ x ∈ ts, 0 ≤ x ∧ x ≤ 1073741823 := fun x hx => hts x (by simp [hx])
    simp only [reconstructLoopChecked, reconstructLoopExact,
      inRange32_eq_some (s + t) (by omega) (by omega)]
    by_cases h : s + t ≤ T
    · simp only [h, if_true]
      exact ih (i + 1) P (cur ++ [i]) (s + t) hts1 (by omega) (by omega)
    · simp only [h, if_false]
      exact ih (i + 1) (P ++ [cur]) [i] t hts1 (by omega) (by omega)


/-- The checked feasibility test never fails and returns what the code returns,
for a threshold in `[0, 2^30)` and fewer than `2^31 - 1` positive times. -/
theorem isFeasibleChecked_eq (T m : Int) (times : List Int) (hpos : ∀ t ∈ times, 1 ≤ t)
    (hT0 : 0 ≤ T) (hT : T ≤ 1073741823) (hlen : 1 + (times.length : Int) ≤ 2147483647) :
    isFeasibleChecked T times m = some (isFeasible T times m) := by
  rw [isFeasible_eq_exact_of_small T m times (fun t ht => by have := hpos t ht; omega) hT0 hT]
  exact isFeasibleLoopChecked_eq_exact T m hT times 1 0 hpos (le_refl 0) hT0 (by omega) hlen

/-- The value the search returns lies in the interval it started from. -/
theorem searchLoop_bounds (times : List Int) (m : Int) :
    ∀ (fuel : Nat) (left right checks res k : Int), -2147483648 ≤ left → right ≤ 2147483647 →
      right - left ≤ 2147483647 → left ≤ right →
      searchLoop times m fuel left right checks = some (res, k) →
      left ≤ res ∧ res ≤ right := by
  intro fuel
  induction fuel with
  | zero =>
    intro left right checks res k _ _ _ hle h
    by_cases hlt : left < right
    · simp [searchLoop, hlt] at h
    · rw [searchLoop_exit times m 0 left right checks hlt] at h
      simp only [Option.some.injEq, Prod.mk.injEq] at h
      omega
  | succ fuel ih =>
    intro left right checks res k hl hr hw hle h
    by_cases hlt : left < right
    · rw [searchLoop_step times m fuel left right checks hlt] at h
      rcases searchStep_cases times m left right checks hl hr hlt hw with ⟨-, hs⟩ | ⟨-, hs⟩
      · rw [hs] at h
        dsimp only at h
        have := ih left _ _ res k hl (by omega) (by omega) (by omega) h
        omega
      · rw [hs] at h
        dsimp only at h
        have := ih _ right _ res k (by omega) hr (by omega) (by omega) h
        omega
    · rw [searchLoop_exit times m _ left right checks hlt] at h
      simp only [Option.some.injEq, Prod.mk.injEq] at h
      omega

/-- The checked binary search never fails and returns what the code returns,
when its interval lies in `[0, 2^30)` and the counter has room for the remaining
iterations. -/
theorem searchLoopChecked_eq (times : List Int) (m : Int) (hpos : ∀ t ∈ times, 1 ≤ t)
    (hlen : 1 + (times.length : Int) ≤ 2147483647) :
    ∀ (fuel : Nat) (left right checks : Int), 0 ≤ left → right ≤ 1073741823 → 0 ≤ checks →
      checks + (fuel : Int) ≤ 2147483647 →
      searchLoopChecked times m fuel left right checks
        = searchLoop times m fuel left right checks := by
  intro fuel
  induction fuel with
  | zero => intro left right checks _ _ _ _; simp [searchLoopChecked, searchLoop]
  | succ fuel ih =>
    intro left right checks hl hr hc hcf
    push_cast at hcf
    by_cases hlt : left < right
    · have hdiv : Int.tdiv (right - left) 2 = (right - left) / 2 :=
        Int.tdiv_eq_ediv (by omega) (by omega)
      have hmid := wrap32_mid left right (by omega) (by omega) hlt (by omega)
      have hw1 : wrap32 (left + (right - left) / 2 + 1) = left + (right - left) / 2 + 1 :=
        wrap32_eq_self _ (by omega) (by omega)
      have hck : wrap32 (checks + 1) = checks + 1 := wrap32_eq_self _ (by omega) (by omega)
      have hfeas : isFeasibleChecked (left + (right - left) / 2) times m
          = some (isFeasible (left + (right - left) / 2) times m) :=
        isFeasibleChecked_eq _ m times hpos (by omega) (by omega) hlen
      simp only [searchLoopChecked, searchLoop, hlt, if_true,
        inRange32_eq_some (right - left) (by omega) (by omega), hdiv,
        inRange32_eq_some ((right - left) / 2) (by omega) (by omega),
        inRange32_eq_some (left + (right - left) / 2) (by omega) (by omega),
        inRange32_eq_some (checks + 1) (by omega) (by omega), hfeas, hmid, hw1, hck]
      by_cases hf : isFeasible (left + (right - left) / 2) times m = true
      · simp only [hf, if_true]
        exact ih left _ (checks + 1) hl (by omega) (by omega) (by omega)
      · have hff : isFeasible (left + (right - left) / 2) times m = false := by simpa using hf
        simp only [hff, Bool.false_eq_true, if_false,
          inRange32_eq_some (left + (right - left) / 2 + 1) (by omega) (by omega)]
        exact ih _ right (checks + 1) (by omega) hr (by omega) (by omega)
    · simp [searchLoopChecked, searchLoop, hlt]

/-! ## Instances of equal jobs

Lists `List.replicate n t` are evaluated here by induction, not by running the
functions: the instances on which the sum of the times leaves the range of an
`int` have tens of millions of jobs. -/

theorem timesInRange_replicate (n : Nat) : TimesInRange (List.replicate n 24) := by
  intro t ht
  have := List.eq_of_mem_replicate ht
  omega

theorem validateInput_replicate (n : Nat) (m : Int) (hn : m < (n : Int)) :
    validateInput (List.replicate n 24) m true = .ok () := by
  rw [validateInput_ok_iff]
  exact ⟨Or.inl rfl, by simpa using hn, timesInRange_replicate n⟩

theorem maxElement_replicate (n : Nat) (t : Int) (hn : 0 < n) :
    maxElement (List.replicate n t) = some t := by
  have hne : List.replicate n t ≠ [] := by
    intro h
    have := congrArg List.length h
    simp at this
    omega
  obtain ⟨M, hM, hmem, -⟩ := maxElement_spec (List.replicate n t) hne
  rw [hM, List.eq_of_mem_replicate hmem]

theorem sum_replicate_int (n : Nat) (t : Int) : (List.replicate n t).sum = (n : Int) * t := by
  simp [List.sum_replicate]

/-- With threshold `24` every job of time `24` after the first opens a block. -/
theorem reconstructLoop_replicate_length (k : Nat) :
    ∀ (i : Nat) (P : List (List Nat)) (j : Nat),
      (reconstructLoop 24 (List.replicate k 24) i P [j] 24).length = P.length + k + 1 := by
  induction k with
  | zero => intro i P j; simp [reconstructLoop]
  | succ k ih =>
    intro i P j
    have hw : ¬ wrap32 (24 + 24) ≤ 24 := by decide
    simp only [List.replicate_succ, reconstructLoop, hw, if_false]
    rw [ih]
    simp
    omega

theorem reconstructPartition_replicate_length (n : Nat) (m : Int) :
    (reconstructPartition (List.replicate n 24) m 24).length = n := by
  cases n with
  | zero => simp [reconstructPartition, reconstructLoop]
  | succ k =>
    have hw2 : wrap32 (0 + 24) = 24 := by decide
    simp only [reconstructPartition, List.replicate_succ, reconstructLoop, hw2, le_refl,
      if_true, List.nil_append]
    rw [reconstructLoop_replicate_length]
    simp

/-- A threshold `T` with `m * T` below the total work is rejected by the scan
over the integers. -/
theorem isFeasibleExact_false_of_small (T m : Int) (times : List Int)
    (hpos : PositiveTimes times) (hm : 1 ≤ m) (hT : 0 ≤ T) (hlt : m * T < times.sum) :
    isFeasibleExact T times m = false := by
  by_contra hcon
  have htrue : isFeasibleExact T times m = true := by simpa using hcon
  have := sum_le_mul_of_isFeasibleExact T m times hpos hm hT htrue
  omega

/-- No cut into at most `m` blocks has a largest load `r` with `m * r` below the
total work. -/
theorem not_isMinMaxLoad_of_small (times : List Int) (m r : Int) (hpos : PositiveTimes times)
    (hm : 1 ≤ m) (hr : 0 ≤ r) (hlt : m * r < times.sum) : ¬ IsMinMaxLoad times m r := by
  rintro ⟨⟨P, ⟨hcut, -, hlen⟩, -, hmax⟩, -⟩
  have hfeas : isFeasibleExact r times m = true :=
    isFeasibleExact_of_cut r m times hpos hm P hcut hlen
      (fun b hb => hmax _ (List.mem_map.mpr ⟨b, hb, rfl⟩))
  rw [isFeasibleExact_false_of_small r m times hpos hm hr hlt] at hfeas
  cases hfeas

/-- The loop run over an interval on which the test fails everywhere returns the
right end of the interval. -/
theorem searchLoop_all_false (times : List Int) (m : Int) :
    ∀ (fuel : Nat) (left right checks : Int), -2147483648 ≤ left → right ≤ 2147483647 →
      right - left ≤ 2147483647 → left ≤ right → (right - left).toNat ≤ fuel →
      (∀ T, left ≤ T → T < right → isFeasible T times m = false) →
      ∃ k, searchLoop times m fuel left right checks = some (right, k) := by
  intro fuel
  induction fuel with
  | zero =>
    intro left right checks _ _ _ hle hfuel _
    have heq : left = right := by omega
    have hn : ¬ left < right := by omega
    exact ⟨checks, by rw [searchLoop_exit times m 0 left right checks hn, heq]⟩
  | succ fuel ih =>
    intro left right checks hl hr hw hle hfuel hfalse
    by_cases hlt : left < right
    · rw [searchLoop_step times m fuel left right checks hlt]
      rcases searchStep_cases times m left right checks hl hr hlt hw with ⟨hf, -⟩ | ⟨-, hs⟩
      · rw [hfalse _ (by omega) (by omega)] at hf
        cases hf
      · rw [hs]
        exact ih _ right _ (by omega) hr (by omega) (by omega) (by omega)
          (fun T h1 h2 => hfalse T (by omega) h2)
    · have heq : left = right := by omega
      exact ⟨checks, by rw [searchLoop_exit times m _ left right checks hlt, heq]⟩

/-- The load of a block of an instance of jobs of time `24` is a multiple of
`24`. -/
theorem blockLoad_replicate (n : Nat) (block : List Nat) :
    ∃ q : Int, 0 ≤ q ∧ blockLoad (List.replicate n 24) block = 24 * q := by
  rw [blockLoad_eq_sum]
  induction block with
  | nil => exact ⟨0, le_refl 0, by simp⟩
  | cons i block ih =>
    obtain ⟨q, hq0, hq⟩ := ih
    simp only [List.map_cons, List.sum_cons, hq]
    by_cases hi : i < n
    · refine ⟨q + 1, by omega, ?_⟩
      simp [List.getD_eq_getElem?_getD, List.getElem?_replicate, hi]
      ring
    · refine ⟨q, hq0, ?_⟩
      simp [List.getD_eq_getElem?_getD, List.getElem?_replicate, hi]

/-! ## The code where the sum of the times is a value of an `int` -/

theorem getD_nonneg (times : List Int) (hts : ∀ t ∈ times, 0 ≤ t) (i : Nat) :
    0 ≤ times.getD i 0 := by
  by_cases hi : i < times.length
  · rw [List.getD_eq_getElem?_getD, List.getElem?_eq_getElem hi]
    exact hts _ (List.getElem_mem hi)
  · rw [List.getD_eq_getElem?_getD, List.getElem?_eq_none (by omega)]
    simp

theorem blockLoad_nonneg (times : List Int) (hts : ∀ t ∈ times, 0 ≤ t) (block : List Nat) :
    0 ≤ blockLoad times block := by
  rw [blockLoad_eq_sum]
  apply List.sum_nonneg
  intro x hx
  obtain ⟨i, -, rfl⟩ := List.mem_map.mp hx
  exact getD_nonneg times hts i

/-- The load `solve` stores for a block is the sum of its times when that sum
is a value of an `int`. -/
theorem machineLoad_eq_blockLoad (times : List Int) (hts : ∀ t ∈ times, 0 ≤ t)
    (block : List Nat) (h : blockLoad times block ≤ 2147483647) :
    machineLoad times block = blockLoad times block := by
  rw [machineLoad_eq_wrap32]
  exact wrap32_eq_self _ (by have := blockLoad_nonneg times hts block; omega) h

/-- The reconstruction returns at most `m` blocks at a threshold the feasibility
test accepts. -/
theorem reconstructPartition_length_le (times : List Int) (m T : Int) (hm : 1 ≤ m)
    (hts : ∀ t ∈ times, 0 ≤ t) (h : isFeasible T times m = true) :
    ((reconstructPartition times m T).length : Int) ≤ m := by
  have := (isFeasibleLoop_iff_reconstructLoop T m times 0 [] [] 0 hts (fun _ => rfl)
    (by simpa using hm)).mp (by simpa [isFeasible] using h)
  exact this.2

theorem reconstructPartition_blocks (times : List Int) (m T : Int)
    (hts : ∀ t ∈ times, 0 ≤ t) (hsum : times.sum ≤ 2147483647) (h : ∀ t ∈ times, t ≤ T) :
    ∀ b ∈ reconstructPartition times m T, b ≠ [] ∧ blockLoad times b ≤ T := by
  rw [reconstructPartition_eq_exact times m T hts hsum]
  exact reconstructPartitionExact_blocks times m T h

/-- A cut into at most `m` blocks of load at most `T` makes the test succeed. -/
theorem isFeasible_of_cut (T m : Int) (times : List Int) (hpos : PositiveTimes times)
    (hsum : times.sum ≤ 2147483647)
    (hm : 1 ≤ m) (P : List (List Nat)) (hP : IsCut times.length P)
    (hlen : (P.length : Int) ≤ m) (hload : ∀ b ∈ P, blockLoad times b ≤ T) :
    isFeasible T times m = true := by
  rw [isFeasible_eq_exact T m times (nonneg_of_positive times hpos) hsum]
  exact isFeasibleExact_of_cut T m times hpos hm P hP hlen hload

/-- When the test succeeds, the reconstruction at the same threshold is a cut
into at most `m` non-empty blocks of load at most `T`. -/
theorem cut_of_isFeasible (T m : Int) (times : List Int) (hpos : PositiveTimes times)
    (hsum : times.sum ≤ 2147483647) (hm : 1 ≤ m) (h : isFeasible T times m = true) :
    IsCutInto times m (reconstructPartition times m T) ∧
      ∀ b ∈ reconstructPartition times m T, blockLoad times b ≤ T := by
  have hts := nonneg_of_positive times hpos
  have hle : ∀ t ∈ times, t ≤ T := isFeasibleLoop_times_le T m times 1 0 h
  have hb := reconstructPartition_blocks times m T hts hsum hle
  exact ⟨⟨reconstructPartition_isCut times m T, fun b hbP => (hb b hbP).1,
    reconstructPartition_length_le times m T hm hts h⟩, fun b hbP => (hb b hbP).2⟩

/-- At the least feasible threshold the largest load of the reconstructed
partition is that threshold itself. -/
theorem reconstruct_tight (times : List Int) (m r : Int) (hne : times ≠ [])
    (hpos : PositiveTimes times) (hsum : times.sum ≤ 2147483647) (hm : 1 ≤ m)
    (hr : isFeasible r times m = true)
    (hleast : ∀ T, T < r → isFeasible T times m = false) :
    IsLargest r ((reconstructPartition times m r).map (blockLoad times)) := by
  have hts := nonneg_of_positive times hpos
  rw [reconstructPartition_eq_exact times m r hts hsum]
  rw [isFeasible_eq_exact r m times hts hsum] at hr
  apply reconstructExact_tight times m r hne hpos hm hr
  intro T hT
  rw [← isFeasible_eq_exact T m times hts hsum]
  exact hleast T hT

/-- The least threshold the test accepts is the minimum of the largest block
load over the cuts into at most `m` non-empty contiguous blocks. -/
theorem least_isMinMaxLoad (times : List Int) (m r : Int) (hne : times ≠ [])
    (hpos : PositiveTimes times) (hsum : times.sum ≤ 2147483647) (hm : 1 ≤ m)
    (hr : isFeasible r times m = true)
    (hleast : ∀ T, T < r → isFeasible T times m = false) :
    IsMinMaxLoad times m r := by
  have hts := nonneg_of_positive times hpos
  rw [isFeasible_eq_exact r m times hts hsum] at hr
  apply leastExact_isMinMaxLoad times m r hne hpos hm hr
  intro T hT
  rw [← isFeasible_eq_exact T m times hts hsum]
  exact hleast T hT

/-- A feasible non-negative threshold, taken `m` times, covers the total work. -/
theorem sum_le_mul_of_isFeasible (T m : Int) (times : List Int) (hpos : PositiveTimes times)
    (hsum : times.sum ≤ 2147483647)
    (hm : 1 ≤ m) (hT : 0 ≤ T) (h : isFeasible T times m = true) : times.sum ≤ m * T := by
  rw [isFeasible_eq_exact T m times (nonneg_of_positive times hpos) hsum] at h
  exact sum_le_mul_of_isFeasibleExact T m times hpos hm hT h

/-- The loads `solve` stores for the reconstruction at a threshold below `2^31`
that no time exceeds are the sums of the times of its blocks. -/
theorem machine_loads_eq (times : List Int) (m T : Int) (hts : ∀ t ∈ times, 0 ≤ t)
    (hsum : times.sum ≤ 2147483647) (hT : T ≤ 2147483647) (h : ∀ t ∈ times, t ≤ T) :
    (reconstructPartition times m T).map (machineLoad times)
      = (reconstructPartition times m T).map (blockLoad times) := by
  apply List.map_congr_left
  intro b hb
  have := (reconstructPartition_blocks times m T hts hsum h b hb).2
  exact machineLoad_eq_blockLoad times hts b (by omega)

/-! ## The two long instances on which the sum of the times wraps around -/

/-- The search on `n` jobs of time `24` whose wrapped sum is at most `24`: the
loop is not entered and the largest time is returned. -/
theorem findOptimalMakespan_replicate_skipped (n : Nat) (m : Int) (hn : 0 < n)
    (hw : wrap32 ((n : Int) * 24) ≤ 24) :
    findOptimalMakespan (List.replicate n 24) m = some (24, 0) := by
  have hacc : accumulate (List.replicate n 24) = wrap32 ((n : Int) * 24) := by
    rw [accumulate_eq_wrap32_sum, sum_replicate_int]
  simp only [findOptimalMakespan, maxElement_replicate n 24 hn, hacc]
  exact searchLoop_exit _ m _ _ _ _ (by omega)

/-- The search on `n` jobs of time `24` whose wrapped sum `W` lies in
`[24, 2^30)` while `m * W` is below the true sum: every probe fails and `W` is
returned. -/
theorem findOptimalMakespan_replicate_wrapped (n : Nat) (m W : Int) (hn : 0 < n) (hm : 1 ≤ m)
    (hw : wrap32 ((n : Int) * 24) = W) (hW0 : 24 ≤ W) (hW1 : W ≤ 1073741823)
    (hlt : m * W < (n : Int) * 24) :
    ∃ k, findOptimalMakespan (List.replicate n 24) m = some (W, k) := by
  have hacc : accumulate (List.replicate n 24) = W := by
    rw [accumulate_eq_wrap32_sum, sum_replicate_int, hw]
  have hpos : PositiveTimes (List.replicate n 24) :=
    positive_of_inRange _ (timesInRange_replicate n)
  simp only [findOptimalMakespan, maxElement_replicate n 24 hn, hacc]
  apply searchLoop_all_false _ m searchFuel 24 W 0 (by omega) (by omega) (by omega) hW0
    (toNat_le_searchFuel _ _ (by omega) (by omega))
  intro T hT0 hT1
  rw [isFeasible_eq_exact_of_small T m _ (nonneg_of_positive _ hpos) (by omega) (by omega)]
  apply isFeasibleExact_false_of_small T m _ hpos hm (by omega)
  rw [sum_replicate_int]
  have : m * T ≤ m * W := Int.mul_le_mul_of_nonneg_left (by omega) (by omega)
  omega

/-! ## The statements of the specification -/

/-- Claim C1 refuted: `89478486` jobs of time `24` with `m = 2` pass validation
in test mode; their sum `2147483664` wraps to a negative `int`, the loop of the
search is not entered, and `solve` returns the makespan `24`, which is not the
minimum of the largest block sum over the cuts into at most two blocks. -/
theorem solve_makespan_not_min_max_load :
    PositiveTimes (List.replicate 89478486 24) ∧
    (2 : Int) < ((List.replicate 89478486 (24 : Int)).length : Int) ∧
    validateInput (List.replicate 89478486 24) 2 true = .ok () ∧
    accumulate (List.replicate 89478486 24) = -2147483632 ∧
    findOptimalMakespan (List.replicate 89478486 24) 2 = some (24, 0) ∧
    SolveReturnsMakespan (List.replicate 89478486 24) 2 24 ∧
    ¬ IsMinMaxLoad (List.replicate 89478486 24) 2 24 := by
  have hpos : PositiveTimes (List.replicate 89478486 24) :=
    positive_of_inRange _ (timesInRange_replicate _)
  have hf : findOptimalMakespan (List.replicate 89478486 24) 2 = some (24, 0) :=
    findOptimalMakespan_replicate_skipped 89478486 2 (by decide) (by decide)
  refine ⟨hpos, by rw [List.length_replicate]; decide,
    validateInput_replicate _ 2 (by decide), ?_, hf,
    solveReturnsMakespan_of_search _ 2 24 0 hf, ?_⟩
  · rw [accumulate_eq_wrap32_sum, sum_replicate_int]
    decide
  · apply not_isMinMaxLoad_of_small _ 2 24 hpos (by decide) (by decide)
    rw [sum_replicate_int]
    decide

/-- Claim C1, amended: for positive times whose sum is at most `2^31 - 1` and
`n > m ≥ 1`, the search returns a value `r`, `solve` returns that value as the
makespan whenever validation passes, and `r` is the minimum, over the cuts of
jobs `0..n-1` in order into at most `m` non-empty contiguous blocks, of the
largest block sum. -/
theorem findOptimalMakespan_is_min_max_load (times : List Int) (m : Int)
    (hpos : PositiveTimes times) (hm : 1 ≤ m) (hn : m < (times.length : Int))
    (hsum : times.sum ≤ 2147483647) :
    ∃ r k, findOptimalMakespan times m = some (r, k) ∧ SolveReturnsMakespan times m r ∧
      IsMinMaxLoad times m r := by
  have hne := ne_nil_of_more_jobs times m hm hn
  obtain ⟨r, k, M, hf, -, -, -, hr, hleast⟩ :=
    findOptimalMakespan_least times m hne hpos hm hsum
  exact ⟨r, k, hf, solveReturnsMakespan_of_search times m r k hf,
    least_isMinMaxLoad times m r hne hpos hsum hm hr hleast⟩

theorem findOptimalMakespan_is_min_max_load_witness :
    PositiveTimes [8, 6, 4, 2, 10, 5, 3, 7, 9, 1] ∧ (1 : Int) ≤ 4 ∧
    (4 : Int) < (([8, 6, 4, 2, 10, 5, 3, 7, 9, 1] : List Int).length : Int) ∧
    ([8, 6, 4, 2, 10, 5, 3, 7, 9, 1] : List Int).sum ≤ 2147483647 ∧
    ∃ r k, findOptimalMakespan [8, 6, 4, 2, 10, 5, 3, 7, 9, 1] 4 = some (r, k) ∧
      SolveReturnsMakespan [8, 6, 4, 2, 10, 5, 3, 7, 9, 1] 4 r ∧
      IsMinMaxLoad [8, 6, 4, 2, 10, 5, 3, 7, 9, 1] 4 r :=
  ⟨by decide, by decide, by decide, by decide,
    findOptimalMakespan_is_min_max_load [8, 6, 4, 2, 10, 5, 3, 7, 9, 1] 4
      (by decide) (by decide) (by decide) (by decide)⟩

/-- Claim C2 refuted: for `times = [2147483647, 1]`, `m = 1` and
`T = 2147483647` the sum `current_sum + t` wraps to `-2147483648`, so
`isFeasible` returns true, although the only cut into one block has sum
`2147483648 > T`. -/
theorem isFeasible_accepts_without_cut :
    PositiveTimes [2147483647, 1] ∧ isFeasible 2147483647 [2147483647, 1] 1 = true ∧
    ¬ ∃ P : List (List Nat), IsCut ([2147483647, 1] : List Int).length P ∧
        (P.length : Int) ≤ 1 ∧ ∀ b ∈ P, blockLoad [2147483647, 1] b ≤ 2147483647 := by
  refine ⟨by decide, by decide, ?_⟩
  rintro ⟨P, hcut, hlen, hload⟩
  unfold IsCut at hcut
  cases P with
  | nil => simp at hcut
  | cons b bs =>
    cases bs with
    | nil =>
      simp only [List.flatten_cons, List.flatten_nil, List.append_nil] at hcut
      have := hload b (by simp)
      rw [hcut] at this
      revert this
      decide
    | cons b2 bs2 =>
      simp at hlen
      omega

/-- Claim C2, amended: for every integer `T`, positive times whose sum is at
most `2^31 - 1` and `m ≥ 1`, `isFeasible` returns true exactly when the jobs can
be cut in order into at most `m` contiguous blocks whose sums are all at most
`T`. -/
theorem isFeasible_iff_cut (T m : Int) (times : List Int) (hpos : PositiveTimes times)
    (hm : 1 ≤ m) (hsum : times.sum ≤ 2147483647) :
    isFeasible T times m = true ↔
      ∃ P : List (List Nat), IsCut times.length P ∧ (P.length : Int) ≤ m ∧
        ∀ b ∈ P, blockLoad times b ≤ T := by
  constructor
  · intro h
    obtain ⟨⟨hcut, -, hlen⟩, hload⟩ := cut_of_isFeasible T m times hpos hsum hm h
    exact ⟨_, hcut, hlen, hload⟩
  · rintro ⟨P, hcut, hlen, hload⟩
    exact isFeasible_of_cut T m times hpos hsum hm P hcut hlen hload

theorem isFeasible_iff_cut_witness :
    PositiveTimes [2, 3, 5, 7] ∧ (1 : Int) ≤ 3 ∧ ([2, 3, 5, 7] : List Int).sum ≤ 2147483647 ∧
    (isFeasible 7 [2, 3, 5, 7] 3 = true ↔
      ∃ P : List (List Nat), IsCut ([2, 3, 5, 7] : List Int).length P ∧
        (P.length : Int) ≤ 3 ∧ ∀ b ∈ P, blockLoad [2, 3, 5, 7] b ≤ 7) :=
  ⟨by decide, by decide, by decide,
    isFeasible_iff_cut 7 3 [2, 3, 5, 7] (by decide) (by decide) (by decide)⟩

/-- Claim C4 refuted: on the `89478486` jobs of time `24` with `m = 2`, a valid
instance of test mode, `solve` returns status `optimal` with a partition of
`89478486` blocks. -/
theorem solve_partition_exceeds_machines :
    TimesInRange (List.replicate 89478486 24) ∧
    (2 : Int) < ((List.replicate 89478486 (24 : Int)).length : Int) ∧
    ∃ sol, solve (List.replicate 89478486 24) 2 true ⟨1, 0, 0, none⟩ = some sol ∧
      sol.status = .optimal ∧ sol.partition.length = 89478486 ∧
      ¬ (sol.partition.length : Int) ≤ 2 := by
  have hf : findOptimalMakespan (List.replicate 89478486 24) 2 = some (24, 0) :=
    findOptimalMakespan_replicate_skipped 89478486 2 (by decide) (by decide)
  have hlen := reconstructPartition_replicate_length 89478486 2
  have hv : validateInput (List.replicate 89478486 24) 2 true = .ok () :=
    validateInput_replicate 89478486 2 (by decide)
  have hs := solve_of_valid (List.replicate 89478486 24) 2 true ⟨1, 0, 0, none⟩ 24 0 hv hf rfl
  have h1 : TimesInRange (List.replicate 89478486 24) := timesInRange_replicate 89478486
  have h2 : (2 : Int) < ((List.replicate 89478486 (24 : Int)).length : Int) := by
    rw [List.length_replicate]
    decide
  refine ⟨h1, h2, _, hs, rfl, ?_, ?_⟩
  · dsimp only
    exact hlen
  · dsimp only
    rw [hlen]
    decide

/-- Claim C4, amended: for every instance with `n > m ≥ 1`, every time in
`[1, 24]` and `sum(times) ≤ 2^31 - 1`, `solve` returns, in either mode and
whether or not an exception is raised, a partition of at most `m` blocks; when
validation passes and nothing is thrown the result is `optimal` and its
partition is the reconstruction at the makespan the search returned. -/
theorem solve_partition_length_le (times : List Int) (m : Int)
    (hrange : TimesInRange times) (hm : 1 ≤ m) (hn : m < (times.length : Int))
    (hsum : times.sum ≤ 2147483647) :
    ∀ (is_test_mode : Bool) (run : Run),
      ∃ sol, solve times m is_test_mode run = some sol ∧
        (sol.partition.length : Int) ≤ m ∧
        (validateInput times m is_test_mode = .ok () → run.thrown = none →
          sol.status = .optimal ∧ ∃ r k, findOptimalMakespan times m = some (r, k) ∧
            sol.partition = reconstructPartition times m r) := by
  intro mode run
  have hne := ne_nil_of_more_jobs times m hm hn
  have hpos := positive_of_inRange times hrange
  obtain ⟨r, k, M, hf, -, -, -, hr, -⟩ := findOptimalMakespan_least times m hne hpos hm hsum
  have hlen := reconstructPartition_length_le times m r hm (nonneg_of_positive times hpos) hr
  rcases validateInput_cases times m mode with hv | ⟨e, hv⟩
  · obtain ⟨sol, h1, -, -, -, h2, -, h3, h4⟩ := solve_of_search times m mode run r k hv hf
    refine ⟨sol, h1, ?_, ?_⟩
    · rcases h2 with h | h
      · rw [h]; simp; omega
      · rw [h]; exact hlen
    · intro _ hth
      exact ⟨h3 hth, r, k, hf, (h4 (h3 hth)).1⟩
  · refine ⟨_, solve_of_invalid times m mode run e hv, ?_, ?_⟩
    · simpa using (by omega : (0 : Int) ≤ m)
    · intro hok
      rw [hok] at hv
      cases hv

theorem solve_partition_length_le_witness :
    TimesInRange [8, 6, 4, 2, 10, 5, 3, 7, 9, 1] ∧ (1 : Int) ≤ 4 ∧
    (4 : Int) < (([8, 6, 4, 2, 10, 5, 3, 7, 9, 1] : List Int).length : Int) ∧
    ([8, 6, 4, 2, 10, 5, 3, 7, 9, 1] : List Int).sum ≤ 2147483647 ∧
    ∀ (is_test_mode : Bool) (run : Run),
      ∃ sol, solve [8, 6, 4, 2, 10, 5, 3, 7, 9, 1] 4 is_test_mode run = some sol ∧
        (sol.partition.length : Int) ≤ 4 ∧
        (validateInput [8, 6, 4, 2, 10, 5, 3, 7, 9, 1] 4 is_test_mode = .ok () →
          run.thrown = none →
          sol.status = .optimal ∧
          ∃ r k, findOptimalMakespan [8, 6, 4, 2, 10, 5, 3, 7, 9, 1] 4 = some (r, k) ∧
            sol.partition = reconstructPartition [8, 6, 4, 2, 10, 5, 3, 7, 9, 1] 4 r) :=
  ⟨by decide, by decide, by decide, by decide,
    solve_partition_length_le [8, 6, 4, 2, 10, 5, 3, 7, 9, 1] 4
      (by decide) (by decide) (by decide) (by decide)⟩

/-- Claim C5 refuted: on `178957012` jobs of time `24` with `m = 2`, a valid
instance of test mode, the sum `4294968288` wraps to `992`; every probe of the
search fails, `solve` returns status `optimal` and makespan `992`, yet every
entry of `machine_loads` is a multiple of `24` and at most `984`, so the largest
load is not the makespan. -/
theorem solve_max_load_below_makespan :
    PositiveTimes (List.replicate 178957012 24) ∧
    (2 : Int) < ((List.replicate 178957012 (24 : Int)).length : Int) ∧
    accumulate (List.replicate 178957012 24) = 992 ∧
    ∃ sol, solve (List.replicate 178957012 24) 2 true ⟨1, 0, 0, none⟩ = some sol ∧
      sol.status = .optimal ∧ sol.makespan = 992 ∧
      (∀ l ∈ sol.machine_loads, l ≤ 984) ∧ ¬ IsLargest 992 sol.machine_loads := by
  have hpos : PositiveTimes (List.replicate 178957012 24) :=
    positive_of_inRange _ (timesInRange_replicate 178957012)
  have hts := nonneg_of_positive _ hpos
  have hacc : accumulate (List.replicate 178957012 24) = 992 := by
    rw [accumulate_eq_wrap32_sum, sum_replicate_int]
    decide
  obtain ⟨k, hf⟩ := findOptimalMakespan_replicate_wrapped 178957012 2 992 (by decide)
    (by decide) (by decide) (by decide) (by decide) (by decide)
  have hv : validateInput (List.replicate 178957012 24) 2 true = .ok () :=
    validateInput_replicate 178957012 2 (by decide)
  have hs := solve_of_valid (List.replicate 178957012 24) 2 true ⟨1, 0, 0, none⟩ 992 k hv hf
    rfl
  have h2 : (2 : Int) < ((List.replicate 178957012 (24 : Int)).length : Int) := by
    rw [List.length_replicate]
    decide
  have hloads : ∀ l ∈ (reconstructPartition (List.replicate 178957012 24) 2 992).map
      (machineLoad (List.replicate 178957012 24)), l ≤ 984 := by
    intro l hl
    obtain ⟨b, hb, rfl⟩ := List.mem_map.mp hl
    have hex : reconstructPartition (List.replicate 178957012 24) 2 992
        = reconstructPartitionExact (List.replicate 178957012 24) 2 992 :=
      reconstructLoop_eq_exact_of_small 992 (by decide) _ 0 [] [] 0
        (fun t ht => by have := List.eq_of_mem_replicate ht; omega) (le_refl 0) (by decide)
    rw [hex] at hb
    have hle := (reconstructPartitionExact_blocks (List.replicate 178957012 24) 2 992
      (fun t ht => by have := List.eq_of_mem_replicate ht; omega) b hb).2
    obtain ⟨q, hq0, hq⟩ := blockLoad_replicate 178957012 b
    rw [machineLoad_eq_blockLoad _ hts b (by omega)]
    omega
  refine ⟨hpos, h2, hacc, _, hs, rfl, ?_, ?_, ?_⟩
  · dsimp only
    norm_num
  · dsimp only
    exact hloads
  · dsimp only
    rintro ⟨hmem, -⟩
    have := hloads 992 hmem
    omega

/-- Claim C5, amended: for every instance with `n > m ≥ 1`, positive times and
`sum(times) ≤ 2^31 - 1`, the largest block sum of the partition reconstructed at
the makespan `r` the search returns equals `r` exactly, and whenever validation
passes and nothing is thrown `solve` returns status `optimal`, makespan `r` and
a `machine_loads` whose largest entry is `r`. -/
theorem solve_max_load_eq_makespan (times : List Int) (m : Int)
    (hpos : PositiveTimes times) (hm : 1 ≤ m) (hn : m < (times.length : Int))
    (hsum : times.sum ≤ 2147483647) :
    ∃ r k, findOptimalMakespan times m = some (r, k) ∧
      IsLargest r ((reconstructPartition times m r).map (blockLoad times)) ∧
      ∀ (is_test_mode : Bool) (run : Run),
        validateInput times m is_test_mode = .ok () → run.thrown = none →
        ∃ sol, solve times m is_test_mode run = some sol ∧ sol.status = .optimal ∧
          sol.makespan = (r : Rat) ∧ IsLargest r sol.machine_loads := by
  have hne := ne_nil_of_more_jobs times m hm hn
  have hts := nonneg_of_positive times hpos
  obtain ⟨r, k, M, hf, -, -, hrs, hr, hleast⟩ :=
    findOptimalMakespan_least times m hne hpos hm hsum
  have htight := reconstruct_tight times m r hne hpos hsum hm hr hleast
  refine ⟨r, k, hf, htight, ?_⟩
  intro mode run hv hth
  refine ⟨_, solve_of_valid times m mode run r k hv hf hth, rfl, rfl, ?_⟩
  dsimp only
  rw [machine_loads_eq times m r hts hsum (by omega) (isFeasibleLoop_times_le r m times 1 0 hr)]
  exact htight

theorem solve_max_load_eq_makespan_witness :
    PositiveTimes [2, 3, 5, 7] ∧ (1 : Int) ≤ 3 ∧
    (3 : Int) < (([2, 3, 5, 7] : List Int).length : Int) ∧
    ([2, 3, 5, 7] : List Int).sum ≤ 2147483647 ∧
    ∃ r k, findOptimalMakespan [2, 3, 5, 7] 3 = some (r, k) ∧
      IsLargest r ((reconstructPartition [2, 3, 5, 7] 3 r).map (blockLoad [2, 3, 5, 7])) ∧
      ∀ (is_test_mode : Bool) (run : Run),
        validateInput [2, 3, 5, 7] 3 is_test_mode = .ok () → run.thrown = none →
        ∃ sol, solve [2, 3, 5, 7] 3 is_test_mode run = some sol ∧
          sol.status = .optimal ∧ sol.makespan = (r : Rat) ∧ IsLargest r sol.machine_loads :=
  ⟨by decide, by decide, by decide, by decide,
    solve_max_load_eq_makespan [2, 3, 5, 7] 3 (by decide) (by decide) (by decide) (by decide)⟩

/-- Claim C6 refuted: for `times = [2147483498, 50, 60, 2147483547]` and
`m = 2` the test succeeds at `T1 = 2147483547` (the sum `2147483608` of the
first three times wraps to a negative `int`) and fails at the larger
`T2 = 2147483597`. -/
theorem isFeasible_not_monotone :
    PositiveTimes [2147483498, 50, 60, 2147483547] ∧ (2147483547 : Int) < 2147483597 ∧
    isFeasible 2147483547 [2147483498, 50, 60, 2147483547] 2 = true ∧
    isFeasible 2147483597 [2147483498, 50, 60, 2147483547] 2 = false := by
  decide

/-- Claim C6, amended: for positive times whose sum is at most `2^31 - 1`,
`m ≥ 1` and integers `T1 < T2`, if `isFeasible(T1, times, m)` is true then
`isFeasible(T2, times, m)` is true. -/
theorem isFeasible_monotone (times : List Int) (m : Int) (hpos : PositiveTimes times)
    (hm : 1 ≤ m) (hsum : times.sum ≤ 2147483647) (T1 T2 : Int) (hlt : T1 < T2)
    (h : isFeasible T1 times m = true) :
    isFeasible T2 times m = true :=
  isFeasible_mono times m hpos hm hsum T1 T2 (le_of_lt hlt) h

theorem isFeasible_monotone_witness :
    PositiveTimes [1, 2, 3, 4, 5, 6] ∧ (1 : Int) ≤ 2 ∧
    ([1, 2, 3, 4, 5, 6] : List Int).sum ≤ 2147483647 ∧ (11 : Int) < 12 ∧
    isFeasible 11 [1, 2, 3, 4, 5, 6] 2 = true ∧ isFeasible 12 [1, 2, 3, 4, 5, 6] 2 = true :=
  ⟨by decide, by decide, by decide, by decide, by decide,
    isFeasible_monotone [1, 2, 3, 4, 5, 6] 2 (by decide) (by decide) (by decide) 11 12
      (by decide) (by decide)⟩

/-- Claim C7 refuted: on the `89478486` jobs of time `24` with `m = 2` the
makespan that `solve` returns is `24`, while `sum(times) = 2147483664`: neither
`m * makespan ≥ sum(times)` nor `makespan ≥ ceil(sum(times)/m)` holds. -/
theorem solve_makespan_below_load_bound :
    PositiveTimes (List.replicate 89478486 24) ∧
    (2 : Int) < ((List.replicate 89478486 (24 : Int)).length : Int) ∧
    findOptimalMakespan (List.replicate 89478486 24) 2 = some (24, 0) ∧
    SolveReturnsMakespan (List.replicate 89478486 24) 2 24 ∧
    (List.replicate 89478486 (24 : Int)).sum = 2147483664 ∧
    ¬ (List.replicate 89478486 (24 : Int)).sum ≤ 2 * 24 ∧
    ¬ ((List.replicate 89478486 (24 : Int)).sum + 2 - 1) / 2 ≤ 24 := by
  have hf : findOptimalMakespan (List.replicate 89478486 24) 2 = some (24, 0) :=
    findOptimalMakespan_replicate_skipped 89478486 2 (by decide) (by decide)
  have hsum : (List.replicate 89478486 (24 : Int)).sum = 2147483664 := by
    rw [sum_replicate_int]
    decide
  refine ⟨positive_of_inRange _ (timesInRange_replicate 89478486),
    by rw [List.length_replicate]; decide, hf,
    solveReturnsMakespan_of_search _ 2 24 0 hf, hsum, ?_, ?_⟩
  · rw [hsum]; decide
  · rw [hsum]; decide

/-- Claim C7, amended: for every instance with `n > m ≥ 1`, positive times and
`sum(times) ≤ 2^31 - 1`, the makespan `r` that the search returns and `solve`
reports is at least the largest time and at least `ceil(sum(times)/m)`, that is
`m * r ≥ sum(times)`. -/
theorem solve_makespan_lower_bounds (times : List Int) (m : Int)
    (hpos : PositiveTimes times) (hm : 1 ≤ m) (hn : m < (times.length : Int))
    (hsum : times.sum ≤ 2147483647) :
    ∃ r k M, findOptimalMakespan times m = some (r, k) ∧ SolveReturnsMakespan times m r ∧
      maxElement times = some M ∧ M ≤ r ∧ (∀ t ∈ times, t ≤ r) ∧
      times.sum ≤ m * r ∧ (times.sum + m - 1) / m ≤ r := by
  have hne := ne_nil_of_more_jobs times m hm hn
  obtain ⟨r, k, M, hf, hM, hMr, -, hr, -⟩ :=
    findOptimalMakespan_least times m hne hpos hm hsum
  obtain ⟨M1, hM1, hmem, hmax⟩ := maxElement_spec times hne
  have hMM : M1 = M := by
    rw [hM] at hM1
    exact (Option.some.inj hM1).symm
  subst hMM
  have hM0 : 1 ≤ M1 := hpos M1 hmem
  have hs : times.sum ≤ m * r :=
    sum_le_mul_of_isFeasible r m times hpos hsum hm (by omega) hr
  refine ⟨r, k, M1, hf, solveReturnsMakespan_of_search times m r k hf, hM, hMr,
    fun t ht => le_trans (hmax t ht) hMr, hs, ?_⟩
  have h1 : (times.sum + m - 1) / m < r + 1 := by
    apply Int.ediv_lt_of_lt_mul (by omega)
    nlinarith
  omega

theorem solve_makespan_lower_bounds_witness :
    PositiveTimes [1, 1, 1, 1, 1] ∧ (1 : Int) ≤ 3 ∧
    (3 : Int) < (([1, 1, 1, 1, 1] : List Int).length : Int) ∧
    ([1, 1, 1, 1, 1] : List Int).sum ≤ 2147483647 ∧
    ∃ r k M, findOptimalMakespan [1, 1, 1, 1, 1] 3 = some (r, k) ∧
      SolveReturnsMakespan [1, 1, 1, 1, 1] 3 r ∧
      maxElement [1, 1, 1, 1, 1] = some M ∧ M ≤ r ∧ (∀ t ∈ [1, 1, 1, 1, 1], t ≤ r) ∧
      ([1, 1, 1, 1, 1] : List Int).sum ≤ 3 * r ∧
      (([1, 1, 1, 1, 1] : List Int).sum + 3 - 1) / 3 ≤ r :=
  ⟨by decide, by decide, by decide, by decide,
    solve_makespan_lower_bounds [1, 1, 1, 1, 1] 3 (by decide) (by decide) (by decide)
      (by decide)⟩

/-- Claim C10 refuted: in test mode `times = [1]` with `m = 0` passes
validation although `m ≥ 1` fails, and `solve` reports `optimal` for it; in
production mode fifty jobs of time 1 with `m = 0` pass as well. -/
theorem validateInput_accepts_zero_machines :
    validateInput [1] 0 true = .ok () ∧ ¬ InstanceInvariant [1] 0 ∧
    (∃ sol, solve [1] 0 true ⟨1, 0, 0, none⟩ = some sol ∧ sol.status = .optimal) ∧
    validateInput (List.replicate 50 1) 0 false = .ok () ∧
    ¬ InstanceInvariant (List.replicate 50 1) 0 := by
  refine ⟨by decide, ?_, ?_, by decide, ?_⟩
  · rintro ⟨-, h, -⟩
    omega
  · have hf : findOptimalMakespan [1] 0 = some (1, 0) := by decide
    exact ⟨_, solve_of_valid [1] 0 true ⟨1, 0, 0, none⟩ 1 0 (by decide) hf rfl, rfl⟩
  · rintro ⟨-, h, -⟩
    omega

/-- Claim C10, amended: every instance accepted by `validateInput`, in either
mode, satisfies `n > m` with every time value in `[1, 24]`; the machine count
has no lower bound, so the invariant `n > m ≥ 1` holds for an accepted instance
exactly when `m ≥ 1`. -/
theorem validateInput_accepted_invariant (times : List Int) (m : Int) (is_test_mode : Bool)
    (hv : validateInput times m is_test_mode = .ok ()) :
    m < (times.length : Int) ∧ TimesInRange times ∧
      (InstanceInvariant times m ↔ 1 ≤ m) := by
  obtain ⟨-, hn, hr⟩ := (validateInput_ok_iff times m is_test_mode).mp hv
  exact ⟨hn, hr, fun h => h.2.1, fun h => ⟨hn, h, hr⟩⟩

theorem validateInput_accepted_invariant_witness :
    validateInput [2, 3, 5, 7] 3 true = .ok () ∧
    (3 : Int) < (([2, 3, 5, 7] : List Int).length : Int) ∧ TimesInRange [2, 3, 5, 7] ∧
      (InstanceInvariant [2, 3, 5, 7] 3 ↔ (1 : Int) ≤ 3) :=
  ⟨by decide, validateInput_accepted_invariant [2, 3, 5, 7] 3 true (by decide)⟩

/-- The optimum of the program is the least threshold that the scan over the
integers accepts, and the code returns that threshold when the sum of the times
is a value of an `int`. -/
theorem isMilpOptimum_of_search (times : List Int) (m r : Int)
    (hpos : PositiveTimes times) (hsum : times.sum ≤ 2147483647) (hm : 1 ≤ m)
    (hn : m < (times.length : Int)) (hr : isFeasible r times m = true)
    (hleast : ∀ T, T < r → isFeasible T times m = false)
    (hmax : ∀ M, maxElement times = some M → M ≤ r) :
    IsMilpOptimum times m (r : Rat) := by
  have hts := nonneg_of_positive times hpos
  rw [isFeasible_eq_exact r m times hts hsum] at hr
  apply least_isMilpOptimum times m r hpos hm hn hr _ hmax
  intro T hT
  rw [← isFeasible_eq_exact T m times hts hsum]
  exact hleast T hT

/-- Every feasible point of the program has `m * floor(C_max)` at least the
total work. -/
theorem milp_sum_le (times : List Int) (m : Int) (hpos : PositiveTimes times) (hm : 1 ≤ m)
    (p : MilpPoint) (hp : MilpFeasible times m p) : times.sum ≤ m * ⌊p.C_max⌋ := by
  have hT0 : 0 ≤ ⌊p.C_max⌋ := Int.le_floor.mpr (by exact_mod_cast hp.C_max_bounds)
  exact sum_le_mul_of_isFeasibleExact _ m times hpos hm hT0
    (isFeasibleExact_floor_of_milpFeasible times m hpos p hp)

/-- Claim C11 refuted: on the `89478486` jobs of time `24` with `m = 2`, a valid
instance, `solve` returns the makespan `24`, while every point of the integer
program has `C_max ≥ 1073741832`: the two makespans differ by far more than
`0.001`. -/
theorem solve_makespan_not_milp_optimum :
    TimesInRange (List.replicate 89478486 24) ∧
    (2 : Int) < ((List.replicate 89478486 (24 : Int)).length : Int) ∧
    SolveReturnsMakespan (List.replicate 89478486 24) 2 24 ∧
    ¬ IsMilpOptimum (List.replicate 89478486 24) 2 ((24 : Int) : Rat) ∧
    ∀ v : Rat, IsMilpOptimum (List.replicate 89478486 24) 2 v →
      1073741832 ≤ v ∧ ¬ |((24 : Int) : Rat) - v| < 1 / 1000 := by
  have hpos : PositiveTimes (List.replicate 89478486 24) :=
    positive_of_inRange _ (timesInRange_replicate 89478486)
  have hf : findOptimalMakespan (List.replicate 89478486 24) 2 = some (24, 0) :=
    findOptimalMakespan_replicate_skipped 89478486 2 (by decide) (by decide)
  have hsum : (List.replicate 89478486 (24 : Int)).sum = 2147483664 := by
    rw [sum_replicate_int]
    decide
  have hbig : ∀ v : Rat, IsMilpOptimum (List.replicate 89478486 24) 2 v → 1073741832 ≤ v := by
    rintro v ⟨⟨p, hp, rfl⟩, -⟩
    have h1 := milp_sum_le _ 2 hpos (by decide) p hp
    rw [hsum] at h1
    have h2 : (1073741832 : Int) ≤ ⌊p.C_max⌋ := by omega
    have h3 : ((1073741832 : Int) : Rat) ≤ ((⌊p.C_max⌋ : Int) : Rat) := by exact_mod_cast h2
    have h4 := Int.floor_le p.C_max
    have h5 : ((1073741832 : Int) : Rat) = 1073741832 := by norm_num
    linarith
  refine ⟨timesInRange_replicate 89478486, by rw [List.length_replicate]; decide,
    solveReturnsMakespan_of_search _ 2 24 0 hf, ?_, ?_⟩
  · intro h
    have := hbig _ h
    norm_num at this
  · intro v hv
    have h := hbig v hv
    refine ⟨h, ?_⟩
    rw [abs_lt]
    rintro ⟨h1, -⟩
    norm_num at h1
    linarith

/-- Claim C11, amended: for every valid instance (`n > m ≥ 1`, times in
`[1, 24]`) with `sum(times) ≤ 2^31 - 1`, the makespan `r` that the
pseudo-polynomial `solve` returns is the optimum of the integer program that
`MILPSolver::solve` builds: a point that meets the bounds and constraints (1) to
(9) has `C_max = r` and none has a smaller `C_max`; so every optimum `v` of the
program equals `r` and differs from it by less than `0.001`. -/
theorem solve_makespan_eq_milp_optimum (times : List Int) (m : Int)
    (hrange : TimesInRange times) (hm : 1 ≤ m) (hn : m < (times.length : Int))
    (hsum : times.sum ≤ 2147483647) :
    ∃ r k, findOptimalMakespan times m = some (r, k) ∧ SolveReturnsMakespan times m r ∧
      IsMilpOptimum times m (r : Rat) ∧
      ∀ v : Rat, IsMilpOptimum times m v → v = (r : Rat) ∧ |(r : Rat) - v| < 1 / 1000 := by
  have hne := ne_nil_of_more_jobs times m hm hn
  have hpos := positive_of_inRange times hrange
  obtain ⟨r, k, M, hf, hM, hMr, -, hr, hleast⟩ :=
    findOptimalMakespan_least times m hne hpos hm hsum
  have hmax : ∀ M1, maxElement times = some M1 → M1 ≤ r := by
    intro M1 hM1
    rw [hM] at hM1
    have : M = M1 := Option.some.inj hM1
    omega
  have hopt := isMilpOptimum_of_search times m r hpos hsum hm hn hr hleast hmax
  refine ⟨r, k, hf, solveReturnsMakespan_of_search times m r k hf, hopt, ?_⟩
  intro v hv
  have heq : v = (r : Rat) := by
    obtain ⟨⟨p, hp, hpv⟩, hvmin⟩ := hv
    obtain ⟨⟨q, hq, hqr⟩, hrmin⟩ := hopt
    have h1 := hvmin q hq
    have h2 := hrmin p hp
    rw [hqr] at h1
    rw [hpv] at h2
    exact le_antisymm h1 h2
  refine ⟨heq, ?_⟩
  rw [heq]
  norm_num

theorem solve_makespan_eq_milp_optimum_witness :
    TimesInRange [2, 3, 5, 7] ∧ (1 : Int) ≤ 3 ∧
    (3 : Int) < (([2, 3, 5, 7] : List Int).length : Int) ∧
    ([2, 3, 5, 7] : List Int).sum ≤ 2147483647 ∧
    ∃ r k, findOptimalMakespan [2, 3, 5, 7] 3 = some (r, k) ∧
      SolveReturnsMakespan [2, 3, 5, 7] 3 r ∧ IsMilpOptimum [2, 3, 5, 7] 3 (r : Rat) ∧
      ∀ v : Rat, IsMilpOptimum [2, 3, 5, 7] 3 v → v = (r : Rat) ∧ |(r : Rat) - v| < 1 / 1000 :=
  ⟨by decide, by decide, by decide, by decide,
    solve_makespan_eq_milp_optimum [2, 3, 5, 7] 3 (by decide) (by decide) (by decide)
      (by decide)⟩

/-- Claim C12, the code at the failing input: on `times = [2, 3, 5, 7]`, `m = 3`
a call of `solve` in which `reconstructPartition` throws `std::bad_alloc`
returns status `error: std::bad_alloc` with the makespan field already set to
7; set against a MILP outcome `optimal` with makespan 7, this outcome gets
`solutions_match = true`. -/
theorem createTestResult_match_with_error_status :
    solve [2, 3, 5, 7] 3 true ⟨1, 0, 0, some (.in_reconstructPartition "std::bad_alloc")⟩
      = some ⟨7, [], [], 1, 4, .error "std::bad_alloc"⟩ ∧
    (createTestResult "Assignment Example" 4 3 [2, 3, 5, 7] 7
      ⟨7, [], [], 1, 4, .error "std::bad_alloc"⟩
      ⟨"optimal", 7, [(0, [0, 1]), (1, [2]), (2, [3])], [5, 5, 7], 2, 0, 10, 0⟩).solutions_match
      = true ∧
    (createTestResult "Assignment Example" 4 3 [2, 3, 5, 7] 7
      ⟨7, [], [], 1, 4, .error "std::bad_alloc"⟩
      ⟨"optimal", 7, [(0, [0, 1]), (1, [2]), (2, [3])], [5, 5, 7], 2, 0, 10, 0⟩
      ).pseudo_polynomial_result.status = "error: std::bad_alloc" := by
  refine ⟨?_, ?_, ?_⟩
  · have hv : validateInput [2, 3, 5, 7] 3 true = .ok () := by decide
    have hf : findOptimalMakespan [2, 3, 5, 7] 3 = some (7, 4) := by decide
    simp only [solve, hv, hf]
    norm_num
  · simp only [createTestResult, checkSolutionsMatch, createPseudoPolyResult, createMILPResult,
      PseudoPolySolution.isValid]
    norm_num
  · simp only [createTestResult, createPseudoPolyResult, PseudoPolySolution.isValid]
    decide

/-- Claim C13: `createTestResult` sets `speedup` to the recorded MILP solution
time divided by the recorded pseudo-polynomial solution time when both recorded
times are strictly positive, and to 0 otherwise; every division it evaluates has
a strictly positive denominator. -/
theorem createTestResult_speedup (name : String) (n m : Int) (times : List Int)
    (expected_makespan : Rat) (pseudo_solution : PseudoPolySolution)
    (milp_solution : MILPSolution) :
    let result := createTestResult name n m times expected_makespan pseudo_solution
      milp_solution
    (result.pseudo_polynomial_result.solution_time > 0 ∧ result.milp_result.solution_time > 0 →
      result.speedup =
        result.milp_result.solution_time / result.pseudo_polynomial_result.solution_time) ∧
    (¬ (result.pseudo_polynomial_result.solution_time > 0 ∧
        result.milp_result.solution_time > 0) → result.speedup = 0) ∧
    (∀ d ∈ speedupDivisions result.pseudo_polynomial_result result.milp_result,
      0 < d.2 ∧ result.speedup = d.1 / d.2) ∧
    result.pseudo_polynomial_result.solution_time = pseudo_solution.solve_time ∧
    result.milp_result.solution_time =
      (if milp_solution.isValid then milp_solution.solve_time else -1) := by
  intro result
  have hp : result.pseudo_polynomial_result.solution_time = pseudo_solution.solve_time := by
    simp [result, createTestResult, createPseudoPolyResult, PseudoPolySolution.isValid]
  have hmilp : result.milp_result.solution_time =
      (if milp_solution.isValid then milp_solution.solve_time else -1) := by
    simp only [result, createTestResult, createMILPResult, MILPSolution.isValid]
    split <;> rfl
  have hs : result.speedup =
      if result.pseudo_polynomial_result.solution_time > 0 ∧
          result.milp_result.solution_time > 0 then
        result.milp_result.solution_time / result.pseudo_polynomial_result.solution_time
      else 0 := rfl
  refine ⟨?_, ?_, ?_, hp, hmilp⟩
  · intro h
    rw [hs, if_pos h]
  · intro h
    rw [hs, if_neg h]
  · intro d hd
    unfold speedupDivisions at hd
    by_cases h : result.pseudo_polynomial_result.solution_time > 0 ∧
        result.milp_result.solution_time > 0
    · rw [if_pos h] at hd
      simp only [List.mem_singleton] at hd
      subst hd
      exact ⟨h.1, by rw [hs, if_pos h]⟩
    · rw [if_neg h] at hd
      simp at hd

/-- Claim C16 refuted: `times = [1]` with `m = 1` is rejected (`n ≤ m`), and two
calls of `solve` on it return different makespans and different
feasibility-check counts, the values that the never-assigned fields of `result`
happened to hold; and two calls on the valid instance `[2, 3, 5, 7]`, `m = 3`
return different partitions when `reconstructPartition` throws in one of
them. -/
theorem solve_rejected_fields_indeterminate :
    solve [1] 1 true ⟨0, 3, 5, none⟩ = some ⟨3, [], [], 0, 5, .invalid_input⟩ ∧
    solve [1] 1 true ⟨0, 8, 13, none⟩ = some ⟨8, [], [], 0, 13, .invalid_input⟩ ∧
    (3 : Rat) ≠ 8 ∧ (5 : Int) ≠ 13 ∧
    solve [2, 3, 5, 7] 3 true ⟨1, 0, 0, none⟩
      = some ⟨7, [[0, 1], [2], [3]], [5, 5, 7], 1, 4, .optimal⟩ ∧
    solve [2, 3, 5, 7] 3 true ⟨1, 0, 0, some (.in_reconstructPartition "std::bad_alloc")⟩
      = some ⟨7, [], [], 1, 4, .error "std::bad_alloc"⟩ := by
  have hv1 : validateInput [1] 1 true = .error (.notMoreJobsThanMachines 1 1) := by decide
  have hv : validateInput [2, 3, 5, 7] 3 true = .ok () := by decide
  have hf : findOptimalMakespan [2, 3, 5, 7] 3 = some (7, 4) := by decide
  have hp : reconstructPartition [2, 3, 5, 7] 3 7 = [[0, 1], [2], [3]] := by decide
  have hl : ([[0, 1], [2], [3]] : List (List Nat)).map (machineLoad [2, 3, 5, 7]) = [5, 5, 7] := by
    decide
  refine ⟨solve_of_invalid [1] 1 true _ _ hv1, solve_of_invalid [1] 1 true _ _ hv1,
    by norm_num, by decide, ?_, ?_⟩
  · rw [solve_of_valid [2, 3, 5, 7] 3 true ⟨1, 0, 0, none⟩ 7 4 hv hf rfl, hp, hl]
    norm_num
  · simp only [solve, hv, hf]
    norm_num

/-- Claim C16, amended: on an instance that passes validation the makespan and
the feasibility-check count that `solve` returns depend on `(times, m)` alone,
and so do the partition, the machine loads and the status in calls in which no
exception is raised, also when one call uses test mode and the other production
mode (the elapsed time may differ).  On a rejected instance every call returns
an empty partition, empty machine loads, status `invalid_input` and solve time
0; nothing is stated there about the makespan and the feasibility-check count,
which such a call never assigns. -/
theorem solve_deterministic (times : List Int) (m : Int) (mode1 mode2 : Bool)
    (run1 run2 : Run) (sol1 sol2 : PseudoPolySolution)
    (h1 : solve times m mode1 run1 = some sol1)
    (h2 : solve times m mode2 run2 = some sol2) :
    (validateInput times m mode1 = .ok () → validateInput times m mode2 = .ok () →
      sol1.makespan = sol2.makespan ∧ sol1.feasibility_checks = sol2.feasibility_checks ∧
      (run1.thrown = none → run2.thrown = none →
        sol1.partition = sol2.partition ∧ sol1.machine_loads = sol2.machine_loads ∧
        sol1.status = sol2.status ∧ sol1.status = .optimal)) ∧
    ((∃ e, validateInput times m mode1 = .error e) →
      (∃ e, validateInput times m mode2 = .error e) →
      sol1.partition = [] ∧ sol2.partition = [] ∧ sol1.machine_loads = [] ∧
      sol2.machine_loads = [] ∧ sol1.status = .invalid_input ∧
      sol2.status = .invalid_input ∧ sol1.solve_time = 0 ∧ sol2.solve_time = 0) := by
  constructor
  · intro hv1 hv2
    cases hfo : findOptimalMakespan times m with
    | none => simp [solve, hv1, hfo] at h1
    | some p =>
      obtain ⟨r, k⟩ := p
      obtain ⟨s1, e1, a1, b1, -, -, -, c1, d1⟩ := solve_of_search times m mode1 run1 r k hv1 hfo
      obtain ⟨s2, e2, a2, b2, -, -, -, c2, d2⟩ := solve_of_search times m mode2 run2 r k hv2 hfo
      rw [h1] at e1
      rw [h2] at e2
      cases e1
      cases e2
      refine ⟨by rw [a1, a2], by rw [b1, b2], ?_⟩
      intro ht1 ht2
      have o1 := c1 ht1
      have o2 := c2 ht2
      exact ⟨by rw [(d1 o1).1, (d2 o2).1], by rw [(d1 o1).2, (d2 o2).2], by rw [o1, o2], o1⟩
  · rintro ⟨e1, hv1⟩ ⟨e2, hv2⟩
    rw [solve_of_invalid times m mode1 run1 e1 hv1] at h1
    rw [solve_of_invalid times m mode2 run2 e2 hv2] at h2
    cases h1
    cases h2
    exact ⟨rfl, rfl, rfl, rfl, rfl, rfl, rfl, rfl⟩


set_option maxRecDepth 100000 in
theorem solve_deterministic_witness :
    solve (List.replicate 50 1) 10 true ⟨1, 0, 0, none⟩ = some ⟨((5 : Int) : Rat), reconstructPartition (List.replicate 50 1) 10 5,
        (reconstructPartition (List.replicate 50 1) 10 5).map (machineLoad (List.replicate 50 1)),
        1, 6, .optimal⟩ ∧
    solve (List.replicate 50 1) 10 false ⟨2, 7, 9, none⟩ = some ⟨((5 : Int) : Rat), reconstructPartition (List.replicate 50 1) 10 5,
        (reconstructPartition (List.replicate 50 1) 10 5).map (machineLoad (List.replicate 50 1)),
        2, 6, .optimal⟩ ∧
    ((validateInput (List.replicate 50 1) 10 true = .ok () → validateInput (List.replicate 50 1) 10 false = .ok () →
      ((⟨((5 : Int) : Rat), reconstructPartition (List.replicate 50 1) 10 5,
        (reconstructPartition (List.replicate 50 1) 10 5).map (machineLoad (List.replicate 50 1)),
        1, 6, .optimal⟩ : PseudoPolySolution)).makespan = ((⟨((5 : Int) : Rat), reconstructPartition (List.replicate 50 1) 10 5,
        (reconstructPartition (List.replicate 50 1) 10 5).map (machineLoad (List.replicate 50 1)),
        2, 6, .optimal⟩ : PseudoPolySolution)).makespan ∧
      ((⟨((5 : Int) : Rat), reconstructPartition (List.replicate 50 1) 10 5,
        (reconstructPartition (List.replicate 50 1) 10 5).map (machineLoad (List.replicate 50 1)),
        1, 6, .optimal⟩ : PseudoPolySolution)).feasibility_checks
        = ((⟨((5 : Int) : Rat), reconstructPartition (List.replicate 50 1) 10 5,
        (reconstructPartition (List.replicate 50 1) 10 5).map (machineLoad (List.replicate 50 1)),
        2, 6, .optimal⟩ : PseudoPolySolution)).feasibility_checks ∧
      ((⟨1, 0, 0, none⟩ : Run).thrown = none → (⟨2, 7, 9, none⟩ : Run).thrown = none →
        ((⟨((5 : Int) : Rat), reconstructPartition (List.replicate 50 1) 10 5,
        (reconstructPartition (List.replicate 50 1) 10 5).map (machineLoad (List.replicate 50 1)),
        1, 6, .optimal⟩ : PseudoPolySolution)).partition = ((⟨((5 : Int) : Rat), reconstructPartition (List.replicate 50 1) 10 5,
        (reconstructPartition (List.replicate 50 1) 10 5).map (machineLoad (List.replicate 50 1)),
        2, 6, .optimal⟩ : PseudoPolySolution)).partition ∧
        ((⟨((5 : Int) : Rat), reconstructPartition (List.replicate 50 1) 10 5,
        (reconstructPartition (List.replicate 50 1) 10 5).map (machineLoad (List.replicate 50 1)),
        1, 6, .optimal⟩ : PseudoPolySolution)).machine_loads
          = ((⟨((5 : Int) : Rat), reconstructPartition (List.replicate 50 1) 10 5,
        (reconstructPartition (List.replicate 50 1) 10 5).map (machineLoad (List.replicate 50 1)),
        2, 6, .optimal⟩ : PseudoPolySolution)).machine_loads ∧
        ((⟨((5 : Int) : Rat), reconstructPartition (List.replicate 50 1) 10 5,
        (reconstructPartition (List.replicate 50 1) 10 5).map (machineLoad (List.replicate 50 1)),
        1, 6, .optimal⟩ : PseudoPolySolution)).status = ((⟨((5 : Int) : Rat), reconstructPartition (List.replicate 50 1) 10 5,
        (reconstructPartition (List.replicate 50 1) 10 5).map (machineLoad (List.replicate 50 1)),
        2, 6, .optimal⟩ : PseudoPolySolution)).status ∧
        ((⟨((5 : Int) : Rat), reconstructPartition (List.replicate 50 1) 10 5,
        (reconstructPartition (List.replicate 50 1) 10 5).map (machineLoad (List.replicate 50 1)),
        1, 6, .optimal⟩ : PseudoPolySolution)).status = .optimal)) ∧
    ((∃ e, validateInput (List.replicate 50 1) 10 true = .error e) →
      (∃ e, validateInput (List.replicate 50 1) 10 false = .error e) →
      ((⟨((5 : Int) : Rat), reconstructPartition (List.replicate 50 1) 10 5,
        (reconstructPartition (List.replicate 50 1) 10 5).map (machineLoad (List.replicate 50 1)),
        1, 6, .optimal⟩ : PseudoPolySolution)).partition = [] ∧
      ((⟨((5 : Int) : Rat), reconstructPartition (List.replicate 50 1) 10 5,
        (reconstructPartition (List.replicate 50 1) 10 5).map (machineLoad (List.replicate 50 1)),
        2, 6, .optimal⟩ : PseudoPolySolution)).partition = [] ∧
      ((⟨((5 : Int) : Rat), reconstructPartition (List.replicate 50 1) 10 5,
        (reconstructPartition (List.replicate 50 1) 10 5).map (machineLoad (List.replicate 50 1)),
        1, 6, .optimal⟩ : PseudoPolySolution)).machine_loads = [] ∧
      ((⟨((5 : Int) : Rat), reconstructPartition (List.replicate 50 1) 10 5,
        (reconstructPartition (List.replicate 50 1) 10 5).map (machineLoad (List.replicate 50 1)),
        2, 6, .optimal⟩ : PseudoPolySolution)).machine_loads = [] ∧
      ((⟨((5 : Int) : Rat), reconstructPartition (List.replicate 50 1) 10 5,
        (reconstructPartition (List.replicate 50 1) 10 5).map (machineLoad (List.replicate 50 1)),
        1, 6, .optimal⟩ : PseudoPolySolution)).status = .invalid_input ∧
      ((⟨((5 : Int) : Rat), reconstructPartition (List.replicate 50 1) 10 5,
        (reconstructPartition (List.replicate 50 1) 10 5).map (machineLoad (List.replicate 50 1)),
        2, 6, .optimal⟩ : PseudoPolySolution)).status = .invalid_input ∧
      ((⟨((5 : Int) : Rat), reconstructPartition (List.replicate 50 1) 10 5,
        (reconstructPartition (List.replicate 50 1) 10 5).map (machineLoad (List.replicate 50 1)),
        1, 6, .optimal⟩ : PseudoPolySolution)).solve_time = 0 ∧
      ((⟨((5 : Int) : Rat), reconstructPartition (List.replicate 50 1) 10 5,
        (reconstructPartition (List.replicate 50 1) 10 5).map (machineLoad (List.replicate 50 1)),
        2, 6, .optimal⟩ : PseudoPolySolution)).solve_time = 0)) :=
  ⟨solve_of_valid (List.replicate 50 1) 10 true ⟨1, 0, 0, none⟩ 5 6 (by decide) (by decide) rfl,
    solve_of_valid (List.replicate 50 1) 10 false ⟨2, 7, 9, none⟩ 5 6 (by decide) (by decide) rfl,
    solve_deterministic (List.replicate 50 1) 10 true false ⟨1, 0, 0, none⟩ ⟨2, 7, 9, none⟩ _ _
      (solve_of_valid (List.replicate 50 1) 10 true ⟨1, 0, 0, none⟩ 5 6 (by decide) (by decide) rfl)
      (solve_of_valid (List.replicate 50 1) 10 false ⟨2, 7, 9, none⟩ 5 6 (by decide) (by decide) rfl)⟩

/-- One iteration of the loop keeps the invariant of the search. -/
theorem searchStep_invariant (times : List Int) (m : Int) (hpos : PositiveTimes times)
    (hm : 1 ≤ m) (hsum : times.sum ≤ 2147483647) (hne : times ≠ [])
    (left right checks : Int) (hinv : SearchInvariant times m left right)
    (hlt : left < right) :
    SearchInvariant times m (searchStep times m left right checks).1
      (searchStep times m left right checks).2.1 := by
  obtain ⟨h1, h2, h3, h4, h5⟩ := hinv
  obtain ⟨M, hM, hmem, -⟩ := maxElement_spec times hne
  have hM1 := hpos M hmem
  have hMl := h1 M hM
  rcases searchStep_cases times m left right checks (by omega) (by omega) hlt (by omega) with
    ⟨hf, hs⟩ | ⟨hf, hs⟩
  · rw [hs]
    exact ⟨h1, by dsimp only; omega, by dsimp only; omega, hf, h5⟩
  · rw [hs]
    refine ⟨fun M1 hM1' => by have := h1 M1 hM1'; dsimp only; omega, by dsimp only; omega,
      h3, h4, ?_⟩
    intro T hT
    dsimp only at hT
    by_contra hcon
    have hTt : isFeasible T times m = true := by simpa using hcon
    have := isFeasible_mono times m hpos hm hsum T (left + (right - left) / 2) (by omega) hTt
    rw [hf] at this
    cases this

/-- The invariant holds when the loop is entered. -/
theorem searchInvariant_initial (times : List Int) (m : Int) (hne : times ≠ [])
    (hpos : PositiveTimes times) (hm : 1 ≤ m) (hsum : times.sum ≤ 2147483647) :
    ∃ M, maxElement times = some M ∧ accumulate times = times.sum ∧
      SearchInvariant times m M (accumulate times) := by
  obtain ⟨M, hM, hmem, -⟩ := maxElement_spec times hne
  have hM1 := hpos M hmem
  have hMs := le_sum_of_mem_positive times hpos M hmem
  have hacc : accumulate times = times.sum := accumulate_eq_sum times (by omega) hsum
  refine ⟨M, hM, hacc, ?_, ?_, ?_, ?_, ?_⟩
  · intro M1 hM1'
    rw [hM] at hM1'
    exact le_of_eq (Option.some.inj hM1').symm
  · rw [hacc]; exact hMs
  · rw [hacc]
  · rw [hacc]
    exact isFeasible_sum times m hpos hm hsum
  · intro T hT
    exact isFeasible_false_of_mem_gt T m times M hmem hT

/-- Claim C17 refuted: for six jobs of time `715827883` and `m = 1` the sum
`4294967298` wraps to `2`, so the loop is entered with `left = 715827883` above
`right = 2`: the invariant fails at once, no call of `isFeasible` is made, and
the value returned, `715827883`, is rejected by `isFeasible`. -/
theorem findOptimalMakespan_returns_infeasible_value :
    List.replicate 6 (715827883 : Int) ≠ [] ∧ PositiveTimes (List.replicate 6 715827883) ∧
    maxElement (List.replicate 6 715827883) = some 715827883 ∧
    accumulate (List.replicate 6 715827883) = 2 ∧
    (List.replicate 6 (715827883 : Int)).sum = 4294967298 ∧
    ¬ SearchInvariant (List.replicate 6 715827883) 1 715827883 2 ∧
    findOptimalMakespan (List.replicate 6 715827883) 1 = some (715827883, 0) ∧
    isFeasible 715827883 (List.replicate 6 715827883) 1 = false := by
  refine ⟨by decide, by decide, by decide, by decide, by decide, ?_, by decide, by decide⟩
  intro h
  have := h.2.1
  omega

/-- Claim C17, amended: for a non-empty list of positive times with
`sum(times) ≤ 2^31 - 1` and `m ≥ 1`, the binary search of `findOptimalMakespan`
starts in, and every iteration keeps, the invariant
`max(times) ≤ left ≤ right ≤ sum(times)`, `isFeasible(right)` true and
`isFeasible(T)` false for every `T < left`; at the exit `left = right`, and the
value returned is the least integer `T` at which `isFeasible(T, times, m)` is
true. -/
theorem findOptimalMakespan_invariant (times : List Int) (m : Int) (hne : times ≠ [])
    (hpos : PositiveTimes times) (hm : 1 ≤ m) (hsum : times.sum ≤ 2147483647) :
    (∃ M, maxElement times = some M ∧ accumulate times = times.sum ∧
      SearchInvariant times m M (accumulate times)) ∧
    (∀ left right checks : Int, SearchInvariant times m left right → left < right →
      SearchInvariant times m (searchStep times m left right checks).1
        (searchStep times m left right checks).2.1) ∧
    (∀ (fuel : Nat) (left right checks : Int), left < right →
      searchLoop times m (fuel + 1) left right checks =
        searchLoop times m fuel (searchStep times m left right checks).1
          (searchStep times m left right checks).2.1
          (searchStep times m left right checks).2.2) ∧
    (∀ (fuel : Nat) (left right checks : Int), SearchInvariant times m left right →
      ¬ left < right →
      left = right ∧ searchLoop times m fuel left right checks = some (left, checks)) ∧
    ∃ r k, findOptimalMakespan times m = some (r, k) ∧ isFeasible r times m = true ∧
      ∀ T, isFeasible T times m = true → r ≤ T := by
  refine ⟨searchInvariant_initial times m hne hpos hm hsum,
    fun left right checks hinv hlt =>
      searchStep_invariant times m hpos hm hsum hne left right checks hinv hlt,
    fun fuel left right checks hlt => searchLoop_step times m fuel left right checks hlt,
    ?_, ?_⟩
  · intro fuel left right checks hinv hnlt
    exact ⟨by have := hinv.2.1; omega, searchLoop_exit times m fuel left right checks hnlt⟩
  · obtain ⟨r, k, M, hf, -, -, -, hr, hleast⟩ :=
      findOptimalMakespan_least times m hne hpos hm hsum
    refine ⟨r, k, hf, hr, ?_⟩
    intro T hT
    by_contra hcon
    have := hleast T (by omega)
    rw [hT] at this
    cases this

theorem findOptimalMakespan_invariant_witness :
    ([3, 1, 4, 2, 5] : List Int) ≠ [] ∧ PositiveTimes [3, 1, 4, 2, 5] ∧ (1 : Int) ≤ 2 ∧
    ([3, 1, 4, 2, 5] : List Int).sum ≤ 2147483647 ∧
    ((∃ M, maxElement [3, 1, 4, 2, 5] = some M ∧
      accumulate [3, 1, 4, 2, 5] = ([3, 1, 4, 2, 5] : List Int).sum ∧
      SearchInvariant [3, 1, 4, 2, 5] 2 M (accumulate [3, 1, 4, 2, 5])) ∧
    (∀ left right checks : Int, SearchInvariant [3, 1, 4, 2, 5] 2 left right → left < right →
      SearchInvariant [3, 1, 4, 2, 5] 2 (searchStep [3, 1, 4, 2, 5] 2 left right checks).1
        (searchStep [3, 1, 4, 2, 5] 2 left right checks).2.1) ∧
    (∀ (fuel : Nat) (left right checks : Int), left < right →
      searchLoop [3, 1, 4, 2, 5] 2 (fuel + 1) left right checks =
        searchLoop [3, 1, 4, 2, 5] 2 fuel (searchStep [3, 1, 4, 2, 5] 2 left right checks).1
          (searchStep [3, 1, 4, 2, 5] 2 left right checks).2.1
          (searchStep [3, 1, 4, 2, 5] 2 left right checks).2.2) ∧
    (∀ (fuel : Nat) (left right checks : Int),
      SearchInvariant [3, 1, 4, 2, 5] 2 left right → ¬ left < right →
      left = right ∧
        searchLoop [3, 1, 4, 2, 5] 2 fuel left right checks = some (left, checks)) ∧
    ∃ r k, findOptimalMakespan [3, 1, 4, 2, 5] 2 = some (r, k) ∧
      isFeasible r [3, 1, 4, 2, 5] 2 = true ∧
      ∀ T, isFeasible T [3, 1, 4, 2, 5] 2 = true → r ≤ T) :=
  ⟨by decide, by decide, by decide, by decide,
    findOptimalMakespan_invariant [3, 1, 4, 2, 5] 2 (by decide) (by decide) (by decide)
      (by decide)⟩

/-- Claim C18 refuted: for `times = [2147483647, 2]` and `T = 2147483647` the
sum `current_sum + times[1]` wraps to a negative `int`, so the reconstruction
keeps both jobs in one block, of sum `2147483649 > T`: its block count 1 is not
the number of blocks of any cut with block sums at most `T`, the fewest being
2. -/
theorem reconstructPartition_merges_overflowing_jobs :
    PositiveTimes [2147483647, 2] ∧ (∀ t ∈ ([2147483647, 2] : List Int), t ≤ 2147483647) ∧
    reconstructPartition [2147483647, 2] 1 2147483647 = [[0, 1]] ∧
    blockLoad [2147483647, 2] [0, 1] = 2147483649 ∧
    ¬ (∀ b ∈ reconstructPartition [2147483647, 2] 1 2147483647,
        blockLoad [2147483647, 2] b ≤ 2147483647) ∧
    (IsCut ([2147483647, 2] : List Int).length [[0], [1]] ∧
      ∀ b ∈ ([[0], [1]] : List (List Nat)), blockLoad [2147483647, 2] b ≤ 2147483647) ∧
    ∀ Q : List (List Nat), IsCut ([2147483647, 2] : List Int).length Q →
      (∀ b ∈ Q, blockLoad [2147483647, 2] b ≤ 2147483647) →
      (reconstructPartition [2147483647, 2] 1 2147483647).length < Q.length := by
  refine ⟨by decide, by decide, by decide, by decide, by decide, by decide, ?_⟩
  intro Q hcut hload
  have hlen : (reconstructPartition [2147483647, 2] 1 2147483647).length = 1 := by decide
  rw [hlen]
  unfold IsCut at hcut
  cases Q with
  | nil => simp at hcut
  | cons b bs =>
    cases bs with
    | nil =>
      exfalso
      simp only [List.flatten_cons, List.flatten_nil, List.append_nil] at hcut
      have := hload b (by simp)
      rw [hcut] at this
      revert this
      decide
    | cons b2 bs2 => simp

/-- Claim C18, amended: for positive times with `sum(times) ≤ 2^31 - 1` and `T`
at least every time, the partition `reconstructPartition(times, m, T)` is a cut
into blocks of sum at most `T`, and no cut of the job sequence into contiguous
blocks of sum at most `T` has fewer blocks. -/
theorem reconstructPartition_fewest_blocks (times : List Int) (m T : Int)
    (hpos : PositiveTimes times) (hT : ∀ t ∈ times, t ≤ T) (hsum : times.sum ≤ 2147483647) :
    IsCut times.length (reconstructPartition times m T) ∧
    (∀ b ∈ reconstructPartition times m T, blockLoad times b ≤ T) ∧
    ∀ Q : List (List Nat), IsCut times.length Q → (∀ b ∈ Q, blockLoad times b ≤ T) →
      (reconstructPartition times m T).length ≤ Q.length := by
  have hts := nonneg_of_positive times hpos
  refine ⟨reconstructPartition_isCut times m T,
    fun b hb => (reconstructPartition_blocks times m T hts hsum hT b hb).2, ?_⟩
  intro Q hQ hload
  cases Q with
  | nil =>
    unfold IsCut at hQ
    have hlen : times.length = 0 := by
      have := congrArg List.length hQ
      simpa using this.symm
    have hnil : times = [] := List.length_eq_zero.mp hlen
    subst hnil
    simp [reconstructPartition, reconstructLoop]
  | cons q qs =>
    have hk : (1 : Int) ≤ ((q :: qs).length : Int) := by simp
    have hfeas : isFeasible T times ((q :: qs).length : Int) = true :=
      isFeasible_of_cut T _ times hpos hsum hk (q :: qs) hQ (le_refl _) hload
    have := reconstructPartition_length_le times ((q :: qs).length : Int) T hk hts hfeas
    rw [reconstructPartition_any_m times m ((q :: qs).length : Int) T]
    exact_mod_cast this

theorem reconstructPartition_fewest_blocks_witness :
    PositiveTimes [6, 5, 4, 3, 2, 1, 7] ∧ (∀ t ∈ ([6, 5, 4, 3, 2, 1, 7] : List Int), t ≤ 11) ∧
    ([6, 5, 4, 3, 2, 1, 7] : List Int).sum ≤ 2147483647 ∧
    IsCut ([6, 5, 4, 3, 2, 1, 7] : List Int).length
      (reconstructPartition [6, 5, 4, 3, 2, 1, 7] 3 11) ∧
    (∀ b ∈ reconstructPartition [6, 5, 4, 3, 2, 1, 7] 3 11,
      blockLoad [6, 5, 4, 3, 2, 1, 7] b ≤ 11) ∧
    ∀ Q : List (List Nat), IsCut ([6, 5, 4, 3, 2, 1, 7] : List Int).length Q →
      (∀ b ∈ Q, blockLoad [6, 5, 4, 3, 2, 1, 7] b ≤ 11) →
      (reconstructPartition [6, 5, 4, 3, 2, 1, 7] 3 11).length ≤ Q.length :=
  ⟨by decide, by decide, by decide,
    reconstructPartition_fewest_blocks [6, 5, 4, 3, 2, 1, 7] 3 11 (by decide) (by decide)
      (by decide)⟩

/-- Claim C20: for every list of times, every `m` and every `T`, if some
processing time exceeds `T` then `isFeasible(T, times, m)` is false; so it is
false for every `T` below the largest time. -/
theorem isFeasible_false_of_large_time (T m : Int) (times : List Int) (t : Int)
    (ht : t ∈ times) (hgt : T < t) :
    isFeasible T times m = false ∧
    ∀ M, maxElement times = some M → ∀ T1, T1 < M → isFeasible T1 times m = false := by
  refine ⟨isFeasible_false_of_mem_gt T m times t ht hgt, ?_⟩
  intro M hM T1 hT1
  have hne : times ≠ [] := by
    intro hnil
    rw [hnil] at ht
    simp at ht
  obtain ⟨M1, hM1, hmem, -⟩ := maxElement_spec times hne
  rw [hM] at hM1
  have heq : M = M1 := Option.some.inj hM1
  subst heq
  exact isFeasible_false_of_mem_gt T1 m times M hmem hT1

theorem isFeasible_false_of_large_time_witness :
    (20 : Int) ∈ ([1, 2, 3, 20, 3, 2, 1] : List Int) ∧ (19 : Int) < 20 ∧
    isFeasible 19 [1, 2, 3, 20, 3, 2, 1] 3 = false ∧
    ∀ M, maxElement [1, 2, 3, 20, 3, 2, 1] = some M → ∀ T1, T1 < M →
      isFeasible T1 [1, 2, 3, 20, 3, 2, 1] 3 = false :=
  ⟨by decide, by decide,
    isFeasible_false_of_large_time 19 3 [1, 2, 3, 20, 3, 2, 1] 20 (by decide) (by decide)⟩

set_option maxRecDepth 100000 in
/-- Claim C21 refuted: for `times = [-10, -2147483639]` the sum wraps to
`2147483647`, so the loop is entered with `left = -10 < right = 2147483647`;
`right - left` overflows, `mid = -1073741829` lies below `left`, and after 31
iterations the state `left = -2147483646`, `right = 2147483647` is reached,
which the loop body maps to itself: the loop never exits. -/
theorem searchLoop_never_exits :
    maxElement [-10, -2147483639] = some (-10) ∧
    accumulate [-10, -2147483639] = 2147483647 ∧
    searchMid (-10) 2147483647 = -1073741829 ∧
    ¬ ((-10 : Int) ≤ searchMid (-10) 2147483647) ∧
    searchIterate [-10, -2147483639] 1 31 (-10, 2147483647, 0)
      = (-2147483646, 2147483647, 31) ∧
    searchStep [-10, -2147483639] 1 (-2147483646) 2147483647 31
      = (-2147483646, 2147483647, 32) ∧
    (¬ ∃ fuel r, searchLoop [-10, -2147483639] 1 fuel (-10) 2147483647 0 = some r) ∧
    findOptimalMakespan [-10, -2147483639] 1 = none := by
  have hit : searchIterate [-10, -2147483639] 1 31 (-10, 2147483647, 0)
      = (-2147483646, 2147483647, 31) := by decide
  have hmid : searchMid (-2147483646) 2147483647 = -2147483647 := by decide
  have hfe : isFeasible (-2147483647) [-10, -2147483639] 1 = false := by decide
  have hw : wrap32 (-2147483647 + 1) = -2147483646 := by decide
  have hfix : ∀ c, (searchStep [-10, -2147483639] 1 (-2147483646) 2147483647 c).1
        = -2147483646 ∧
      (searchStep [-10, -2147483639] 1 (-2147483646) 2147483647 c).2.1 = 2147483647 := by
    intro c
    simp only [searchStep, hmid, hfe, hw, Bool.false_eq_true, if_false, and_self]
  have hnone : ∀ fuel, searchLoop [-10, -2147483639] 1 fuel (-10) 2147483647 0 = none := by
    intro fuel
    cases h : searchLoop [-10, -2147483639] 1 fuel (-10) 2147483647 0 with
    | none => rfl
    | some x =>
      exfalso
      have h1 := searchLoop_more_fuel [-10, -2147483639] 1 fuel 31 (-10) 2147483647 0 x h
      have harg : fuel + 31 = 31 + fuel := by omega
      rw [harg] at h1
      have h2 := searchLoop_iterate [-10, -2147483639] 1 fuel 31 (-10, 2147483647, 0)
      rw [hit] at h2
      dsimp only at h2
      rw [h2, searchLoop_none_of_fixed [-10, -2147483639] 1 (-2147483646) 2147483647
        (by decide) hfix fuel 31] at h1
      cases h1
  refine ⟨by decide, by decide, by decide, by decide, hit, by decide, ?_, ?_⟩
  · rintro ⟨fuel, r, h⟩
    rw [hnone fuel] at h
    cases h
  · have hM : maxElement [-10, -2147483639] = some (-10) := by decide
    have hacc : accumulate [-10, -2147483639] = 2147483647 := by decide
    simp only [findOptimalMakespan, hM, hacc]
    exact hnone searchFuel

/-- Claim C21, amended: for every list of times and every `m`, from a state of
the loop of `findOptimalMakespan` in which `right - left` is a value of an `int`
(as it is whenever `left ≥ 0`): an iteration from `left < right` has
`left ≤ mid < right`, sets `right = mid` or `left = mid + 1`, and strictly
decreases `right - left`; the loop reaches an exit state, and there
`left = right` when it was entered with `left ≤ right`.  So `findOptimalMakespan`
returns on every non-empty list whose largest time is not negative. -/
theorem searchLoop_terminates (times : List Int) (m : Int) (left right checks : Int)
    (hl : -2147483648 ≤ left) (hr : right ≤ 2147483647) (hw : right - left ≤ 2147483647) :
    (left < right →
      left ≤ searchMid left right ∧ searchMid left right < right ∧
      (searchStep times m left right checks
          = (left, searchMid left right, wrap32 (checks + 1)) ∨
        searchStep times m left right checks
          = (searchMid left right + 1, right, wrap32 (checks + 1))) ∧
      (searchStep times m left right checks).2.1 - (searchStep times m left right checks).1
        < right - left ∧
      (searchStep times m left right checks).1
        ≤ (searchStep times m left right checks).2.1) ∧
    (∀ fuel : Nat, (right - left).toNat ≤ fuel →
      ∃ l r c, searchExit times m fuel left right checks = some (l, r, c) ∧ ¬ l < r ∧
        searchLoop times m fuel left right checks = some (l, c) ∧ (left ≤ right → l = r)) ∧
    (∀ M, maxElement times = some M → 0 ≤ M →
      ∃ r k, findOptimalMakespan times m = some (r, k)) := by
  refine ⟨?_, fun fuel hfuel => searchExit_spec times m fuel left right checks hl hr hw hfuel,
    ?_⟩
  · intro hlt
    obtain ⟨h1, h2, h3, h4, h5, -, -⟩ :=
      searchStep_interval times m left right checks hl hr hlt hw
    exact ⟨h1, h2, h3, h4, h5⟩
  · intro M hM hM0
    obtain ⟨r, k, hf, -, -⟩ := findOptimalMakespan_returns times m M hM hM0
    exact ⟨r, k, hf⟩

theorem searchLoop_terminates_witness :
    (-2147483648 : Int) ≤ 5 ∧ (15 : Int) ≤ 2147483647 ∧ (15 : Int) - 5 ≤ 2147483647 ∧
    ((5 : Int) < 15 →
      5 ≤ searchMid 5 15 ∧ searchMid 5 15 < 15 ∧
      (searchStep [3, 1, 4, 2, 5] 2 5 15 0 = (5, searchMid 5 15, wrap32 (0 + 1)) ∨
        searchStep [3, 1, 4, 2, 5] 2 5 15 0 = (searchMid 5 15 + 1, 15, wrap32 (0 + 1))) ∧
      (searchStep [3, 1, 4, 2, 5] 2 5 15 0).2.1 - (searchStep [3, 1, 4, 2, 5] 2 5 15 0).1
        < 15 - 5 ∧
      (searchStep [3, 1, 4, 2, 5] 2 5 15 0).1 ≤ (searchStep [3, 1, 4, 2, 5] 2 5 15 0).2.1) ∧
    (∀ fuel : Nat, ((15 : Int) - 5).toNat ≤ fuel →
      ∃ l r c, searchExit [3, 1, 4, 2, 5] 2 fuel 5 15 0 = some (l, r, c) ∧ ¬ l < r ∧
        searchLoop [3, 1, 4, 2, 5] 2 fuel 5 15 0 = some (l, c) ∧ ((5 : Int) ≤ 15 → l = r)) ∧
    (∀ M, maxElement [3, 1, 4, 2, 5] = some M → 0 ≤ M →
      ∃ r k, findOptimalMakespan [3, 1, 4, 2, 5] 2 = some (r, k)) :=
  ⟨by decide, by decide, by decide,
    searchLoop_terminates [3, 1, 4, 2, 5] 2 5 15 0 (by decide) (by decide) (by decide)⟩

/-- Claim C22 refuted: for `times = [2147483646, 5]` and `T = 2147483646`, which
no time exceeds, the reconstruction returns the single block `[0, 1]`, whose
sum `2147483651` is above `T`. -/
theorem reconstructPartition_block_above_threshold :
    PositiveTimes [2147483646, 5] ∧ (∀ t ∈ ([2147483646, 5] : List Int), t ≤ 2147483646) ∧
    reconstructPartition [2147483646, 5] 1 2147483646 = [[0, 1]] ∧
    blockLoad [2147483646, 5] [0, 1] = 2147483651 ∧
    ¬ (∀ b ∈ reconstructPartition [2147483646, 5] 1 2147483646,
        b ≠ [] ∧ blockLoad [2147483646, 5] b ≤ 2147483646) := by
  decide

/-- Claim C22, amended: for positive times with `sum(times) ≤ 2^31 - 1` and every
`T` that no time exceeds, every block of `reconstructPartition(times, m, T)` is
non-empty and has sum at most `T`; so on such an instance with `n > m ≥ 1` every
block of the partition that `solve` returns is non-empty, with sum at most the
makespan. -/
theorem reconstructPartition_blocks_nonempty (times : List Int) (m : Int)
    (hpos : PositiveTimes times) (hsum : times.sum ≤ 2147483647) :
    (∀ T, (∀ t ∈ times, t ≤ T) →
      ∀ b ∈ reconstructPartition times m T, b ≠ [] ∧ blockLoad times b ≤ T) ∧
    (1 ≤ m → m < (times.length : Int) →
      ∀ (is_test_mode : Bool) (run : Run) (sol : PseudoPolySolution),
        solve times m is_test_mode run = some sol →
        ∀ b ∈ sol.partition,
          b ≠ [] ∧ ∃ r : Int, sol.makespan = (r : Rat) ∧ blockLoad times b ≤ r) := by
  have hts := nonneg_of_positive times hpos
  refine ⟨fun T hT => reconstructPartition_blocks times m T hts hsum hT, ?_⟩
  intro hm hn mode run sol hsol b hb
  have hne := ne_nil_of_more_jobs times m hm hn
  obtain ⟨r, k, M, hf, -, -, -, hr, -⟩ := findOptimalMakespan_least times m hne hpos hm hsum
  rcases validateInput_cases times m mode with hv | ⟨e, hv⟩
  · obtain ⟨sol1, h1, h2, -, -, h3, -⟩ := solve_of_search times m mode run r k hv hf
    rw [hsol] at h1
    cases h1
    rcases h3 with h3 | h3
    · rw [h3] at hb
      simp at hb
    · rw [h3] at hb
      have hle := isFeasibleLoop_times_le r m times 1 0 hr
      have := reconstructPartition_blocks times m r hts hsum hle b hb
      exact ⟨this.1, r, h2, this.2⟩
  · rw [solve_of_invalid times m mode run e hv] at hsol
    cases hsol
    simp at hb

theorem reconstructPartition_blocks_nonempty_witness :
    PositiveTimes [24, 1, 1, 1, 1] ∧ ([24, 1, 1, 1, 1] : List Int).sum ≤ 2147483647 ∧
    ((∀ T, (∀ t ∈ ([24, 1, 1, 1, 1] : List Int), t ≤ T) →
      ∀ b ∈ reconstructPartition [24, 1, 1, 1, 1] 2 T,
        b ≠ [] ∧ blockLoad [24, 1, 1, 1, 1] b ≤ T) ∧
    ((1 : Int) ≤ 2 → (2 : Int) < (([24, 1, 1, 1, 1] : List Int).length : Int) →
      ∀ (is_test_mode : Bool) (run : Run) (sol : PseudoPolySolution),
        solve [24, 1, 1, 1, 1] 2 is_test_mode run = some sol →
        ∀ b ∈ sol.partition,
          b ≠ [] ∧ ∃ r : Int, sol.makespan = (r : Rat) ∧ blockLoad [24, 1, 1, 1, 1] b ≤ r)) :=
  ⟨by decide, by decide,
    reconstructPartition_blocks_nonempty [24, 1, 1, 1, 1] 2 (by decide) (by decide)⟩

/-- Claim C23 refuted: for `times = [2147483647, 1]` and `m = 1` the sum
`2147483648` wraps to `-2147483648`, the loop is not entered, and
`findOptimalMakespan` returns the largest time `2147483647`, not the sum. -/
theorem findOptimalMakespan_single_machine_wraps :
    ([2147483647, 1] : List Int) ≠ [] ∧ PositiveTimes [2147483647, 1] ∧
    ([2147483647, 1] : List Int).sum = 2147483648 ∧
    accumulate [2147483647, 1] = -2147483648 ∧
    findOptimalMakespan [2147483647, 1] 1 = some (2147483647, 0) ∧
    ¬ ∃ k, findOptimalMakespan [2147483647, 1] 1
      = some (([2147483647, 1] : List Int).sum, k) := by
  refine ⟨by decide, by decide, by decide, by decide, by decide, ?_⟩
  rintro ⟨k, h⟩
  have hf : findOptimalMakespan [2147483647, 1] 1 = some (2147483647, 0) := by decide
  rw [hf] at h
  simp only [Option.some.injEq, Prod.mk.injEq] at h
  exact absurd h.1 (by decide)

/-- Claim C23, amended: for a non-empty list of positive times with
`sum(times) ≤ 2^31 - 1` and a single machine, `findOptimalMakespan` returns
`sum(times)` and the reconstructed partition is the single block
`[0, ..., n-1]`. -/
theorem findOptimalMakespan_single_machine (times : List Int) (hne : times ≠ [])
    (hpos : PositiveTimes times) (hsum : times.sum ≤ 2147483647) :
    (∃ k, findOptimalMakespan times 1 = some (times.sum, k)) ∧
    reconstructPartition times 1 times.sum = [List.range times.length] := by
  obtain ⟨r, k, M, hf, hM, hMr, hrs, hr, -⟩ :=
    findOptimalMakespan_least times 1 hne hpos (le_refl 1) hsum
  obtain ⟨M1, hM1, hmem, -⟩ := maxElement_spec times hne
  have hM0 : 1 ≤ M := by
    rw [hM] at hM1
    have : M = M1 := Option.some.inj hM1
    have := hpos M1 hmem
    omega
  have hs := sum_le_mul_of_isFeasible r 1 times hpos hsum (le_refl 1) (by omega) hr
  have hrs2 : r = times.sum := by omega
  subst hrs2
  refine ⟨⟨k, hf⟩, ?_⟩
  obtain ⟨⟨hcut, -, hlen⟩, -⟩ := cut_of_isFeasible times.sum 1 times hpos hsum (le_refl 1) hr
  unfold IsCut at hcut
  cases hP : reconstructPartition times 1 times.sum with
  | nil =>
    rw [hP] at hcut
    have : times.length = 0 := by
      have := congrArg List.length hcut
      simpa using this.symm
    exact absurd (List.length_eq_zero.mp this) hne
  | cons b bs =>
    rw [hP] at hcut hlen
    cases bs with
    | nil =>
      simp only [List.flatten_cons, List.flatten_nil, List.append_nil] at hcut
      rw [hcut]
    | cons b2 bs2 =>
      simp at hlen
      omega

theorem findOptimalMakespan_single_machine_witness :
    ([5, 5, 5, 5, 5] : List Int) ≠ [] ∧ PositiveTimes [5, 5, 5, 5, 5] ∧
    ([5, 5, 5, 5, 5] : List Int).sum ≤ 2147483647 ∧
    (∃ k, findOptimalMakespan [5, 5, 5, 5, 5] 1 = some (([5, 5, 5, 5, 5] : List Int).sum, k)) ∧
    reconstructPartition [5, 5, 5, 5, 5] 1 ([5, 5, 5, 5, 5] : List Int).sum
      = [List.range ([5, 5, 5, 5, 5] : List Int).length] :=
  ⟨by decide, by decide, by decide,
    findOptimalMakespan_single_machine [5, 5, 5, 5, 5] (by decide) (by decide) (by decide)⟩

/-- Claim C24: for a non-empty list of positive times and every `m`, the
`feasibility_checks` that `findOptimalMakespan` returns is the number of calls
of `isFeasible` the loop made; it is 0 when `sum(times) = max(times)`, and
otherwise `2^(feasibility_checks - 1) ≤ sum(times) - max(times)`, stated as
`2^feasibility_checks ≤ 2 * (sum(times) - max(times))` so that it also reads
for the count 0. -/
theorem findOptimalMakespan_checks (times : List Int) (m : Int) (hne : times ≠ [])
    (hpos : PositiveTimes times) :
    ∃ r k M, findOptimalMakespan times m = some (r, k) ∧ maxElement times = some M ∧
      M ≤ times.sum ∧
      k = ((searchCalls times m searchFuel M (accumulate times)).length : Int) ∧
      (times.sum = M → k = 0) ∧
      (times.sum ≠ M → (2 : Int) ^ k.toNat ≤ 2 * (times.sum - M)) ∧
      (1 ≤ k → (2 : Int) ^ (k - 1).toNat ≤ times.sum - M) := by
  obtain ⟨r, k, M, hf, hM, hmem, -, hM1, -⟩ :=
    findOptimalMakespan_returns_of_positive times m hne hpos
  have hMs : M ≤ times.sum := le_sum_of_mem_positive times hpos M hmem
  obtain ⟨ha0, ha1⟩ := accumulate_range times
  have hale : accumulate times ≤ times.sum := by
    rw [accumulate_eq_wrap32_sum]
    exact wrap32_le_self _ (by omega)
  have hloop : searchLoop times m searchFuel M (accumulate times) 0 = some (r, k) := by
    simp only [findOptimalMakespan, hM] at hf
    exact hf
  have hk := searchLoop_checks_eq_calls times m searchFuel M (accumulate times) 0 r k
    (by omega) ha1 (by omega) (le_refl 0) (by omega) hloop
  obtain ⟨h0, h1, -⟩ := searchCalls_length_bound times m searchFuel M (accumulate times)
    (by omega) ha1 (by omega)
  have hk' : k.toNat = (searchCalls times m searchFuel M (accumulate times)).length := by omega
  have hpow : M < accumulate times → (2 : Int) ^ k.toNat ≤ 2 * (times.sum - M) := by
    intro hlt
    have := h1 hlt
    rw [hk']
    omega
  refine ⟨r, k, M, hf, hM, hMs, by omega, ?_, ?_, ?_⟩
  · intro heq
    have := h0 (by omega)
    omega
  · intro hneq
    by_cases hlt : M < accumulate times
    · exact hpow hlt
    · have := h0 hlt
      have hz : k.toNat = 0 := by omega
      rw [hz]
      simp
      omega
  · intro hk1
    have hlt : M < accumulate times := by
      by_contra hcon
      have := h0 hcon
      omega
    have h2 := hpow hlt
    obtain ⟨j, hj⟩ : ∃ j, k.toNat = j + 1 := ⟨k.toNat - 1, by omega⟩
    have hj2 : (k - 1).toNat = j := by omega
    rw [hj, pow_succ] at h2
    rw [hj2]
    omega

theorem findOptimalMakespan_checks_witness :
    ([8, 6, 4, 2, 10, 5, 3, 7, 9, 1] : List Int) ≠ [] ∧
    PositiveTimes [8, 6, 4, 2, 10, 5, 3, 7, 9, 1] ∧
    ∃ r k M, findOptimalMakespan [8, 6, 4, 2, 10, 5, 3, 7, 9, 1] 4 = some (r, k) ∧
      maxElement [8, 6, 4, 2, 10, 5, 3, 7, 9, 1] = some M ∧
      M ≤ ([8, 6, 4, 2, 10, 5, 3, 7, 9, 1] : List Int).sum ∧
      k = ((searchCalls [8, 6, 4, 2, 10, 5, 3, 7, 9, 1] 4 searchFuel M
        (accumulate [8, 6, 4, 2, 10, 5, 3, 7, 9, 1])).length : Int) ∧
      (([8, 6, 4, 2, 10, 5, 3, 7, 9, 1] : List Int).sum = M → k = 0) ∧
      (([8, 6, 4, 2, 10, 5, 3, 7, 9, 1] : List Int).sum ≠ M →
        (2 : Int) ^ k.toNat ≤ 2 * (([8, 6, 4, 2, 10, 5, 3, 7, 9, 1] : List Int).sum - M)) ∧
      (1 ≤ k → (2 : Int) ^ (k - 1).toNat
          ≤ ([8, 6, 4, 2, 10, 5, 3, 7, 9, 1] : List Int).sum - M) :=
  ⟨by decide, by decide,
    findOptimalMakespan_checks [8, 6, 4, 2, 10, 5, 3, 7, 9, 1] 4 (by decide) (by decide)⟩

/-- Claim C26: for a non-empty list of positive times and `m ≥ 1`, the makespan
that `findOptimalMakespan` returns is at most `ceil(sum(times)/m) + max(times) -
1`: it exceeds the load-balance bound by less than the largest job. -/
theorem findOptimalMakespan_upper_bound (times : List Int) (m : Int) (hne : times ≠ [])
    (hpos : PositiveTimes times) (hm : 1 ≤ m) :
    ∃ r k M, findOptimalMakespan times m = some (r, k) ∧ maxElement times = some M ∧
      r ≤ (times.sum + m - 1) / m + M - 1 ∧ r - (times.sum + m - 1) / m < M := by
  obtain ⟨r, k, M, hf, hM, hmem, hmax, hM0, -⟩ :=
    findOptimalMakespan_returns_of_positive times m hne hpos
  have hS1 : 1 ≤ times.sum := by
    have := le_sum_of_mem_positive times hpos M hmem
    omega
  have hq1 : 1 ≤ (times.sum + m - 1) / m :=
    Int.le_ediv_of_mul_le (by omega) (by omega)
  have hmq : times.sum ≤ m * ((times.sum + m - 1) / m) := by
    have := Int.lt_ediv_add_one_mul_self (times.sum + m - 1) (by omega : (0 : Int) < m)
    have hexp : ((times.sum + m - 1) / m + 1) * m = m * ((times.sum + m - 1) / m) + m := by
      ring
    omega
  have hfeasB : isFeasibleExact ((times.sum + m - 1) / m + M - 1) times m = true := by
    unfold isFeasibleExact
    apply isFeasibleLoopExact_balanced _ m M ((times.sum + m - 1) / m) times.sum (by omega)
      hq1 hmq times 1 0 (fun t ht => ⟨hpos t ht, hmax t ht⟩) (le_refl 0) (by omega)
    simp
  have habove : ∀ T, (times.sum + m - 1) / m + M - 1 ≤ T → T ≤ 2147483647 →
      isFeasible T times m = true := by
    intro T hT1 hT2
    exact isFeasible_of_exact T m times hT2 hpos hm
      (isFeasibleExact_mono times m hpos hm _ T hT1 hfeasB)
  obtain ⟨-, ha1⟩ := accumulate_range times
  have hloop : searchLoop times m searchFuel M (accumulate times) 0 = some (r, k) := by
    simp only [findOptimalMakespan, hM] at hf
    exact hf
  have hle := searchLoop_le_of_feasible_above times m ((times.sum + m - 1) / m + M - 1)
    searchFuel M (accumulate times) 0 r k (by omega) ha1 (by omega) (by omega) habove hloop
  exact ⟨r, k, M, hf, hM, hle, by omega⟩

theorem findOptimalMakespan_upper_bound_witness :
    ([10, 1, 10, 1, 10, 1, 10, 1] : List Int) ≠ [] ∧
    PositiveTimes [10, 1, 10, 1, 10, 1, 10, 1] ∧ (1 : Int) ≤ 3 ∧
    ∃ r k M, findOptimalMakespan [10, 1, 10, 1, 10, 1, 10, 1] 3 = some (r, k) ∧
      maxElement [10, 1, 10, 1, 10, 1, 10, 1] = some M ∧
      r ≤ (([10, 1, 10, 1, 10, 1, 10, 1] : List Int).sum + 3 - 1) / 3 + M - 1 ∧
      r - (([10, 1, 10, 1, 10, 1, 10, 1] : List Int).sum + 3 - 1) / 3 < M :=
  ⟨by decide, by decide, by decide,
    findOptimalMakespan_upper_bound [10, 1, 10, 1, 10, 1, 10, 1] 3 (by decide) (by decide)
      (by decide)⟩

/-- Claim C27: for a non-empty list of positive times and `m ≥ 1`, a threshold
feasible with `m` machines is feasible with `m + 1`, and the value of
`findOptimalMakespan` with `m + 1` machines is at most its value with `m`. -/
theorem findOptimalMakespan_antitone_machines (times : List Int) (m : Int)
    (hne : times ≠ []) (hpos : PositiveTimes times) (hm : 1 ≤ m) :
    (∀ T, isFeasible T times m = true → isFeasible T times (m + 1) = true) ∧
    ∃ r k r1 k1, findOptimalMakespan times m = some (r, k) ∧
      findOptimalMakespan times (m + 1) = some (r1, k1) ∧ r1 ≤ r := by
  have hmono : ∀ T, isFeasible T times m = true → isFeasible T times (m + 1) = true :=
    fun T h => isFeasibleLoop_more_machines T m (m + 1) (by omega) times 1 0 h
  refine ⟨hmono, ?_⟩
  obtain ⟨M, hM, hmem, -⟩ := maxElement_spec times hne
  have hM1 := hpos M hmem
  obtain ⟨-, ha1⟩ := accumulate_range times
  simp only [findOptimalMakespan, hM]
  by_cases hlt : M < accumulate times
  · exact searchLoop_antitone times m (m + 1) hmono searchFuel M (accumulate times) 0 0
      (by omega) ha1 (by omega) (by omega) (toNat_le_searchFuel _ _ (by omega) ha1)
  · exact ⟨M, 0, M, 0, searchLoop_exit times m _ M _ 0 hlt,
      searchLoop_exit times (m + 1) _ M _ 0 hlt, le_refl _⟩

theorem findOptimalMakespan_antitone_machines_witness :
    ([1, 2, 3, 4, 5, 6] : List Int) ≠ [] ∧ PositiveTimes [1, 2, 3, 4, 5, 6] ∧ (1 : Int) ≤ 2 ∧
    ((∀ T, isFeasible T [1, 2, 3, 4, 5, 6] 2 = true →
      isFeasible T [1, 2, 3, 4, 5, 6] (2 + 1) = true) ∧
    ∃ r k r1 k1, findOptimalMakespan [1, 2, 3, 4, 5, 6] 2 = some (r, k) ∧
      findOptimalMakespan [1, 2, 3, 4, 5, 6] (2 + 1) = some (r1, k1) ∧ r1 ≤ r) :=
  ⟨by decide, by decide, by decide,
    findOptimalMakespan_antitone_machines [1, 2, 3, 4, 5, 6] 2 (by decide) (by decide)
      (by decide)⟩

/-- Claim C28: on an instance that passes `validateInput` with `m ≥ 1` every
access of `solve` is defined: `times` is non-empty, so `max_element` yields an
entry, `solve` returns, and every job index in the returned partition is below
`n`, so that `times[job_idx]` is an entry of `times`. -/
theorem solve_accesses_defined (times : List Int) (m : Int) (is_test_mode : Bool)
    (hv : validateInput times m is_test_mode = .ok ()) (hm : 1 ≤ m) :
    times ≠ [] ∧ (∃ M, maxElement times = some M ∧ M ∈ times) ∧
    ∀ run : Run, ∃ sol, solve times m is_test_mode run = some sol ∧
      ∀ b ∈ sol.partition, ∀ job_idx ∈ b,
        job_idx < times.length ∧ times[job_idx]? = some (times.getD job_idx 0) := by
  obtain ⟨-, hn, hrange⟩ := (validateInput_ok_iff times m is_test_mode).mp hv
  have hne := ne_nil_of_more_jobs times m hm hn
  obtain ⟨M, hM, hmem, -⟩ := maxElement_spec times hne
  refine ⟨hne, ⟨M, hM, hmem⟩, ?_⟩
  intro run
  obtain ⟨r, k, -, hf, -⟩ :=
    findOptimalMakespan_returns_of_positive times m hne (positive_of_inRange times hrange)
  obtain ⟨sol, h1, -, -, -, h2, -⟩ := solve_of_search times m is_test_mode run r k hv hf
  refine ⟨sol, h1, ?_⟩
  intro b hb i hi
  have hbr : b ∈ reconstructPartition times m r := by
    rcases h2 with h | h
    · rw [h] at hb
      simp at hb
    · rw [h] at hb
      exact hb
  have hcut : (reconstructPartition times m r).flatten = List.range times.length :=
    reconstructPartition_isCut times m r
  have hmemf : i ∈ (reconstructPartition times m r).flatten :=
    List.mem_flatten.mpr ⟨b, hbr, hi⟩
  rw [hcut] at hmemf
  have hlt : i < times.length := List.mem_range.mp hmemf
  refine ⟨hlt, ?_⟩
  rw [List.getD_eq_getElem?_getD, List.getElem?_eq_getElem hlt]
  rfl

theorem solve_accesses_defined_witness :
    validateInput [2, 3, 5, 7] 3 true = .ok () ∧ (1 : Int) ≤ 3 ∧
    ([2, 3, 5, 7] : List Int) ≠ [] ∧
    (∃ M, maxElement [2, 3, 5, 7] = some M ∧ M ∈ ([2, 3, 5, 7] : List Int)) ∧
    ∀ run : Run, ∃ sol, solve [2, 3, 5, 7] 3 true run = some sol ∧
      ∀ b ∈ sol.partition, ∀ job_idx ∈ b,
        job_idx < ([2, 3, 5, 7] : List Int).length ∧
        ([2, 3, 5, 7] : List Int)[job_idx]? = some (([2, 3, 5, 7] : List Int).getD job_idx 0) :=
  ⟨by decide, by decide, solve_accesses_defined [2, 3, 5, 7] 3 true (by decide) (by decide)⟩

/-- Claim C29: on an instance that passes production-mode validation
(`50 ≤ n ≤ 5000`, times in `[1, 24]`), `sum(times) ≤ 120000` and every integer
that `findOptimalMakespan`, `isFeasible` and `reconstructPartition` compute lies
in `[0, 2^31 - 1]`: run with checked 32-bit arithmetic they never fail and
return what the code returns, and the sum the code accumulates is the exact
sum. -/
theorem production_arithmetic_in_range (times : List Int) (m : Int)
    (hv : validateInput times m false = .ok ()) :
    times.sum ≤ 120000 ∧
    accumulateChecked times 0 = some (accumulate times) ∧
    (∀ T, 0 ≤ T → T ≤ 120000 →
      isFeasibleChecked T times m = some (isFeasible T times m)) ∧
    findOptimalMakespanChecked times m = findOptimalMakespan times m ∧
    (∃ r k, findOptimalMakespan times m = some (r, k) ∧ 1 ≤ r ∧ r ≤ 120000 ∧
      0 ≤ k ∧ k ≤ 120000 ∧
      reconstructPartitionChecked times m r = some (reconstructPartition times m r)) ∧
    accumulate times = times.sum ∧
    (∀ T, isFeasible T times m = isFeasibleExact T times m) ∧
    (∀ T, reconstructPartition times m T = reconstructPartitionExact times m T) ∧
    ∀ T, (∀ t ∈ times, t ≤ T) → T ≤ 2147483647 →
      (reconstructPartition times m T).map (machineLoad times)
        = (reconstructPartition times m T).map (blockLoad times) := by
  obtain ⟨hsize, -, hrange⟩ := (validateInput_ok_iff times m false).mp hv
  have hn : 50 ≤ (times.length : Int) ∧ (times.length : Int) ≤ 5000 := by
    rcases hsize with h | h
    · cases h
    · exact h
  have hpos : PositiveTimes times := positive_of_inRange times hrange
  have hts := nonneg_of_positive times hpos
  have hne : times ≠ [] := by
    intro hnil
    rw [hnil] at hn
    simp at hn
  have hsum : times.sum ≤ 120000 := by
    have := sum_le_length_mul times 24 (fun x hx => (hrange x hx).2)
    omega
  obtain ⟨M, hM, hmem, -⟩ := maxElement_spec times hne
  have hM1 : 1 ≤ M := hpos M hmem
  have hMs : M ≤ times.sum := le_sum_of_mem_positive times hpos M hmem
  have hacceq : accumulate times = times.sum := accumulate_eq_sum times (by omega) (by omega)
  have hacc : accumulateChecked times 0 = some (accumulate times) := by
    rw [accumulateChecked_eq times 0 hpos (le_refl 0) (by omega), hacceq]
    simp
  have hfeas : ∀ T, 0 ≤ T → T ≤ 120000 →
      isFeasibleChecked T times m = some (isFeasible T times m) := by
    intro T hT0 hT
    exact isFeasibleChecked_eq T m times hpos hT0 (by omega) (by omega)
  have hchk : searchLoopChecked times m (times.sum - M).toNat M times.sum 0
      = searchLoop times m (times.sum - M).toNat M times.sum 0 :=
    searchLoopChecked_eq times m hpos (by omega) _ M times.sum 0 (by omega) (by omega)
      (le_refl 0) (by omega)
  obtain ⟨r, k, hloop0, -⟩ := searchLoop_returns times m (times.sum - M).toNat M times.sum 0
    (by omega) (by omega) (by omega) (le_refl _)
  have hloop : searchLoop times m searchFuel M times.sum 0 = some (r, k) :=
    searchLoop_fuel_irrelevant times m _ searchFuel M times.sum 0 (r, k)
      (toNat_le_searchFuel _ _ (by omega) (by omega)) hloop0
  have hf : findOptimalMakespan times m = some (r, k) := by
    simp only [findOptimalMakespan, hM, hacceq]
    exact hloop
  have hsearch : findOptimalMakespanChecked times m = findOptimalMakespan times m := by
    rw [hf]
    simp only [findOptimalMakespanChecked, hM, hacc, hacceq]
    rw [hchk]
    exact hloop0
  obtain ⟨hb1, hb2⟩ := searchLoop_bounds times m _ M times.sum 0 r k (by omega) (by omega)
    (by omega) hMs hloop
  have hk := searchLoop_checks_eq_calls times m searchFuel M times.sum 0 r k
    (by omega) (by omega) (by omega) (le_refl 0) (by omega) hloop
  obtain ⟨-, -, hlen⟩ := searchCalls_length_bound times m searchFuel M times.sum
    (by omega) (by omega) (by omega)
  refine ⟨hsum, hacc, hfeas, hsearch, ⟨r, k, hf, by omega, by omega, by omega, by omega, ?_⟩,
    hacceq, fun T => isFeasible_eq_exact T m times hts (by omega),
    fun T => reconstructPartition_eq_exact times m T hts (by omega),
    fun T hT hT2 => machine_loads_eq times m T hts (by omega) hT2 hT⟩
  simp only [reconstructPartitionChecked,
    inRange32_eq_some (times.length : Int) (by omega) (by omega)]
  rw [reconstructPartition_eq_exact times m r hts (by omega)]
  exact reconstructLoopChecked_eq_exact r (by omega) times 0 [] [] 0
    (fun t ht => ⟨by have := (hrange t ht).1; omega, by have := (hrange t ht).2; omega⟩)
    (le_refl 0) (by omega)

set_option maxRecDepth 100000 in
theorem production_arithmetic_in_range_witness :
    validateInput (List.replicate 50 24) 10 false = .ok () ∧
    (List.replicate 50 (24 : Int)).sum ≤ 120000 ∧
    accumulateChecked (List.replicate 50 24) 0 = some (accumulate (List.replicate 50 24)) ∧
    (∀ T, 0 ≤ T → T ≤ 120000 →
      isFeasibleChecked T (List.replicate 50 24) 10
        = some (isFeasible T (List.replicate 50 24) 10)) ∧
    findOptimalMakespanChecked (List.replicate 50 24) 10
      = findOptimalMakespan (List.replicate 50 24) 10 ∧
    (∃ r k, findOptimalMakespan (List.replicate 50 24) 10 = some (r, k) ∧ 1 ≤ r ∧
      r ≤ 120000 ∧ 0 ≤ k ∧ k ≤ 120000 ∧
      reconstructPartitionChecked (List.replicate 50 24) 10 r
        = some (reconstructPartition (List.replicate 50 24) 10 r)) ∧
    accumulate (List.replicate 50 24) = (List.replicate 50 (24 : Int)).sum ∧
    (∀ T, isFeasible T (List.replicate 50 24) 10 = isFeasibleExact T (List.replicate 50 24) 10) ∧
    (∀ T, reconstructPartition (List.replicate 50 24) 10 T
      = reconstructPartitionExact (List.replicate 50 24) 10 T) ∧
    ∀ T, (∀ t ∈ List.replicate 50 (24 : Int), t ≤ T) → T ≤ 2147483647 →
      (reconstructPartition (List.replicate 50 24) 10 T).map
          (machineLoad (List.replicate 50 24))
        = (reconstructPartition (List.replicate 50 24) 10 T).map
          (blockLoad (List.replicate 50 24)) :=
  ⟨by decide, production_arithmetic_in_range (List.replicate 50 24) 10 (by decide)⟩


theorem milp_firstBadTime_eq (ts : List Int) :
    ∀ i : Nat, MILPSolver.firstBadTime ts i = firstBadTime ts i := by
  induction ts with
  | nil => intro i; rfl
  | cons t ts ih =>
    intro i
    simp only [MILPSolver.firstBadTime, firstBadTime, ih]

/-- Claim C30: for every times, `m` and mode flag, `MILPSolver::validateInput`
and the `validateInput` of the pseudo-polynomial solver return the same result:
both accept or both reject, with the same error and the same message. -/
theorem validators_agree (times : List Int) (m : Int) (is_test_mode : Bool) :
    MILPSolver.validateInput times m is_test_mode = validateInput times m is_test_mode ∧
    (MILPSolver.validateInput times m is_test_mode = .ok () ↔
      validateInput times m is_test_mode = .ok ()) ∧
    ∀ e1 e2, MILPSolver.validateInput times m is_test_mode = .error e1 →
      validateInput times m is_test_mode = .error e2 → e1 = e2 ∧ e1.text = e2.text := by
  have heq : MILPSolver.validateInput times m is_test_mode
      = validateInput times m is_test_mode := by
    simp only [MILPSolver.validateInput, validateInput, milp_firstBadTime_eq]
  refine ⟨heq, by rw [heq], ?_⟩
  intro e1 e2 h1 h2
  rw [heq, h2] at h1
  have := Except.error.inj h1
  subst this
  exact ⟨rfl, rfl⟩

end PseudoPoly
